import Mathlib

/-!
Verification of the PLIP interaction-detection core (`plip/modules/detection.py`,
`plip/modules/supplemental.py`) against its natural-language specification.

Modelling conventions:
* 3D coordinates are real-valued (`Vec3`); the Python floats are idealized as `ℝ`.
* `numpy` vector operations (`+`, `np.cross`, `np.dot`, `np.linalg.norm`) are the
  usual componentwise/real operations on `Vec3`.
* `vecangle` omits the source's `round(dm / cm, 10)`: that rounding only guards
  against floating-point drift, which exact reals do not have.
* Functions that can raise a Python exception are modelled in `Except Unit`.
* The upstream `config` module is not part of the analyzed sources; thresholds are
  a `Config` record threaded through every detector.
* Residue-metadata accessors (`whichrestype`, `whichresnumber`, `whichchain`,
  `GetAtomProperty`) query the external perception toolkit; they are modelled as
  fields carried by the input features.
-/

/-- A 3D point / vector (`numpy` array of length 3 in the source). -/
structure Vec3 where
  x : ℝ
  y : ℝ
  z : ℝ

noncomputable instance : DecidableEq Vec3 := Classical.decEq _

/-- Componentwise sum (`numpy` array addition). -/
def vadd (a b : Vec3) : Vec3 := ⟨a.x + b.x, a.y + b.y, a.z + b.z⟩

/-- Scalar multiple (`[sb * pn for pn in pnormal]`). -/
def smul (c : ℝ) (a : Vec3) : Vec3 := ⟨c * a.x, c * a.y, c * a.z⟩

/-- `np.dot` of two 3-vectors. -/
def dot3 (a b : Vec3) : ℝ := a.x * b.x + a.y * b.y + a.z * b.z

/-- `np.cross` of two 3-vectors. -/
def cross3 (a b : Vec3) : Vec3 :=
  ⟨a.y * b.z - a.z * b.y, a.z * b.x - a.x * b.z, a.x * b.y - a.y * b.x⟩

/-- `np.linalg.norm` of a 3-vector. -/
noncomputable def norm3 (a : Vec3) : ℝ := Real.sqrt (dot3 a a)

/-- `supplemental.vector`: the vector from `p1` to `p2` (the length-mismatch
`None` branch cannot trigger for two `Vec3` arguments). -/
def vector (p1 p2 : Vec3) : Vec3 := ⟨p2.x - p1.x, p2.y - p1.y, p2.z - p1.z⟩

/-- `supplemental.euclidean3d` applied to two 3-coordinate points (every call
site in `detection.py` passes 3D coordinates). -/
noncomputable def euclidean3d (v1 v2 : Vec3) : ℝ :=
  Real.sqrt ((v1.x - v2.x) ^ 2 + (v1.y - v2.y) ^ 2 + (v1.z - v2.z) ^ 2)

/-- `supplemental.euclidean3d` on raw coordinate sequences, keeping the source's
length guard: `if not len(v1) == 3 and len(v2) == 3` (which, by Python operator
precedence, is `(not len(v1) == 3) and (len(v2) == 3)`) prints a message and
returns `None`; otherwise the subscripts `v1[i]`, `v2[i]` for `i = 0,1,2` are
evaluated and raise `IndexError` (modelled as `.error ()`) when either sequence
is shorter than 3. -/
noncomputable def euclidean3dSeq (v1 v2 : List ℝ) : Except Unit (Option ℝ) :=
  if ¬ v1.length = 3 ∧ v2.length = 3 then Except.ok none
  else
    match v1[0]?, v1[1]?, v1[2]?, v2[0]?, v2[1]?, v2[2]? with
    | some a, some b, some c, some d, some e, some f =>
        Except.ok (some (Real.sqrt ((a - d) ^ 2 + (b - e) ^ 2 + (c - f) ^ 2)))
    | _, _, _, _, _, _ => Except.error ()

/-- `supplemental.vecangle` (degrees): `0.0` for `np.array_equal` arguments,
otherwise `degrees(arccos(dot / (norm * norm)))`. -/
noncomputable def vecangle (v1 v2 : Vec3) : ℝ :=
  if v1 = v2 then 0
  else Real.arccos (dot3 v1 v2 / (norm3 v1 * norm3 v2)) * (180 / Real.pi)

/-- `supplemental.projection`: orthogonal projection of `tpoint` onto the plane
through `ppoint` with normal `pnormal1`, after flipping the normal towards the
side of `tpoint`. -/
noncomputable def projection (pnormal1 ppoint tpoint : Vec3) : Vec3 :=
  let pnormal2 : Vec3 := ⟨-pnormal1.x, -pnormal1.y, -pnormal1.z⟩
  let d1 := euclidean3d tpoint (vadd pnormal1 ppoint)
  let d2 := euclidean3d tpoint (vadd pnormal2 ppoint)
  let pnormal := if d1 < d2 then pnormal1 else pnormal2
  let sn := -(dot3 pnormal (vector ppoint tpoint))
  let sd := dot3 pnormal pnormal
  let sb := sn / sd
  vadd tpoint (smul sb pnormal)

/-- The configuration object (`config` module).  Only thresholds referenced by
the analyzed detectors are included. -/
structure Config where
  HYDROPH_DIST_MAX : ℝ
  PISTACK_DIST_MAX : ℝ
  PISTACK_ANG_DEV : ℝ
  PISTACK_OFFSET_MAX : ℝ
  PICATION_DIST_MAX : ℝ
  SALTBRIDGE_DIST_MAX : ℝ
  HALOGEN_DIST_MAX : ℝ
  HALOGEN_ACC_ANGLE : ℝ
  HALOGEN_DON_ANGLE : ℝ
  HALOGEN_ANGLE_DEV : ℝ
  WATER_BRIDGE_MINDIST : ℝ
  WATER_BRIDGE_MAXDIST : ℝ
  WATER_BRIDGE_THETA_MIN : ℝ
  WATER_BRIDGE_OMEGA_MIN : ℝ
  WATER_BRIDGE_OMEGA_MAX : ℝ
  METAL_DIST_MAX : ℝ
  HBOND_DIST_MAX : ℝ
  HBOND_DON_ANGLE_MIN : ℝ

/-- Modelled from the spec: the repository's `config.py` is not among the
analyzed sources.  Values named in spec section 8 (`SALTBRIDGE_DIST_MAX` 5.5,
`HALOGEN_ACC_ANGLE` 120, `HALOGEN_DON_ANGLE` 165, `HALOGEN_ANGLE_DEV` 30,
`HALOGEN_DIST_MAX` 4.0) are taken from there; the remaining thresholds use the
project's published defaults, which only serve as representative positive
constants for concrete witnesses. -/
noncomputable def specConfig : Config where
  HYDROPH_DIST_MAX := 4.0
  PISTACK_DIST_MAX := 7.5
  PISTACK_ANG_DEV := 30
  PISTACK_OFFSET_MAX := 2.0
  PICATION_DIST_MAX := 6.0
  SALTBRIDGE_DIST_MAX := 5.5
  HALOGEN_DIST_MAX := 4.0
  HALOGEN_ACC_ANGLE := 120
  HALOGEN_DON_ANGLE := 165
  HALOGEN_ANGLE_DEV := 30
  WATER_BRIDGE_MINDIST := 2.5
  WATER_BRIDGE_MAXDIST := 4.0
  WATER_BRIDGE_THETA_MIN := 100
  WATER_BRIDGE_OMEGA_MIN := 75
  WATER_BRIDGE_OMEGA_MAX := 140
  METAL_DIST_MAX := 3.0
  HBOND_DIST_MAX := 4.1
  HBOND_DON_ANGLE_MIN := 100

/-- An atom as read by the detection core: original file index, coordinates,
type string, and the residue metadata returned by `whichrestype` /
`whichresnumber` / `whichchain` for it. -/
structure Atom where
  idx : ℕ
  coords : Vec3
  type : String
  restype : String
  resnr : ℕ
  reschain : String

noncomputable instance : DecidableEq Atom := Classical.decEq _

/-! ### Hydrophobic interactions -/

/-- An entry of a hydrophobic atom set (`a.atom`, `a.orig_idx`). -/
structure HydrophAtom where
  atom : Atom
  orig_idx : ℕ

/-- One `hydroph_interaction` namedtuple. -/
structure HydrophRecord where
  bsatom : Atom
  bsatom_orig_idx : ℕ
  ligatom : Atom
  ligatom_orig_idx : ℕ
  distance : ℝ
  restype : String
  resnr : ℕ
  reschain : String

/-- `detection.hydrophobic_interactions`. -/
noncomputable def hydrophobic_interactions (cfg : Config)
    (atom_set_a atom_set_b : List HydrophAtom) : List HydrophRecord :=
  atom_set_a.flatMap fun a =>
    atom_set_b.filterMap fun b =>
      let e := euclidean3d a.atom.coords b.atom.coords
      if e < cfg.HYDROPH_DIST_MAX then
        some ⟨a.atom, a.orig_idx, b.atom, b.orig_idx, e,
              a.atom.restype, a.atom.resnr, a.atom.reschain⟩
      else none

/-! ### Pi-stacking -/

/-- An aromatic ring feature.  The source reads residue metadata from
`r.atoms[0]`; those three values are carried directly on the feature. -/
structure ARing where
  center : Vec3
  normal : Vec3
  restype : String
  resnr : ℕ
  reschain : String

noncomputable instance : DecidableEq ARing := Classical.decEq _

/-- One `pistack` namedtuple.  `type` is `"P"` or `"T"`. -/
structure PistackRecord where
  proteinring : ARing
  ligandring : ARing
  distance : ℝ
  angle : ℝ
  offset : ℝ
  type : String
  restype : String
  resnr : ℕ
  reschain : String

/-- The folded normal angle of `pistacking`:
`a = min(b, 180 - b if not 180 - b < 0 else b)`. -/
noncomputable def ringAngle (r l : ARing) : ℝ :=
  let b := vecangle r.normal l.normal
  min b (if ¬ 180 - b < 0 then 180 - b else b)

/-- The ring-center offset of `pistacking`: each ring center is projected into
the other ring's plane and the smaller center distance is kept. -/
noncomputable def ringOffset (r l : ARing) : ℝ :=
  min (euclidean3d (projection l.normal l.center r.center) l.center)
      (euclidean3d (projection r.normal r.center l.center) r.center)

/-- Records emitted by `pistacking` for one ring pair: within
`PISTACK_DIST_MAX`, a `"P"` record for `0 < a < PISTACK_ANG_DEV` and a `"T"`
record for `90 - dev < a < 90 + dev`, each additionally requiring
`offset < PISTACK_OFFSET_MAX`; the two checks are independent. -/
noncomputable def pistackPair (cfg : Config) (r l : ARing) : List PistackRecord :=
  let d := euclidean3d r.center l.center
  let a := ringAngle r l
  let offset := ringOffset r l
  if d < cfg.PISTACK_DIST_MAX then
    (if 0 < a ∧ a < cfg.PISTACK_ANG_DEV ∧ offset < cfg.PISTACK_OFFSET_MAX then
      [⟨r, l, d, a, offset, "P", r.restype, r.resnr, r.reschain⟩] else []) ++
    (if 90 - cfg.PISTACK_ANG_DEV < a ∧ a < 90 + cfg.PISTACK_ANG_DEV ∧
        offset < cfg.PISTACK_OFFSET_MAX then
      [⟨r, l, d, a, offset, "T", r.restype, r.resnr, r.reschain⟩] else [])
  else []

/-- `detection.pistacking`. -/
noncomputable def pistacking (cfg : Config) (rings_bs rings_lig : List ARing) :
    List PistackRecord :=
  rings_bs.flatMap fun r => rings_lig.flatMap fun l => pistackPair cfg r l

/-! ### Pi-cation -/

/-- A positive charge center for `pication`.  `kindIsLcharge` models the
runtime check `type(p).__name__ == 'lcharge'`; `n0`, `n1`, `n2` are the
coordinates of the first three neighbor atoms of the charged nitrogen
(`OBAtomAtomIter(p.atoms[0].OBAtom)`), which exist for a tertiary amine. -/
structure PiCharge where
  center : Vec3
  kindIsLcharge : Bool
  fgroup : String
  n0 : Vec3
  n1 : Vec3
  n2 : Vec3
  restype : String
  resnr : ℕ
  reschain : String

noncomputable instance : DecidableEq PiCharge := Classical.decEq _

/-- One `pication` namedtuple. -/
structure PicationRecord where
  ring : ARing
  charge : PiCharge
  distance : ℝ
  offset : ℝ
  type : String
  restype : String
  resnr : ℕ
  reschain : String
  protcharged : Bool

/-- The distance/offset gate of `pication`:
`d < PICATION_DIST_MAX and offset < PISTACK_OFFSET_MAX`. -/
noncomputable def picationInRange (cfg : Config) (ring : ARing) (p : PiCharge) : Prop :=
  euclidean3d ring.center p.center < cfg.PICATION_DIST_MAX ∧
  euclidean3d (projection ring.normal ring.center p.center) ring.center <
    cfg.PISTACK_OFFSET_MAX

noncomputable instance (cfg : Config) (ring : ARing) (p : PiCharge) :
    Decidable (picationInRange cfg ring p) := instDecidableAnd

/-- The extra tertiary-amine angle test: the folded angle between the ring
normal and the pseudo-normal `cross(n1 - n0, n0 - n2)` must not exceed 30. -/
noncomputable def tertamineAngleOK (ring : ARing) (p : PiCharge) : Prop :=
  let amine_normal := cross3 (vector p.n0 p.n1) (vector p.n2 p.n0)
  let b := vecangle ring.normal amine_normal
  let a := min b (if ¬ 180 - b < 0 then 180 - b else b)
  ¬ a > 30.0

noncomputable instance (ring : ARing) (p : PiCharge) :
    Decidable (tertamineAngleOK ring p) := instDecidableNot

/-- The inner charge loop of `pication` for one ring.  On an in-range charge of
the tertiary-amine sub-kind the Python `break` ends the charge scan for the
current ring, whether or not the angle test accepted the charge. -/
noncomputable def picationScanCharges (cfg : Config) (ring : ARing) :
    List PiCharge → Bool → List PicationRecord
  | [], _ => []
  | p :: rest, protcharged =>
    let d := euclidean3d ring.center p.center
    let offset := euclidean3d (projection ring.normal ring.center p.center) ring.center
    if picationInRange cfg ring p then
      if p.kindIsLcharge ∧ p.fgroup = "tertamine" then
        -- `break`: no recursion into `rest`
        if tertamineAngleOK ring p then
          [⟨ring, p, d, offset, "regular",
            ring.restype, ring.resnr, ring.reschain, protcharged⟩]
        else []
      else
        ⟨ring, p, d, offset, "regular",
          (if protcharged then p.restype else ring.restype),
          (if protcharged then p.resnr else ring.resnr),
          (if protcharged then p.reschain else ring.reschain), protcharged⟩ ::
        picationScanCharges cfg ring rest protcharged
    else picationScanCharges cfg ring rest protcharged

/-- `detection.pication`. -/
noncomputable def pication (cfg : Config) (rings : List ARing)
    (pos_charged : List PiCharge) (protcharged : Bool) : List PicationRecord :=
  if rings.length = 0 ∨ pos_charged.length = 0 then []
  else rings.flatMap fun ring => picationScanCharges cfg ring pos_charged protcharged

/-! ### Salt bridges -/

/-- A charge center for `saltbridge` (fields actually read by the source). -/
structure ChargeCenter where
  center : Vec3
  resnr : ℕ
  restype : String
  reschain : String

/-- One `saltbridge` namedtuple. -/
structure SaltbridgeRecord where
  positive : ChargeCenter
  negative : ChargeCenter
  distance : ℝ
  protispos : Bool
  resnr : ℕ
  restype : String
  reschain : String

/-- `detection.saltbridge`. -/
noncomputable def saltbridge (cfg : Config) (poscenter negcenter : List ChargeCenter)
    (protispos : Bool) : List SaltbridgeRecord :=
  poscenter.flatMap fun pc =>
    negcenter.filterMap fun nc =>
      if euclidean3d pc.center nc.center < cfg.SALTBRIDGE_DIST_MAX then
        some ⟨pc, nc, euclidean3d pc.center nc.center, protispos,
              (if protispos then pc.resnr else nc.resnr),
              (if protispos then pc.restype else nc.restype),
              (if protispos then pc.reschain else nc.reschain)⟩
      else none

/-! ### Halogen bonds -/

/-- A halogen-bond acceptor: carrier oxygen `o` with its bonded partner `y`.
`o_sidechain` models the foreign `GetAtomProperty(protatom, 8)` side-chain
flag. -/
structure HalAcceptor where
  o : Atom
  y : Atom
  o_orig_idx : ℕ
  o_sidechain : Bool

/-- A halogen-bond donor: halogen `x` bonded to carbon `c`. -/
structure HalDonor where
  x : Atom
  c : Atom
  x_orig_idx : ℕ

/-- One `halogenbond` namedtuple. -/
structure HalogenRecord where
  acc : HalAcceptor
  acc_orig_idx : ℕ
  don : HalDonor
  don_orig_idx : ℕ
  distance : ℝ
  don_angle : ℝ
  acc_angle : ℝ
  restype : String
  resnr : ℕ
  reschain : String
  donortype : String
  acctype : String
  sidechain : Bool

/-- The acceptor angle of `halogen`: at the oxygen, between `O → Y` and
`O → X`. -/
noncomputable def halogenAccAngle (acc : HalAcceptor) (don : HalDonor) : ℝ :=
  vecangle (vector acc.o.coords acc.y.coords) (vector acc.o.coords don.x.coords)

/-- The donor angle of `halogen`: at the halogen, between `X → O` and
`X → C`. -/
noncomputable def halogenDonAngle (acc : HalAcceptor) (don : HalDonor) : ℝ :=
  vecangle (vector don.x.coords acc.o.coords) (vector don.x.coords don.c.coords)

/-- `detection.halogen`. -/
noncomputable def halogen (cfg : Config) (acceptor : List HalAcceptor)
    (donor : List HalDonor) : List HalogenRecord :=
  acceptor.flatMap fun acc =>
    donor.filterMap fun don =>
      let dist := euclidean3d acc.o.coords don.x.coords
      if dist < cfg.HALOGEN_DIST_MAX then
        let acc_angle := halogenAccAngle acc don
        let don_angle := halogenDonAngle acc don
        if cfg.HALOGEN_ACC_ANGLE - cfg.HALOGEN_ANGLE_DEV < acc_angle ∧
           acc_angle < cfg.HALOGEN_ACC_ANGLE + cfg.HALOGEN_ANGLE_DEV then
          if cfg.HALOGEN_DON_ANGLE - cfg.HALOGEN_ANGLE_DEV < don_angle ∧
             don_angle < cfg.HALOGEN_DON_ANGLE + cfg.HALOGEN_ANGLE_DEV then
            some ⟨acc, acc.o_orig_idx, don, don.x_orig_idx, dist, don_angle, acc_angle,
                  acc.o.restype, acc.o.resnr, acc.o.reschain,
                  don.x.type, acc.o.type, acc.o_sidechain⟩
          else none
        else none
      else none

/-! ### Water bridges -/

/-- A hydrogen-bond acceptor feature (`acc.a`, `acc.a_orig_idx`). -/
structure HbAcceptor where
  a : Atom
  a_orig_idx : ℕ

/-- A hydrogen-bond donor pair (`don.d`, `don.h`, `don.d_orig_idx`). -/
structure HbDonor where
  d : Atom
  h : Atom
  d_orig_idx : ℕ

/-- One `hbond` namedtuple. -/
structure HbondRecord where
  a : Atom
  a_orig_idx : ℕ
  d : Atom
  d_orig_idx : ℕ
  h : Atom
  distance_ah : ℝ
  distance_ad : ℝ
  angle : ℝ
  type : String
  protisdon : Bool
  resnr : ℕ
  restype : String
  reschain : String
  sidechain : Bool
  atype : String
  dtype : String

/-- `detection.hbonds`.  The side-chain flag read from the OpenBabel residue
(`GetAtomProperty(protatom, 8)`) is modelled as an oracle `issc` on the
protein-side atom.  Only `typ == 'strong'` pairs are emitted; the acceptor-
donor distance must be below `HBOND_DIST_MAX` and the donor angle above
`HBOND_DON_ANGLE_MIN`. -/
noncomputable def hbonds (cfg : Config) (acceptors : List HbAcceptor)
    (donor_pairs : List HbDonor) (protisdon : Bool) (typ : String)
    (issc : Atom → Bool) : List HbondRecord :=
  acceptors.flatMap fun acc =>
    donor_pairs.filterMap fun don =>
      if typ = "strong" then
        let dist_ah := euclidean3d acc.a.coords don.h.coords
        let dist_ad := euclidean3d acc.a.coords don.d.coords
        if dist_ad < cfg.HBOND_DIST_MAX then
          let v := vecangle (vector don.h.coords don.d.coords)
                            (vector don.h.coords acc.a.coords)
          if v > cfg.HBOND_DON_ANGLE_MIN then
            some ⟨acc.a, acc.a_orig_idx, don.d, don.d_orig_idx, don.h,
                  dist_ah, dist_ad, v, typ, protisdon,
                  (if protisdon then don.d.resnr else acc.a.resnr),
                  (if protisdon then don.d.restype else acc.a.restype),
                  (if protisdon then don.d.reschain else acc.a.reschain),
                  issc (if protisdon then don.d else acc.a),
                  acc.a.type, don.d.type⟩
          else none
        else none
      else none

/-- A water feature (`w.oxy`, `w.oxy_orig_idx`). -/
structure WaterFeat where
  oxy : Atom
  oxy_orig_idx : ℕ

/-- One `waterbridge` namedtuple. -/
structure WaterBridgeRecord where
  a : Atom
  a_orig_idx : ℕ
  atype : String
  d : Atom
  d_orig_idx : ℕ
  dtype : String
  h : Atom
  water : Atom
  water_orig_idx : ℕ
  distance_aw : ℝ
  distance_dw : ℝ
  d_angle : ℝ
  w_angle : ℝ
  type : String
  resnr : ℕ
  restype : String
  reschain : String
  protisdon : Bool

/-- Acceptor-water half-bridges: all `(acc, w, dist)` with the acceptor-water
distance inside `[WATER_BRIDGE_MINDIST, WATER_BRIDGE_MAXDIST]` (water-major
iteration order, as in the source). -/
noncomputable def acceptorWaterPairs (cfg : Config) (hba : List HbAcceptor)
    (water : List WaterFeat) : List (HbAcceptor × WaterFeat × ℝ) :=
  water.flatMap fun w =>
    hba.filterMap fun acc =>
      let dist := euclidean3d acc.a.coords w.oxy.coords
      if cfg.WATER_BRIDGE_MINDIST ≤ dist ∧ dist ≤ cfg.WATER_BRIDGE_MAXDIST then
        some (acc, w, dist)
      else none

/-- Donor-water half-bridges: all `(don, w, dist, d_angle)` with the
donor-water distance inside the window and the donor angle above
`WATER_BRIDGE_THETA_MIN`. -/
noncomputable def donorWaterPairs (cfg : Config) (hbd : List HbDonor)
    (water : List WaterFeat) : List (HbDonor × WaterFeat × ℝ × ℝ) :=
  water.flatMap fun w =>
    hbd.filterMap fun don =>
      let dist := euclidean3d don.d.coords w.oxy.coords
      let d_angle := vecangle (vector don.h.coords don.d.coords)
                              (vector don.h.coords w.oxy.coords)
      if (cfg.WATER_BRIDGE_MINDIST ≤ dist ∧ dist ≤ cfg.WATER_BRIDGE_MAXDIST) ∧
         d_angle > cfg.WATER_BRIDGE_THETA_MIN then
        some (don, w, dist, d_angle)
      else none

/-- The bridge angle at the water oxygen, between `A → W` and `W → H`. -/
noncomputable def waterAngle (acc : HbAcceptor) (w : WaterFeat) (don : HbDonor) : ℝ :=
  vecangle (vector acc.a.coords w.oxy.coords) (vector w.oxy.coords don.h.coords)

/-- `detection.water_bridges`: combines an acceptor-water and a donor-water
half-bridge when both reference the same water oxygen and the angle at the
water lies strictly inside the omega window; evaluated in both the
ligand-acceptor/protein-donor and protein-acceptor/ligand-donor directions. -/
noncomputable def water_bridges (cfg : Config) (bs_hba lig_hba : List HbAcceptor)
    (bs_hbd lig_hbd : List HbDonor) (water : List WaterFeat) :
    List WaterBridgeRecord :=
  let lig_aw := acceptorWaterPairs cfg lig_hba water
  let prot_aw := acceptorWaterPairs cfg bs_hba water
  let lig_dw := donorWaterPairs cfg lig_hbd water
  let prot_hw := donorWaterPairs cfg bs_hbd water
  (lig_aw.flatMap fun lp =>
    prot_hw.filterMap fun pp =>
      if lp.2.1.oxy = pp.2.1.oxy then
        let w_angle := waterAngle lp.1 lp.2.1 pp.1
        if cfg.WATER_BRIDGE_OMEGA_MIN < w_angle ∧ w_angle < cfg.WATER_BRIDGE_OMEGA_MAX then
          some ⟨lp.1.a, lp.1.a_orig_idx, lp.1.a.type, pp.1.d, pp.1.d_orig_idx,
                pp.1.d.type, pp.1.h, lp.2.1.oxy, lp.2.1.oxy_orig_idx, lp.2.2,
                pp.2.2.1, pp.2.2.2, w_angle, "first_deg",
                pp.1.d.resnr, pp.1.d.restype, pp.1.d.reschain, true⟩
        else none
      else none) ++
  (prot_aw.flatMap fun pp =>
    lig_dw.filterMap fun lp =>
      if pp.2.1.oxy = lp.2.1.oxy then
        let w_angle := waterAngle pp.1 pp.2.1 lp.1
        if cfg.WATER_BRIDGE_OMEGA_MIN < w_angle ∧ w_angle < cfg.WATER_BRIDGE_OMEGA_MAX then
          some ⟨pp.1.a, pp.1.a_orig_idx, pp.1.a.type, lp.1.d, lp.1.d_orig_idx,
                lp.1.d.type, lp.1.h, pp.2.1.oxy, pp.2.1.oxy_orig_idx, pp.2.2,
                lp.2.2.1, lp.2.2.2, w_angle, "first_deg",
                pp.1.a.resnr, pp.1.a.restype, pp.1.a.reschain, false⟩
        else none
      else none)

/-! ### Metal complexation

`metal_complexation` groups qualifying targets per metal in two Python dicts:
`pairings_dict` (keyed by the metal atom object, insertion order = the order of
the `metals` argument, since the product loop is metal-major) and
`vectors_dict` / `angles_dict` (keyed by the integer `target.atom.idx`; CPython
iterates dicts with small non-negative integer keys in ascending key order, so
they are modelled as key-sorted association lists). -/

/-- A metal feature (`metal.m`, `metal.m_orig_idx`). -/
structure MetalFeat where
  m : Atom
  m_orig_idx : ℕ

/-- A metal-binding target feature (fields read by `metal_complexation`). -/
structure MetalTarget where
  atom : Atom
  atom_orig_idx : ℕ
  type : String
  resnr : ℕ
  restype : String
  reschain : String
  location : String

/-- One entry of `pairings_dict` together with its `metal_to_id` value. -/
structure MCEntry where
  metal : Atom
  morig : ℕ
  pairs : List (MetalTarget × ℝ)

/-- Append one qualifying `(target, distance)` pair to the entry of metal `m`
(`pairings_dict[metal.m].append(...)`), creating the entry, and recording
`metal_to_id[metal.m] = metal.m_orig_idx`, when the metal is new. -/
noncomputable def insertPairing (d : List MCEntry) (m : MetalFeat)
    (pr : MetalTarget × ℝ) : List MCEntry :=
  match d with
  | [] => [⟨m.m, m.m_orig_idx, [pr]⟩]
  | e :: rest =>
    if e.metal = m.m then ⟨e.metal, e.morig, e.pairs ++ [pr]⟩ :: rest
    else e :: insertPairing rest m pr

/-- The grouping loop of `metal_complexation`: metal-major product over all
metals and all targets, keeping pairs with distance below `METAL_DIST_MAX`. -/
noncomputable def buildPairings (cfg : Config) (metals : List MetalFeat)
    (targets : List MetalTarget) : List MCEntry :=
  (metals.flatMap fun m => targets.map fun t => (m, t)).foldl
    (fun d p =>
      let dist := euclidean3d p.1.m.coords p.2.atom.coords
      if dist < cfg.METAL_DIST_MAX then insertPairing d p.1 (p.2, dist) else d) []

/-- Key-sorted insertion for `vectors_dict` (a `defaultdict(list)` keyed by
`target.atom.idx`): appending to the existing key's list, or inserting the key
at its ascending-order position. -/
def insortAppend : List (ℕ × List Vec3) → ℕ → Vec3 → List (ℕ × List Vec3)
  | [], k, v => [(k, [v])]
  | (k2, vs) :: rest, k, v =>
    if k = k2 then (k2, vs ++ [v]) :: rest
    else if k < k2 then (k, [v]) :: (k2, vs) :: rest
    else (k2, vs) :: insortAppend rest k v

/-- `vectors_dict`: one metal-to-target direction vector appended per contact
pair, keyed by the target atom index. -/
noncomputable def buildVectorsDict (metalAtom : Atom)
    (pairs : List (MetalTarget × ℝ)) : List (ℕ × List Vec3) :=
  pairs.foldl
    (fun d p => insortAppend d p.1.atom.idx (vector metalAtom.coords p.1.atom.coords))
    []

/-- `angles_dict`: for each target key, the observed angles from each of its
vectors to every vector of every other key (product order, dict order). -/
noncomputable def anglesDict (vd : List (ℕ × List Vec3)) : List (ℕ × List ℝ) :=
  vd.map fun p =>
    let others := (vd.filter fun q => ¬ q.1 = p.1).flatMap fun q => q.2
    (p.1, p.2.flatMap fun v => others.map fun w => vecangle v w)

/-- The `configs` table: coordination numbers in the order visited
(`sorted(configs, reverse=True)`) with their geometry lists. -/
def cooGeometries : List (ℕ × List String) :=
  [(6, ["octahedral"]),
   (5, ["trigonal.bipyramidal", "square.pyramidal"]),
   (4, ["tetrahedral", "square.planar"]),
   (3, ["trigonal.planar", "trigonal.pyramidal"]),
   (2, ["linear"])]

/-- The `ideal_angles` table: per-vertex ideal-angle signatures. -/
def idealAngles (geometry : String) : List (List ℝ) :=
  if geometry = "linear" then List.replicate 2 [180.0]
  else if geometry = "trigonal.planar" then List.replicate 3 [120.0, 120.0]
  else if geometry = "trigonal.pyramidal" then List.replicate 3 [109.5, 109.5]
  else if geometry = "tetrahedral" then List.replicate 4 [109.5, 109.5, 109.5, 109.5]
  else if geometry = "square.planar" then List.replicate 4 [90.0, 90.0, 90.0, 90.0]
  else if geometry = "trigonal.bipyramidal" then
    List.replicate 3 [120.0, 120.0, 90.0, 90.0] ++
    List.replicate 2 [90.0, 90.0, 90.0, 180.0]
  else if geometry = "square.pyramidal" then
    List.replicate 4 [90.0, 90.0, 90.0, 180.0] ++ [[90.0, 90.0, 90.0, 90.0]]
  else if geometry = "octahedral" then
    List.replicate 6 [90.0, 90.0, 90.0, 90.0, 180.0]
  else []

/-- For one ideal angle: the index and deviation of the best-matching observed
angle not yet used up (`best_match`, `best_match_diff`; first index wins on
equal deviations, initial deviation 999). -/
noncomputable def findBestObs (ideal : ℝ) (observed : List ℝ) (usedObs : List ℕ) :
    Option ℕ × ℝ :=
  observed.enum.foldl
    (fun st p =>
      if p.1 ∈ usedObs then st
      else
        let diff := |ideal - p.2|
        if diff < st.2 then (some p.1, diff) else st)
    (none, 999)

/-- One target's score against one subsignature: ideal angles are greedily
paired (best first-match wins, no observed angle reused) and the score is the
root of the sum of squared deviations. -/
noncomputable def targetTotal (subsignature observed : List ℝ) : ℝ :=
  let st := subsignature.foldl
    (fun (st : List ℕ × List ℝ) ideal =>
      let r := findBestObs ideal observed st.1
      match r.1 with
      | some j => (st.1 ++ [j], st.2 ++ [r.2])
      | none => st)
    ([], [])
  Real.sqrt ((st.2.map fun s => s ^ 2).sum)

/-- The best not-yet-used target for one subsignature (`best_target`,
`best_target_score`; strict improvement keeps the earliest key). -/
noncomputable def bestTargetFor (subsignature : List ℝ) (ad : List (ℕ × List ℝ))
    (used : List (Option ℕ)) : Option ℕ × ℝ :=
  ad.foldl
    (fun st p =>
      if some p.1 ∈ used then st
      else
        let s := targetTotal subsignature p.2
        if s < st.2 then (some p.1, s) else st)
    (none, 999)

/-- The greedy one-to-one assignment for one geometry: assigns each
subsignature its best remaining target, accumulating `used_up_targets` and the
per-vertex scores. -/
noncomputable def geometryFit (signature : List (List ℝ)) (ad : List (ℕ × List ℝ)) :
    List (Option ℕ) × List ℝ :=
  signature.foldl
    (fun st subsignature =>
      let bt := bestTargetFor subsignature ad st.1
      (st.1 ++ [bt.1], st.2 ++ [bt.2]))
    ([], [])

/-- One `gdata` namedtuple. -/
structure Gdata where
  geometry : String
  rms : ℝ
  coordination : ℕ
  excluded : List ℕ
  diff_targets : ℤ

/-- `all_total`: one `gdata` per catalogued geometry, in table order.  The fit
RMS is the mean of the per-vertex scores and `excluded` lists the target keys
left unused by the assignment. -/
noncomputable def allTotal (numTargets : ℕ) (ad : List (ℕ × List ℝ)) : List Gdata :=
  cooGeometries.flatMap fun cg =>
    cg.2.map fun geometry =>
      let fit := geometryFit (idealAngles geometry) ad
      let notUsed := (ad.map Prod.fst).filter fun t => ¬ some t ∈ fit.1
      ⟨geometry, fit.2.sum / (fit.2.length : ℝ), cg.1, notUsed,
       (numTargets : ℤ) - (cg.1 : ℤ)⟩

/-- `all_total` sorted by ascending `abs(diff_targets)` (Python `sorted` is a
stable sort). -/
noncomputable def sortedAllTotal (numTargets : ℕ) (ad : List (ℕ × List ℝ)) :
    List Gdata :=
  (allTotal numTargets ad).mergeSort fun g1 g2 => |g1.diff_targets| ≤ |g2.diff_targets|

/-- The coordination number stored on a metal-complex record: `"NA"` in the
unclassified state, an integer otherwise. -/
inductive CooVal where
  | na : CooVal
  | num : ℕ → CooVal
deriving DecidableEq

/-- The classifier's decision: geometry label, coordination, fit RMS, excluded
target keys. -/
structure MetalDecision where
  geometry : String
  coo : CooVal
  rms : ℝ
  excluded : List ℕ

/-- The decision walk over the ranked candidate list (source lines 364-376):
at each position the body first evaluates `all_total[i + 1]`, accepts the
current candidate when the next RMS exceeds it by more than 0.5, otherwise
prefers the next candidate when its RMS is below 3.5, and otherwise moves on.
At the last position the subscript `all_total[i + 1]` raises `IndexError`
before the `elif i == len(all_total) - 1` fallback (which would set the
`("NA", "NA", 0.0, [])` state) can be reached, so that fallback is dead code;
the `[_]` case therefore yields `.error ()`.  (The `[]` case cannot arise:
`all_total` always has eight entries; Python would fall through with the
decision variables unbound.) -/
noncomputable def decideGeometry : List Gdata → Except Unit MetalDecision
  | [] => Except.error ()
  | [_] => Except.error ()
  | this :: next :: rest =>
    if next.rms - this.rms > 0.5 then
      Except.ok ⟨this.geometry, CooVal.num this.coordination, this.rms, this.excluded⟩
    else if next.rms < 3.5 then
      Except.ok ⟨next.geometry, CooVal.num next.coordination, next.rms, next.excluded⟩
    else decideGeometry (next :: rest)

/-- `set([x[0].location for x in contact_pairs]) == {'water'}`: true exactly
when the pair list is non-empty and every target location is `"water"`. -/
def onlyWater (pairs : List (MetalTarget × ℝ)) : Bool :=
  !pairs.isEmpty && pairs.all fun p => p.1.location == "water"

/-- One `metal_complex` namedtuple. -/
structure MetalComplexRecord where
  metal : Atom
  metal_orig_idx : ℕ
  metal_type : String
  target : MetalTarget
  target_orig_idx : ℕ
  target_type : String
  coordination_num : CooVal
  distance : ℝ
  resnr : ℕ
  restype : String
  reschain : String
  location : String
  rms : ℝ
  geometry : String
  num_partners : ℕ
  complexnum : ℕ

/-- The classification part of the per-metal loop body: the explicit
single-target branch, otherwise the decision walk over the ranked candidate
list. -/
noncomputable def metalDecisionOf (e : MCEntry) : Except Unit MetalDecision :=
  if e.pairs.length = 1 then Except.ok ⟨"NA", CooVal.num 1, 0.0, []⟩
  else decideGeometry (sortedAllTotal e.pairs.length
    (anglesDict (buildVectorsDict e.metal e.pairs)))

/-- The emission part of the per-metal loop body: one record per contact pair
whose target key is not excluded; none at all when every target is water. -/
noncomputable def emitRecords (cnum : ℕ) (e : MCEntry) (dec : MetalDecision) :
    List MetalComplexRecord :=
  if onlyWater e.pairs then []
  else
    e.pairs.filterMap fun p =>
      if p.1.atom.idx ∈ dec.excluded then none
      else
        some ⟨e.metal, e.morig, e.metal.type, p.1, p.1.atom_orig_idx, p.1.type,
              dec.coo, p.2, p.1.resnr, p.1.restype, p.1.reschain, p.1.location,
              dec.rms, dec.geometry, e.pairs.length, cnum + 1⟩

/-- The per-metal body of the `for cnum, metal in enumerate(pairings_dict)`
loop: classify (possibly raising), then emit. -/
noncomputable def metalRecords (cnum : ℕ) (e : MCEntry) :
    Except Unit (List MetalComplexRecord) :=
  (metalDecisionOf e).map (emitRecords cnum e)

/-- `detection.metal_complexation`.  A raised `IndexError` anywhere in the
per-metal loop aborts the whole call (`.error ()`). -/
noncomputable def metal_complexation (cfg : Config) (metals : List MetalFeat)
    (metal_binding_lig metal_binding_bs : List MetalTarget) :
    Except Unit (List MetalComplexRecord) :=
  let pd := buildPairings cfg metals (metal_binding_lig ++ metal_binding_bs)
  (pd.enum.mapM fun p => metalRecords p.1 p.2).map List.flatten

/-! ### Cluster utility (`supplemental.cluster_doubles`)

Elements are modelled as natural numbers; the `location` hashtable is a partial
map from elements to cluster indices (only membership tests and single-key
lookups are performed on it, so no iteration order is involved).  Python sets
become `Finset ℕ`; the final `map(tuple, clusters)` only changes the container
type and is dropped. -/

/-- The clustering state: the `clusters` list and the `location` table. -/
structure CDState where
  clusters : List (Finset ℕ)
  location : ℕ → Option ℕ

/-- Rebuilding `location` from scratch after a merge: every element of
`clusters[i]` is mapped to `i` (later clusters win, which is immaterial because
the clusters are pairwise disjoint whenever this runs). -/
def rebuildLoc (clusters : List (Finset ℕ)) : ℕ → Option ℕ :=
  clusters.enum.foldl
    (fun loc p => fun y => if y ∈ p.2 then some p.1 else loc y)
    (fun _ => none)

/-- Merging the clusters at positions `i ≠ j`: the smaller index receives the
union, the larger index is spliced out (`clusters[:j] + clusters[j+1:]`).
List indices are always in range when this runs (see `cdInv_step`); `getD`
supplies a default that is never used. -/
def mergeClusters (clusters : List (Finset ℕ)) (i j : ℕ) : List (Finset ℕ) :=
  if i < j then
    (clusters.set i ((clusters.getD i ∅) ∪ (clusters.getD j ∅))).eraseIdx j
  else
    (clusters.set j ((clusters.getD j ∅) ∪ (clusters.getD i ∅))).eraseIdx i

/-- Processing one double `(a, b)` (the body of the `for t in double_list`
loop). -/
def cdStep (s : CDState) (t : ℕ × ℕ) : CDState :=
  let a := t.1
  let b := t.2
  match s.location a, s.location b with
  | some la, some lb =>
    if la ≠ lb then
      let cl := mergeClusters s.clusters la lb
      ⟨cl, rebuildLoc cl⟩
    else s
  | _, _ =>
    -- the source's else-branch: three sequential conditional updates
    let s1 : CDState :=
      match s.location a with
      | some la => ⟨s.clusters.set la ((s.clusters.getD la ∅) ∪ {b}),
                    fun y => if y = b then some la else s.location y⟩
      | none => s
    let s2 : CDState :=
      match s1.location b with
      | some lb => ⟨s1.clusters.set lb ((s1.clusters.getD lb ∅) ∪ {a}),
                    fun y => if y = a then some lb else s1.location y⟩
      | none => s1
    if (s2.location b).isSome ∧ (s2.location a).isSome then s2
    else ⟨s2.clusters ++ [{a, b}],
          fun y => if y = a ∨ y = b then some s2.clusters.length else s2.location y⟩

/-- `supplemental.cluster_doubles`. -/
def cluster_doubles (double_list : List (ℕ × ℕ)) : List (Finset ℕ) :=
  (double_list.foldl cdStep ⟨[], fun _ => none⟩).clusters

/-- The undirected adjacency generated by the input pairs. -/
def pairAdj (l : List (ℕ × ℕ)) (x y : ℕ) : Prop := (x, y) ∈ l ∨ (y, x) ∈ l

/-- Path connectivity over the input pairs. -/
def pairConn (l : List (ℕ × ℕ)) : ℕ → ℕ → Prop := Relation.ReflTransGen (pairAdj l)

/-- Occurrence of an element in some input pair. -/
def inPairs (l : List (ℕ × ℕ)) (x : ℕ) : Prop := ∃ p ∈ l, x = p.1 ∨ x = p.2

/-! ## Evaluation helpers for concrete witnesses -/

theorem Vec3.mk_ne (a b c d e f : ℝ)
    (h : ¬ (a = d ∧ b = e ∧ c = f)) : (⟨a, b, c⟩ : Vec3) ≠ ⟨d, e, f⟩ := by
  intro hc
  exact h ⟨congrArg Vec3.x hc, congrArg Vec3.y hc, congrArg Vec3.z hc⟩

theorem euclidean3d_eval (a b c d e f : ℝ) :
    euclidean3d ⟨a, b, c⟩ ⟨d, e, f⟩ =
      Real.sqrt ((a - d) ^ 2 + (b - e) ^ 2 + (c - f) ^ 2) := rfl

theorem sqrt_nine : Real.sqrt 9 = 3 := by
  rw [show (9 : ℝ) = 3 ^ 2 by norm_num, Real.sqrt_sq (by norm_num)]

theorem sqrt_four : Real.sqrt 4 = 2 := by
  rw [show (4 : ℝ) = 2 ^ 2 by norm_num, Real.sqrt_sq (by norm_num)]

theorem sqrt_sixteen : Real.sqrt 16 = 4 := by
  rw [show (16 : ℝ) = 4 ^ 2 by norm_num, Real.sqrt_sq (by norm_num)]

theorem vecangle_eval (v1 v2 : Vec3) (h : v1 ≠ v2) :
    vecangle v1 v2 = Real.arccos (dot3 v1 v2 / (norm3 v1 * norm3 v2)) *
      (180 / Real.pi) := by
  simp only [vecangle, if_neg h]

theorem arccos_neg_one_deg : Real.arccos (-1) * (180 / Real.pi) = 180 := by
  rw [Real.arccos_neg_one]
  field_simp

theorem arccos_zero_deg : Real.arccos 0 * (180 / Real.pi) = 90 := by
  rw [Real.arccos_zero]
  field_simp
  ring

theorem arccos_neg_half : Real.arccos (-(1 / 2)) = 2 * Real.pi / 3 := by
  rw [Real.arccos_neg, show (1 / 2 : ℝ) = Real.cos (Real.pi / 3) from Real.cos_pi_div_three.symm,
    Real.arccos_cos (by positivity) (by linarith [Real.pi_pos])]
  ring

theorem arccos_neg_half_deg : Real.arccos (-(1 / 2)) * (180 / Real.pi) = 120 := by
  rw [arccos_neg_half]
  field_simp
  ring

/-! ## C5: the distance primitive on malformed input -/

/-- C5 counterexample: calling the distance primitive with a 2-coordinate first
argument and a 3-coordinate second argument does not signal a
precondition-violation fault; it returns the null value `None`
(`Except.ok none`), refuting the claim that the primitive "never silently
returns a degraded or null value in place of a distance". -/
theorem euclidean3d_malformed_returns_none :
    euclidean3dSeq [0, 0] [0, 0, 0] = Except.ok none := by
  simp [euclidean3dSeq]

/-- C5 (corrected): whenever the first argument is not a 3-coordinate point and
the second is, `euclidean3d` prints a message and returns the null value `None`
instead of raising a precondition-violation fault. -/
theorem euclidean3d_not3d_returns_none (v1 v2 : List ℝ)
    (h1 : ¬ v1.length = 3) (h2 : v2.length = 3) :
    euclidean3dSeq v1 v2 = Except.ok none := by
  simp only [euclidean3dSeq, if_pos (And.intro h1 h2)]

/-- C5 witness: the corrected statement applied at the concrete call
`euclidean3d([0, 0], [0, 0, 0])`. -/
theorem euclidean3d_not3d_returns_none_witness :
    euclidean3dSeq [1, 2] [3, 4, 5] = Except.ok none :=
  euclidean3d_not3d_returns_none [1, 2] [3, 4, 5] (by simp) (by simp)

/-! ## C8: every record satisfies its own class's inclusion criteria -/

theorem except_ok_bind {α β : Type} (a : α) (f : α → Except Unit β) :
    (Except.ok a >>= f) = f a := rfl

theorem except_error_bind {α β : Type} (u : Unit) (f : α → Except Unit β) :
    ((Except.error u : Except Unit α) >>= f) = Except.error u := rfl

theorem mapM_ok_forall2 {α β : Type} (f : α → Except Unit β) :
    ∀ (l : List α) (out : List β), l.mapM f = Except.ok out →
      List.Forall₂ (fun x y => f x = Except.ok y) l out := by
  intro l
  induction l with
  | nil =>
    intro out h
    rw [← List.mapM'_eq_mapM] at h
    simp only [List.mapM'] at h
    cases h
    exact List.Forall₂.nil
  | cons a tail ih =>
    intro out h
    rw [← List.mapM'_eq_mapM] at h
    simp only [List.mapM'] at h
    cases hfa : f a with
    | error u => rw [hfa, except_error_bind] at h; cases h
    | ok b =>
      rw [hfa, except_ok_bind] at h
      cases htail : mapM' f tail with
      | error u => rw [htail, except_error_bind] at h; cases h
      | ok bs =>
        rw [htail, except_ok_bind] at h
        cases h
        rw [List.mapM'_eq_mapM] at htail
        exact List.Forall₂.cons hfa (ih bs htail)

theorem forall2_mem_right {α β : Type} {R : α → β → Prop} :
    ∀ {l1 : List α} {l2 : List β}, List.Forall₂ R l1 l2 →
      ∀ b ∈ l2, ∃ a ∈ l1, R a b := by
  intro l1 l2 h
  induction h with
  | nil => intro b hb; cases hb
  | cons hR _ ih =>
    intro b hb
    rcases List.mem_cons.mp hb with h1 | h2
    · exact ⟨_, List.mem_cons_self .., h1 ▸ hR⟩
    · obtain ⟨a, ha, hr⟩ := ih b h2
      exact ⟨a, List.mem_cons_of_mem _ ha, hr⟩


/-- Every record produced by the charge scan of `pication` for one ring was
accepted by the distance/offset gate, and its stored distance and offset are
the gated quantities. -/
theorem picationScan_bound (cfg : Config) (ring : ARing) :
    ∀ (charges : List PiCharge) (pc : Bool) (c : PicationRecord),
      c ∈ picationScanCharges cfg ring charges pc →
      c.distance < cfg.PICATION_DIST_MAX ∧ c.offset < cfg.PISTACK_OFFSET_MAX := by
  intro charges
  induction charges with
  | nil =>
    intro pc c hc
    simp [picationScanCharges] at hc
  | cons p rest ih =>
    intro pc c hc
    simp only [picationScanCharges] at hc
    split at hc
    · rename_i hin
      simp only [picationInRange] at hin
      split at hc
      · split at hc
        · rw [List.mem_singleton] at hc
          subst hc
          exact hin
        · simp at hc
      · rcases List.mem_cons.mp hc with h1 | h1
        · subst h1
          exact hin
        · exact ih pc c h1
    · exact ih pc c hc

/-- Every acceptor-water half-bridge's stored distance lies inside the
water-bridge distance window. -/
theorem acceptorWaterPairs_bound (cfg : Config) (hba : List HbAcceptor)
    (water : List WaterFeat) :
    ∀ t ∈ acceptorWaterPairs cfg hba water,
      cfg.WATER_BRIDGE_MINDIST ≤ t.2.2 ∧ t.2.2 ≤ cfg.WATER_BRIDGE_MAXDIST := by
  intro t ht
  simp only [acceptorWaterPairs, List.mem_flatMap, List.mem_filterMap] at ht
  obtain ⟨w, _, acc, _, hsome⟩ := ht
  split at hsome
  · rename_i hcond
    cases hsome
    exact hcond
  · cases hsome

/-- Every donor-water half-bridge's stored distance lies inside the window and
its stored donor angle is above the theta minimum. -/
theorem donorWaterPairs_bound (cfg : Config) (hbd : List HbDonor)
    (water : List WaterFeat) :
    ∀ t ∈ donorWaterPairs cfg hbd water,
      (cfg.WATER_BRIDGE_MINDIST ≤ t.2.2.1 ∧ t.2.2.1 ≤ cfg.WATER_BRIDGE_MAXDIST) ∧
      t.2.2.2 > cfg.WATER_BRIDGE_THETA_MIN := by
  intro t ht
  simp only [donorWaterPairs, List.mem_flatMap, List.mem_filterMap] at ht
  obtain ⟨w, _, don, _, hsome⟩ := ht
  split at hsome
  · rename_i hcond
    cases hsome
    exact hcond
  · cases hsome

/-- `insertPairing` preserves the per-pair distance bound when the inserted
pair satisfies it. -/
theorem insertPairing_pairs_bound (B : ℝ) :
    ∀ (d : List MCEntry) (m : MetalFeat) (pr : MetalTarget × ℝ),
      (∀ e ∈ d, ∀ p ∈ e.pairs, p.2 < B) → pr.2 < B →
      ∀ e ∈ insertPairing d m pr, ∀ p ∈ e.pairs, p.2 < B := by
  intro d
  induction d with
  | nil =>
    intro m pr _ hpr e he p hp
    simp only [insertPairing, List.mem_singleton] at he
    subst he
    simp only [List.mem_singleton] at hp
    subst hp
    exact hpr
  | cons e0 rest ih =>
    intro m pr hall hpr e he p hp
    simp only [insertPairing] at he
    split at he
    · rcases List.mem_cons.mp he with h1 | h1
      · subst h1
        rcases List.mem_append.mp hp with h2 | h2
        · exact hall e0 (List.mem_cons_self ..) p h2
        · rw [List.mem_singleton] at h2
          subst h2
          exact hpr
      · exact hall e (List.mem_cons_of_mem _ h1) p hp
    · rcases List.mem_cons.mp he with h1 | h1
      · exact hall e (List.mem_cons.mpr (Or.inl h1)) p hp
      · exact ih m pr (fun e2 he2 => hall e2 (List.mem_cons_of_mem _ he2)) hpr e h1 p hp

/-- The grouping fold of `metal_complexation` only ever inserts pairs whose
distance passed the `METAL_DIST_MAX` gate. -/
theorem pairings_fold_bound (cfg : Config) :
    ∀ (l : List (MetalFeat × MetalTarget)) (d : List MCEntry),
      (∀ e ∈ d, ∀ p ∈ e.pairs, p.2 < cfg.METAL_DIST_MAX) →
      ∀ e ∈ l.foldl (fun d p =>
          let dist := euclidean3d p.1.m.coords p.2.atom.coords
          if dist < cfg.METAL_DIST_MAX then insertPairing d p.1 (p.2, dist) else d) d,
        ∀ p ∈ e.pairs, p.2 < cfg.METAL_DIST_MAX := by
  intro l
  induction l with
  | nil =>
    intro d hd
    simpa using hd
  | cons q t ih =>
    intro d hd
    rw [List.foldl_cons]
    apply ih
    dsimp only
    by_cases hq : euclidean3d q.1.m.coords q.2.atom.coords < cfg.METAL_DIST_MAX
    · rw [if_pos hq]
      exact insertPairing_pairs_bound _ d q.1
        (q.2, euclidean3d q.1.m.coords q.2.atom.coords) hd hq
    · rw [if_neg hq]
      exact hd

/-- Every pair stored in `pairings_dict` has distance below `METAL_DIST_MAX`. -/
theorem buildPairings_pairs_bound (cfg : Config) (metals : List MetalFeat)
    (ts : List MetalTarget) :
    ∀ e ∈ buildPairings cfg metals ts, ∀ p ∈ e.pairs, p.2 < cfg.METAL_DIST_MAX := by
  unfold buildPairings
  exact pairings_fold_bound cfg _ [] (by intro e he; simp at he)

/-- C8: for every detector and every input, every stored measurement on an
emitted record satisfies the threshold predicate of its own record class: a
hydrophobic record's distance is below `HYDROPH_DIST_MAX`; a salt-bridge
record's distance is below `SALTBRIDGE_DIST_MAX`; a halogen-bond record's
distance and both stored angles satisfy the distance bound and both angle
windows; a hydrogen-bond record's acceptor-donor distance is below
`HBOND_DIST_MAX` and its donor angle above `HBOND_DON_ANGLE_MIN`; a
pi-stacking record's distance and offset are below their bounds and its angle
lies in the window of its own type (`"P"` or `"T"`); a pi-cation record's
distance and offset are below their bounds; a water-bridge record's two
stored distances lie inside the distance window, its donor angle is above the
theta minimum and its water angle strictly inside the omega window; and every
metal-complex record of a successful `metal_complexation` call has its stored
distance below `METAL_DIST_MAX`. -/
theorem records_satisfy_own_thresholds :
    (∀ (cfg : Config) (A B : List HydrophAtom) (c : HydrophRecord),
        c ∈ hydrophobic_interactions cfg A B → c.distance < cfg.HYDROPH_DIST_MAX) ∧
    (∀ (cfg : Config) (P N : List ChargeCenter) (protispos : Bool) (c : SaltbridgeRecord),
        c ∈ saltbridge cfg P N protispos → c.distance < cfg.SALTBRIDGE_DIST_MAX) ∧
    (∀ (cfg : Config) (A : List HalAcceptor) (D : List HalDonor) (c : HalogenRecord),
        c ∈ halogen cfg A D →
          c.distance < cfg.HALOGEN_DIST_MAX ∧
          (cfg.HALOGEN_ACC_ANGLE - cfg.HALOGEN_ANGLE_DEV < c.acc_angle ∧
           c.acc_angle < cfg.HALOGEN_ACC_ANGLE + cfg.HALOGEN_ANGLE_DEV) ∧
          (cfg.HALOGEN_DON_ANGLE - cfg.HALOGEN_ANGLE_DEV < c.don_angle ∧
           c.don_angle < cfg.HALOGEN_DON_ANGLE + cfg.HALOGEN_ANGLE_DEV)) ∧
    (∀ (cfg : Config) (A : List HbAcceptor) (D : List HbDonor) (protisdon : Bool)
        (typ : String) (issc : Atom → Bool) (c : HbondRecord),
        c ∈ hbonds cfg A D protisdon typ issc →
          c.distance_ad < cfg.HBOND_DIST_MAX ∧ c.angle > cfg.HBOND_DON_ANGLE_MIN) ∧
    (∀ (cfg : Config) (rings_bs rings_lig : List ARing) (c : PistackRecord),
        c ∈ pistacking cfg rings_bs rings_lig →
          c.distance < cfg.PISTACK_DIST_MAX ∧ c.offset < cfg.PISTACK_OFFSET_MAX ∧
          ((c.type = "P" ∧ 0 < c.angle ∧ c.angle < cfg.PISTACK_ANG_DEV) ∨
           (c.type = "T" ∧ 90 - cfg.PISTACK_ANG_DEV < c.angle ∧
            c.angle < 90 + cfg.PISTACK_ANG_DEV))) ∧
    (∀ (cfg : Config) (rings : List ARing) (charged : List PiCharge)
        (protcharged : Bool) (c : PicationRecord),
        c ∈ pication cfg rings charged protcharged →
          c.distance < cfg.PICATION_DIST_MAX ∧ c.offset < cfg.PISTACK_OFFSET_MAX) ∧
    (∀ (cfg : Config) (bs_hba lig_hba : List HbAcceptor) (bs_hbd lig_hbd : List HbDonor)
        (water : List WaterFeat) (c : WaterBridgeRecord),
        c ∈ water_bridges cfg bs_hba lig_hba bs_hbd lig_hbd water →
          (cfg.WATER_BRIDGE_MINDIST ≤ c.distance_aw ∧
           c.distance_aw ≤ cfg.WATER_BRIDGE_MAXDIST) ∧
          (cfg.WATER_BRIDGE_MINDIST ≤ c.distance_dw ∧
           c.distance_dw ≤ cfg.WATER_BRIDGE_MAXDIST) ∧
          c.d_angle > cfg.WATER_BRIDGE_THETA_MIN ∧
          (cfg.WATER_BRIDGE_OMEGA_MIN < c.w_angle ∧
           c.w_angle < cfg.WATER_BRIDGE_OMEGA_MAX)) ∧
    (∀ (cfg : Config) (metals : List MetalFeat) (lig bs : List MetalTarget)
        (recs : List MetalComplexRecord),
        metal_complexation cfg metals lig bs = Except.ok recs →
          ∀ c ∈ recs, c.distance < cfg.METAL_DIST_MAX) := by
  refine ⟨?_, ?_, ?_, ?_, ?_, ?_, ?_, ?_⟩
  · intro cfg A B c hc
    simp only [hydrophobic_interactions, List.mem_flatMap, List.mem_filterMap] at hc
    obtain ⟨a, _, b, _, hb⟩ := hc
    split at hb
    · cases hb
      assumption
    · exact absurd hb (by simp)
  · intro cfg P N protispos c hc
    simp only [saltbridge, List.mem_flatMap, List.mem_filterMap] at hc
    obtain ⟨pc, _, nc, _, hb⟩ := hc
    split at hb
    · cases hb
      assumption
    · exact absurd hb (by simp)
  · intro cfg A D c hc
    simp only [halogen, List.mem_flatMap, List.mem_filterMap] at hc
    obtain ⟨acc, _, don, _, hb⟩ := hc
    split at hb
    · split at hb
      · split at hb
        · cases hb
          refine ⟨by assumption, by assumption, by assumption⟩
        · exact absurd hb (by simp)
      · exact absurd hb (by simp)
    · exact absurd hb (by simp)
  · intro cfg A D protisdon typ issc c hc
    simp only [hbonds, List.mem_flatMap, List.mem_filterMap] at hc
    obtain ⟨acc, _, don, _, hsome⟩ := hc
    split at hsome
    · split at hsome
      · rename_i hdist
        split at hsome
        · rename_i hang
          cases hsome
          exact ⟨hdist, hang⟩
        · cases hsome
      · cases hsome
    · cases hsome
  · intro cfg rings_bs rings_lig c hc
    simp only [pistacking, List.mem_flatMap] at hc
    obtain ⟨r, _, l, _, hpair⟩ := hc
    simp only [pistackPair] at hpair
    split at hpair
    · rename_i hd
      rcases List.mem_append.mp hpair with h1 | h1
      · split at h1
        · rename_i hP
          rw [List.mem_singleton] at h1
          subst h1
          exact ⟨hd, hP.2.2, Or.inl ⟨rfl, hP.1, hP.2.1⟩⟩
        · simp at h1
      · split at h1
        · rename_i hT
          rw [List.mem_singleton] at h1
          subst h1
          exact ⟨hd, hT.2.2, Or.inr ⟨rfl, hT.1, hT.2.1⟩⟩
        · simp at h1
    · simp at hpair
  · intro cfg rings charged protcharged c hc
    simp only [pication] at hc
    split at hc
    · simp at hc
    · simp only [List.mem_flatMap] at hc
      obtain ⟨ring, _, hscan⟩ := hc
      exact picationScan_bound cfg ring charged protcharged c hscan
  · intro cfg bs_hba lig_hba bs_hbd lig_hbd water c hc
    simp only [water_bridges, List.mem_append, List.mem_flatMap,
      List.mem_filterMap] at hc
    rcases hc with ⟨lp, hlp, pp, hpp, hsome⟩ | ⟨pp, hpp, lp, hlp, hsome⟩
    · split at hsome
      · split at hsome
        · rename_i homega
          cases hsome
          exact ⟨acceptorWaterPairs_bound cfg _ _ lp hlp,
            (donorWaterPairs_bound cfg _ _ pp hpp).1,
            (donorWaterPairs_bound cfg _ _ pp hpp).2, homega⟩
        · cases hsome
      · cases hsome
    · split at hsome
      · split at hsome
        · rename_i homega
          cases hsome
          exact ⟨acceptorWaterPairs_bound cfg _ _ pp hpp,
            (donorWaterPairs_bound cfg _ _ lp hlp).1,
            (donorWaterPairs_bound cfg _ _ lp hlp).2, homega⟩
        · cases hsome
      · cases hsome
  · intro cfg metals lig bs recs hok c hc
    simp only [metal_complexation] at hok
    cases hmm : (buildPairings cfg metals (lig ++ bs)).enum.mapM
        (fun p => metalRecords p.1 p.2) with
    | error u =>
      rw [hmm] at hok
      exact absurd hok (by simp [Except.map])
    | ok outs =>
      rw [hmm] at hok
      simp only [Except.map] at hok
      have hrecs : recs = outs.flatten := (Except.ok.inj hok).symm
      subst hrecs
      rw [List.mem_flatten] at hc
      obtain ⟨out, hout, hcout⟩ := hc
      have hF := mapM_ok_forall2 _ _ _ hmm
      obtain ⟨q, hq, hqr⟩ := forall2_mem_right hF out hout
      have hqpd : q.2 ∈ buildPairings cfg metals (lig ++ bs) := by
        rw [← List.enum_map_snd (buildPairings cfg metals (lig ++ bs))]
        exact List.mem_map_of_mem _ hq
      rw [metalRecords] at hqr
      cases hdec : metalDecisionOf q.2 with
      | error u =>
        rw [hdec] at hqr
        exact absurd hqr (by simp [Except.map])
      | ok dec =>
        rw [hdec] at hqr
        simp only [Except.map] at hqr
        have hout2 : out = emitRecords q.1 q.2 dec := (Except.ok.inj hqr).symm
        subst hout2
        simp only [emitRecords] at hcout
        split at hcout
        · simp at hcout
        · simp only [List.mem_filterMap] at hcout
          obtain ⟨pr, hpr, hsome⟩ := hcout
          split at hsome
          · cases hsome
          · cases hsome
            exact buildPairings_pairs_bound cfg metals (lig ++ bs) q.2 hqpd pr hpr

/-- Witness fixture: a binding-site carbon at the origin. -/
def c8HydroA : HydrophAtom := ⟨⟨1, ⟨0, 0, 0⟩, "C", "ALA", 10, "A"⟩, 1⟩

/-- Witness fixture: a ligand carbon at distance 3. -/
def c8HydroB : HydrophAtom := ⟨⟨2, ⟨3, 0, 0⟩, "C", "UNL", 1, "Z"⟩, 2⟩

theorem c8_hydro_mem :
    (⟨c8HydroA.atom, 1, c8HydroB.atom, 2, 3, "ALA", 10, "A"⟩ : HydrophRecord) ∈
      hydrophobic_interactions specConfig [c8HydroA] [c8HydroB] := by
  norm_num [hydrophobic_interactions, euclidean3d, specConfig, sqrt_nine,
    c8HydroA, c8HydroB]

/-- Witness fixture: a positive charge center at the origin. -/
def c8Pos : ChargeCenter := ⟨⟨0, 0, 0⟩, 5, "LYS", "A"⟩

/-- Witness fixture: a negative charge center at distance 3. -/
def c8Neg : ChargeCenter := ⟨⟨3, 0, 0⟩, 6, "ASP", "A"⟩

theorem c8_salt_mem :
    (⟨c8Pos, c8Neg, 3, true, 5, "LYS", "A"⟩ : SaltbridgeRecord) ∈
      saltbridge specConfig [c8Pos] [c8Neg] true := by
  norm_num [saltbridge, euclidean3d, specConfig, sqrt_nine, c8Pos, c8Neg]

/-- Witness fixture: a halogen-bond acceptor whose `O → Y` bond makes a 120
degree angle with the `O → X` direction. -/
noncomputable def c8HalAcc : HalAcceptor :=
  ⟨⟨3, ⟨0, 0, 0⟩, "O3", "SER", 7, "A"⟩,
   ⟨4, ⟨-(1 / 2), Real.sqrt 3 / 2, 0⟩, "C", "SER", 7, "A"⟩, 3, false⟩

/-- Witness fixture: a halogen donor along the x-axis (donor angle 180). -/
def c8HalDon : HalDonor :=
  ⟨⟨5, ⟨3, 0, 0⟩, "Cl", "UNL", 1, "Z"⟩, ⟨6, ⟨4, 0, 0⟩, "C", "UNL", 1, "Z"⟩, 5⟩

theorem c8_hal_acc_angle : halogenAccAngle c8HalAcc c8HalDon = 120 := by
  have h3 : Real.sqrt 3 ^ 2 = 3 := Real.sq_sqrt (by norm_num)
  have hne : (⟨-(1 / 2) - 0, Real.sqrt 3 / 2 - 0, 0 - 0⟩ : Vec3) ≠ ⟨3 - 0, 0 - 0, 0 - 0⟩ := by
    apply Vec3.mk_ne
    intro h
    norm_num at h
  rw [halogenAccAngle]
  show vecangle ⟨-(1 / 2) - 0, Real.sqrt 3 / 2 - 0, 0 - 0⟩ ⟨3 - 0, 0 - 0, 0 - 0⟩ = 120
  rw [vecangle_eval _ _ hne]
  have hd : dot3 ⟨-(1 / 2) - 0, Real.sqrt 3 / 2 - 0, 0 - 0⟩ ⟨3 - 0, 0 - 0, 0 - 0⟩ =
      -(3 / 2) := by
    simp [dot3]
    ring
  have hn1 : norm3 ⟨-(1 / 2) - 0, Real.sqrt 3 / 2 - 0, 0 - 0⟩ = 1 := by
    have : dot3 ⟨-(1 / 2) - 0, Real.sqrt 3 / 2 - 0, 0 - 0⟩
        ⟨-(1 / 2) - 0, Real.sqrt 3 / 2 - 0, 0 - 0⟩ = 1 := by
      simp only [dot3]
      nlinarith [h3]
    rw [norm3, this, Real.sqrt_one]
  have hn2 : norm3 ⟨3 - 0, 0 - 0, 0 - 0⟩ = 3 := by
    have : dot3 ⟨3 - 0, 0 - 0, 0 - 0⟩ ⟨3 - 0, 0 - 0, 0 - 0⟩ = 9 := by
      norm_num [dot3]
    rw [norm3, this, sqrt_nine]
  rw [hd, hn1, hn2, show (-(3 / 2) : ℝ) / (1 * 3) = -(1 / 2) by norm_num,
    arccos_neg_half_deg]

theorem c8_hal_don_angle : halogenDonAngle c8HalAcc c8HalDon = 180 := by
  have hne : (⟨0 - 3, 0 - 0, 0 - 0⟩ : Vec3) ≠ ⟨4 - 3, 0 - 0, 0 - 0⟩ := by
    apply Vec3.mk_ne
    intro h
    norm_num at h
  rw [halogenDonAngle]
  show vecangle ⟨0 - 3, 0 - 0, 0 - 0⟩ ⟨4 - 3, 0 - 0, 0 - 0⟩ = 180
  rw [vecangle_eval _ _ hne]
  have hd : dot3 ⟨0 - 3, 0 - 0, 0 - 0⟩ ⟨4 - 3, 0 - 0, 0 - 0⟩ = -3 := by
    norm_num [dot3]
  have hn1 : norm3 ⟨0 - 3, 0 - 0, 0 - 0⟩ = 3 := by
    have : dot3 ⟨0 - 3, 0 - 0, 0 - 0⟩ ⟨0 - 3, 0 - 0, 0 - 0⟩ = 9 := by
      norm_num [dot3]
    rw [norm3, this, sqrt_nine]
  have hn2 : norm3 ⟨4 - 3, 0 - 0, 0 - 0⟩ = 1 := by
    have : dot3 ⟨4 - 3, 0 - 0, 0 - 0⟩ ⟨4 - 3, 0 - 0, 0 - 0⟩ = 1 := by
      norm_num [dot3]
    rw [norm3, this, Real.sqrt_one]
  rw [hd, hn1, hn2, show (-3 : ℝ) / (3 * 1) = -1 by norm_num, arccos_neg_one_deg]

theorem c8_hal_mem :
    (⟨c8HalAcc, 3, c8HalDon, 5, 3, 180, 120, "SER", 7, "A", "Cl", "O3", false⟩ :
        HalogenRecord) ∈ halogen specConfig [c8HalAcc] [c8HalDon] := by
  have hacc := c8_hal_acc_angle
  have hdon := c8_hal_don_angle
  have hdist : euclidean3d c8HalAcc.o.coords c8HalDon.x.coords = 3 := by
    show euclidean3d ⟨0, 0, 0⟩ ⟨3, 0, 0⟩ = 3
    rw [euclidean3d_eval]
    norm_num [sqrt_nine]
  simp only [halogen, List.flatMap_cons, List.flatMap_nil, List.filterMap_cons,
    List.filterMap_nil, hdist, hacc, hdon]
  norm_num [specConfig, c8HalAcc, c8HalDon]

/-! ## C6: the parallel pi-stacking record at folded angle 0 -/

theorem vecangle_self (v : Vec3) : vecangle v v = 0 := by
  simp [vecangle]

/-- Counterexample fixture: a binding-site ring. -/
def c6RingR : ARing := ⟨⟨0, 0, 0⟩, ⟨0, 0, 1⟩, "TYR", 20, "A"⟩

/-- Counterexample fixture: a ligand ring with the identical center and
normal, so the folded normal angle is exactly 0. -/
def c6RingL : ARing := ⟨⟨0, 0, 0⟩, ⟨0, 0, 1⟩, "UNL", 1, "Z"⟩

theorem c6_distance : euclidean3d c6RingR.center c6RingL.center = 0 := by
  show euclidean3d ⟨0, 0, 0⟩ ⟨0, 0, 0⟩ = 0
  rw [euclidean3d_eval]
  norm_num

theorem c6_angle : ringAngle c6RingR c6RingL = 0 := by
  have h : vecangle c6RingR.normal c6RingL.normal = 0 := vecangle_self _
  rw [ringAngle, h]
  norm_num

theorem c6_offset : ringOffset c6RingR c6RingL = 0 := by
  have hproj : projection (⟨0, 0, 1⟩ : Vec3) ⟨0, 0, 0⟩ ⟨0, 0, 0⟩ = ⟨0, 0, 0⟩ := by
    rw [projection]
    norm_num [euclidean3d, vadd, smul, dot3, vector, Real.sqrt_one]
  rw [ringOffset]
  show min (euclidean3d (projection ⟨0, 0, 1⟩ ⟨0, 0, 0⟩ ⟨0, 0, 0⟩) ⟨0, 0, 0⟩)
        (euclidean3d (projection ⟨0, 0, 1⟩ ⟨0, 0, 0⟩ ⟨0, 0, 0⟩) ⟨0, 0, 0⟩) = 0
  rw [hproj, euclidean3d_eval]
  norm_num

/-- C6 counterexample: a ring pair at center distance 0 (below
`PISTACK_DIST_MAX`), folded normal angle exactly 0 (within `PISTACK_ANG_DEV`
of 0), and offset 0 (below `PISTACK_OFFSET_MAX`) for which `pistacking` emits
no record at all: the source requires `0 < a` strictly, so a folded angle of
exactly 0 is not parallel-stacked. -/
theorem pistacking_angle_zero_not_emitted :
    euclidean3d c6RingR.center c6RingL.center < specConfig.PISTACK_DIST_MAX ∧
    ringAngle c6RingR c6RingL = 0 ∧
    ringAngle c6RingR c6RingL < specConfig.PISTACK_ANG_DEV ∧
    ringOffset c6RingR c6RingL < specConfig.PISTACK_OFFSET_MAX ∧
    pistacking specConfig [c6RingR] [c6RingL] = [] := by
  refine ⟨?_, c6_angle, ?_, ?_, ?_⟩
  · rw [c6_distance]; norm_num [specConfig]
  · rw [c6_angle]; norm_num [specConfig]
  · rw [c6_offset]; norm_num [specConfig]
  · simp only [pistacking, List.flatMap_cons, List.flatMap_nil, List.append_nil,
      pistackPair, c6_distance, c6_angle, c6_offset]
    norm_num [specConfig]

/-- C6 (corrected): for every ring pair whose center distance is below
`PISTACK_DIST_MAX`, whose folded normal angle is strictly between 0 and
`PISTACK_ANG_DEV` (a folded angle of exactly 0 is excluded by the source's
strict `0 < a`), and whose offset is below `PISTACK_OFFSET_MAX`, `pistacking`
emits a parallel (type `"P"`) record for that pair. -/
theorem pistacking_parallel_emitted (cfg : Config) (rings_bs rings_lig : List ARing)
    (r l : ARing) (hr : r ∈ rings_bs) (hl : l ∈ rings_lig)
    (hd : euclidean3d r.center l.center < cfg.PISTACK_DIST_MAX)
    (h0 : 0 < ringAngle r l) (h1 : ringAngle r l < cfg.PISTACK_ANG_DEV)
    (ho : ringOffset r l < cfg.PISTACK_OFFSET_MAX) :
    ∃ rec ∈ pistacking cfg rings_bs rings_lig,
      rec.type = "P" ∧ rec.proteinring = r ∧ rec.ligandring = l ∧
      rec.distance = euclidean3d r.center l.center ∧
      rec.angle = ringAngle r l ∧ rec.offset = ringOffset r l := by
  refine ⟨⟨r, l, euclidean3d r.center l.center, ringAngle r l, ringOffset r l,
          "P", r.restype, r.resnr, r.reschain⟩, ?_, rfl, rfl, rfl, rfl, rfl, rfl⟩
  simp only [pistacking, List.mem_flatMap]
  refine ⟨r, hr, l, hl, ?_⟩
  simp only [pistackPair, if_pos hd, if_pos (And.intro h0 (And.intro h1 ho))]
  exact List.mem_append_left _ (List.mem_singleton.mpr rfl)

/-- Witness fixture: a ligand ring whose normal is tilted 15 degrees from the
z-axis. -/
noncomputable def c6TiltedRing : ARing :=
  ⟨⟨0, 0, 0⟩, ⟨Real.sin (Real.pi / 12), 0, Real.cos (Real.pi / 12)⟩, "UNL", 1, "Z"⟩

theorem c6_tilt_angle : ringAngle c6RingR c6TiltedRing = 15 := by
  have hsin : 0 < Real.sin (Real.pi / 12) :=
    Real.sin_pos_of_pos_of_lt_pi (by positivity) (by linarith [Real.pi_pos])
  have hne : (⟨0, 0, 1⟩ : Vec3) ≠
      ⟨Real.sin (Real.pi / 12), 0, Real.cos (Real.pi / 12)⟩ := by
    apply Vec3.mk_ne
    intro h
    exact absurd h.1.symm (ne_of_gt hsin)
  have hb : vecangle c6RingR.normal c6TiltedRing.normal = 15 := by
    show vecangle ⟨0, 0, 1⟩ ⟨Real.sin (Real.pi / 12), 0, Real.cos (Real.pi / 12)⟩ = 15
    rw [vecangle_eval _ _ hne]
    have hd : dot3 ⟨0, 0, 1⟩ ⟨Real.sin (Real.pi / 12), 0, Real.cos (Real.pi / 12)⟩ =
        Real.cos (Real.pi / 12) := by
      simp [dot3]
    have hn1 : norm3 ⟨0, 0, 1⟩ = 1 := by
      have : dot3 (⟨0, 0, 1⟩ : Vec3) ⟨0, 0, 1⟩ = 1 := by norm_num [dot3]
      rw [norm3, this, Real.sqrt_one]
    have hn2 : norm3 ⟨Real.sin (Real.pi / 12), 0, Real.cos (Real.pi / 12)⟩ = 1 := by
      have : dot3 (⟨Real.sin (Real.pi / 12), 0, Real.cos (Real.pi / 12)⟩ : Vec3)
          ⟨Real.sin (Real.pi / 12), 0, Real.cos (Real.pi / 12)⟩ = 1 := by
        have hs := Real.sin_sq_add_cos_sq (Real.pi / 12)
        simp only [dot3]
        nlinarith [hs]
      rw [norm3, this, Real.sqrt_one]
    rw [hd, hn1, hn2, show Real.cos (Real.pi / 12) / (1 * 1) = Real.cos (Real.pi / 12)
      by ring_nf, Real.arccos_cos (by positivity) (by linarith [Real.pi_pos])]
    have hpi := Real.pi_ne_zero
    field_simp
    ring
  rw [ringAngle, hb]
  norm_num

theorem c6_tilt_offset : ringOffset c6RingR c6TiltedRing = 0 := by
  have hs := Real.sin_sq_add_cos_sq (Real.pi / 12)
  have hproj1 : projection c6TiltedRing.normal (⟨0, 0, 0⟩ : Vec3) ⟨0, 0, 0⟩ =
      ⟨0, 0, 0⟩ := by
    show projection ⟨Real.sin (Real.pi / 12), 0, Real.cos (Real.pi / 12)⟩
        ⟨0, 0, 0⟩ ⟨0, 0, 0⟩ = ⟨0, 0, 0⟩
    rw [projection]
    have h1 : ((0:ℝ) - (Real.sin (Real.pi / 12) + 0)) ^ 2 + ((0:ℝ) - (0 + 0)) ^ 2 +
        ((0:ℝ) - (Real.cos (Real.pi / 12) + 0)) ^ 2 = 1 := by nlinarith [hs]
    have h2 : ((0:ℝ) - (-Real.sin (Real.pi / 12) + 0)) ^ 2 + ((0:ℝ) - (-0 + 0)) ^ 2 +
        ((0:ℝ) - (-Real.cos (Real.pi / 12) + 0)) ^ 2 = 1 := by nlinarith [hs]
    simp only [euclidean3d, vadd, vector, smul, dot3, h1, h2]
    norm_num
  have hproj2 : projection c6RingR.normal (⟨0, 0, 0⟩ : Vec3) ⟨0, 0, 0⟩ =
      ⟨0, 0, 0⟩ := by
    show projection ⟨0, 0, 1⟩ ⟨0, 0, 0⟩ ⟨0, 0, 0⟩ = ⟨0, 0, 0⟩
    rw [projection]
    norm_num [euclidean3d, vadd, smul, dot3, vector, Real.sqrt_one]
  rw [ringOffset]
  show min (euclidean3d (projection c6TiltedRing.normal ⟨0, 0, 0⟩ ⟨0, 0, 0⟩) ⟨0, 0, 0⟩)
      (euclidean3d (projection c6RingR.normal ⟨0, 0, 0⟩ ⟨0, 0, 0⟩) ⟨0, 0, 0⟩) = 0
  rw [hproj1, hproj2, euclidean3d_eval]
  norm_num

/-- C6 witness: the corrected statement applied to a concrete ring pair with
folded angle 15 inside the default deviation 30. -/
theorem pistacking_parallel_emitted_witness :
    ∃ rec ∈ pistacking specConfig [c6RingR] [c6TiltedRing],
      rec.type = "P" ∧ rec.proteinring = c6RingR ∧ rec.ligandring = c6TiltedRing ∧
      rec.distance = euclidean3d c6RingR.center c6TiltedRing.center ∧
      rec.angle = ringAngle c6RingR c6TiltedRing ∧
      rec.offset = ringOffset c6RingR c6TiltedRing := by
  have hd : euclidean3d c6RingR.center c6TiltedRing.center = 0 := by
    show euclidean3d ⟨0, 0, 0⟩ ⟨0, 0, 0⟩ = 0
    rw [euclidean3d_eval]
    norm_num
  refine pistacking_parallel_emitted specConfig [c6RingR] [c6TiltedRing] c6RingR
    c6TiltedRing (List.mem_singleton.mpr rfl) (List.mem_singleton.mpr rfl) ?_ ?_ ?_ ?_
  · rw [hd]; norm_num [specConfig]
  · rw [c6_tilt_angle]; norm_num
  · rw [c6_tilt_angle]; norm_num [specConfig]
  · rw [c6_tilt_offset]; norm_num [specConfig]

/-! ## C7: the tertiary-amine early exit in the pi-cation scan -/

/-- Counterexample fixture: a ligand tertiary-amine charge center, with its
three nitrogen neighbors spanning the plane z = 3. -/
def c7Charge : PiCharge :=
  ⟨⟨0, 0, 3⟩, true, "tertamine", ⟨1, 0, 3⟩, ⟨0, 1, 3⟩, ⟨0, 0, 3⟩, "UNL", 1, "Z"⟩

/-- Counterexample fixture: a first aromatic ring 3 below the charge. -/
def c7Ring1 : ARing := ⟨⟨0, 0, 0⟩, ⟨0, 0, 1⟩, "TYR", 20, "A"⟩

/-- Counterexample fixture: a second aromatic ring 3 above the charge. -/
def c7Ring2 : ARing := ⟨⟨0, 0, 6⟩, ⟨0, 0, 1⟩, "TRP", 21, "A"⟩

theorem c7_proj1 :
    projection (⟨0, 0, 1⟩ : Vec3) ⟨0, 0, 0⟩ ⟨0, 0, 3⟩ = ⟨0, 0, 0⟩ := by
  rw [projection]
  norm_num [euclidean3d, vadd, smul, dot3, vector, sqrt_four, sqrt_sixteen]

theorem c7_proj2 :
    projection (⟨0, 0, 1⟩ : Vec3) ⟨0, 0, 6⟩ ⟨0, 0, 3⟩ = ⟨0, 0, 6⟩ := by
  rw [projection]
  norm_num [euclidean3d, vadd, smul, dot3, vector, sqrt_four, sqrt_sixteen]

theorem c7_inRange1 : picationInRange specConfig c7Ring1 c7Charge := by
  constructor
  · show euclidean3d ⟨0, 0, 0⟩ ⟨0, 0, 3⟩ < specConfig.PICATION_DIST_MAX
    rw [euclidean3d_eval]
    norm_num [specConfig, sqrt_nine]
  · show euclidean3d (projection (⟨0, 0, 1⟩ : Vec3) ⟨0, 0, 0⟩ ⟨0, 0, 3⟩) ⟨0, 0, 0⟩ <
      specConfig.PISTACK_OFFSET_MAX
    rw [c7_proj1, euclidean3d_eval]
    norm_num [specConfig]

theorem c7_inRange2 : picationInRange specConfig c7Ring2 c7Charge := by
  constructor
  · show euclidean3d ⟨0, 0, 6⟩ ⟨0, 0, 3⟩ < specConfig.PICATION_DIST_MAX
    rw [euclidean3d_eval]
    norm_num [specConfig, sqrt_nine]
  · show euclidean3d (projection (⟨0, 0, 1⟩ : Vec3) ⟨0, 0, 6⟩ ⟨0, 0, 3⟩) ⟨0, 0, 6⟩ <
      specConfig.PISTACK_OFFSET_MAX
    rw [c7_proj2, euclidean3d_eval]
    norm_num [specConfig]

theorem c7_amine_cross :
    cross3 (vector c7Charge.n0 c7Charge.n1) (vector c7Charge.n2 c7Charge.n0) =
      ⟨0, 0, -1⟩ := by
  show cross3 (vector ⟨1, 0, 3⟩ ⟨0, 1, 3⟩) (vector ⟨0, 0, 3⟩ ⟨1, 0, 3⟩) = ⟨0, 0, -1⟩
  norm_num [cross3, vector]

theorem c7_amine_angle (ring : ARing) (hn : ring.normal = ⟨0, 0, 1⟩) :
    vecangle ring.normal
      (cross3 (vector c7Charge.n0 c7Charge.n1) (vector c7Charge.n2 c7Charge.n0)) =
      180 := by
  rw [c7_amine_cross, hn]
  have hne : (⟨0, 0, 1⟩ : Vec3) ≠ ⟨0, 0, -1⟩ := by
    apply Vec3.mk_ne
    intro h
    norm_num at h
  rw [vecangle_eval _ _ hne]
  have hd : dot3 ⟨0, 0, 1⟩ ⟨0, 0, -1⟩ = -1 := by norm_num [dot3]
  have hn1 : norm3 ⟨0, 0, 1⟩ = 1 := by
    have : dot3 (⟨0, 0, 1⟩ : Vec3) ⟨0, 0, 1⟩ = 1 := by norm_num [dot3]
    rw [norm3, this, Real.sqrt_one]
  have hn2 : norm3 ⟨0, 0, -1⟩ = 1 := by
    have : dot3 (⟨0, 0, -1⟩ : Vec3) ⟨0, 0, -1⟩ = 1 := by norm_num [dot3]
    rw [norm3, this, Real.sqrt_one]
  rw [hd, hn1, hn2, show (-1 : ℝ) / (1 * 1) = -1 by norm_num, arccos_neg_one_deg]

theorem c7_angleOK1 : tertamineAngleOK c7Ring1 c7Charge := by
  simp only [tertamineAngleOK]
  rw [c7_amine_angle c7Ring1 rfl]
  norm_num

theorem c7_angleOK2 : tertamineAngleOK c7Ring2 c7Charge := by
  simp only [tertamineAngleOK]
  rw [c7_amine_angle c7Ring2 rfl]
  norm_num

theorem c7_pication_eval :
    pication specConfig [c7Ring1, c7Ring2] [c7Charge] false =
      [⟨c7Ring1, c7Charge, euclidean3d c7Ring1.center c7Charge.center,
        euclidean3d (projection c7Ring1.normal c7Ring1.center c7Charge.center)
          c7Ring1.center, "regular", "TYR", 20, "A", false⟩,
       ⟨c7Ring2, c7Charge, euclidean3d c7Ring2.center c7Charge.center,
        euclidean3d (projection c7Ring2.normal c7Ring2.center c7Charge.center)
          c7Ring2.center, "regular", "TRP", 21, "A", false⟩] := by
  simp only [pication, List.length_cons, List.length_nil, List.flatMap_cons,
    List.flatMap_nil, picationScanCharges, if_pos c7_inRange1, if_pos c7_inRange2,
    if_pos c7_angleOK1, if_pos c7_angleOK2]
  norm_num [c7Charge, c7Ring1, c7Ring2]

/-- C7 counterexample: a tertiary-amine charge center that is in range of two
distinct rings produces a record for each ring: the source's `break` leaves the
inner charge loop of the current ring, so the next ring tests the same charge
again.  This refutes the claim that the scan stops considering further rings
for that charge center after the first tested ring. -/
theorem pication_tertamine_tests_later_rings :
    (c7Charge.kindIsLcharge ∧ c7Charge.fgroup = "tertamine") ∧
    c7Ring1 ≠ c7Ring2 ∧
    (∃ rec ∈ pication specConfig [c7Ring1, c7Ring2] [c7Charge] false,
        rec.ring = c7Ring1 ∧ rec.charge = c7Charge) ∧
    (∃ rec ∈ pication specConfig [c7Ring1, c7Ring2] [c7Charge] false,
        rec.ring = c7Ring2 ∧ rec.charge = c7Charge) := by
  refine ⟨⟨rfl, rfl⟩, ?_, ?_, ?_⟩
  · intro h
    have := congrArg ARing.resnr h
    simp [c7Ring1, c7Ring2] at this
  · rw [c7_pication_eval]
    exact ⟨_, List.mem_cons_self .., ⟨rfl, rfl⟩⟩
  · rw [c7_pication_eval]
    exact ⟨_, List.mem_cons_of_mem _ (List.mem_cons_self ..), ⟨rfl, rfl⟩⟩

theorem picationScan_ring_eq (cfg : Config) (ring : ARing) :
    ∀ (cs : List PiCharge) (pc : Bool) (rec : PicationRecord),
      rec ∈ picationScanCharges cfg ring cs pc → rec.ring = ring := by
  intro cs
  induction cs with
  | nil => intro pc rec h; simp [picationScanCharges] at h
  | cons q rest ih =>
    intro pc rec h
    simp only [picationScanCharges] at h
    split at h
    · split at h
      · split at h
        · simp only [List.mem_singleton] at h
          rw [h]
        · simp at h
      · rcases List.mem_cons.mp h with h1 | h2
        · rw [h1]
        · exact ih pc rec h2
    · exact ih pc rec h

theorem picationScan_break_scope (cfg : Config) (ring : ARing) (p : PiCharge)
    (hp : p.kindIsLcharge ∧ p.fgroup = "tertamine")
    (hin : picationInRange cfg ring p) :
    ∀ (c1 c2 : List PiCharge) (pc : Bool) (rec : PicationRecord),
      rec ∈ picationScanCharges cfg ring (c1 ++ p :: c2) pc →
      rec.charge ∈ c1 ++ [p] := by
  intro c1
  induction c1 with
  | nil =>
    intro c2 pc rec h
    simp only [List.nil_append, picationScanCharges, if_pos hin, if_pos hp] at h
    split at h
    · simp only [List.mem_singleton] at h
      rw [h]
      simp
    · simp at h
  | cons q rest ih =>
    intro c2 pc rec h
    simp only [List.cons_append, picationScanCharges] at h
    split at h
    · split at h
      · split at h
        · simp only [List.mem_singleton] at h
          rw [h]
          simp
        · simp at h
      · rcases List.mem_cons.mp h with h1 | h2
        · rw [h1]
          simp
        · have := ih c2 pc rec h2
          exact List.mem_cons_of_mem _ this
    · have := ih c2 pc rec h
      exact List.mem_cons_of_mem _ this

/-- C7 (corrected): on an in-range tertiary-amine charge center the scan stops
considering further charge centers for the current ring — whether or not the
extra angle check accepted the charge — so every record of that ring references
a charge at or before the first in-range tertiary amine; other rings continue
to test the same charge center. -/
theorem pication_tertamine_break_scope (cfg : Config) (rings : List ARing)
    (c1 c2 : List PiCharge) (p : PiCharge) (protcharged : Bool) (ring : ARing)
    (hp : p.kindIsLcharge ∧ p.fgroup = "tertamine")
    (hin : picationInRange cfg ring p) :
    ∀ rec ∈ pication cfg rings (c1 ++ p :: c2) protcharged,
      rec.ring = ring → rec.charge ∈ c1 ++ [p] := by
  intro rec h hring
  simp only [pication] at h
  split at h
  · simp at h
  · simp only [List.mem_flatMap] at h
    obtain ⟨r2, _, hmem⟩ := h
    have hr2 : rec.ring = r2 := picationScan_ring_eq cfg r2 _ _ _ hmem
    rw [hr2] at hring
    rw [hring] at hmem
    exact picationScan_break_scope cfg ring p hp hin c1 c2 protcharged rec hmem

/-- Witness fixture: a non-amine charge center listed after the tertiary
amine; the break prevents it from ever being scanned for the same ring. -/
def c7Charge2 : PiCharge :=
  ⟨⟨0, 0, 3⟩, false, "quatamine", ⟨1, 0, 3⟩, ⟨0, 1, 3⟩, ⟨0, 0, 3⟩, "UNL", 1, "Z"⟩

theorem c7_pication_witness_eval :
    pication specConfig [c7Ring1] [c7Charge, c7Charge2] false =
      [⟨c7Ring1, c7Charge, euclidean3d c7Ring1.center c7Charge.center,
        euclidean3d (projection c7Ring1.normal c7Ring1.center c7Charge.center)
          c7Ring1.center, "regular", "TYR", 20, "A", false⟩] := by
  simp only [pication, List.length_cons, List.length_nil, List.flatMap_cons,
    List.flatMap_nil, picationScanCharges, if_pos c7_inRange1, if_pos c7_angleOK1]
  norm_num [c7Charge, c7Ring1]

/-- C7 witness: the corrected statement applied to the concrete record emitted
for the first ring. -/
theorem pication_tertamine_break_scope_witness :
    (⟨c7Ring1, c7Charge, euclidean3d c7Ring1.center c7Charge.center,
      euclidean3d (projection c7Ring1.normal c7Ring1.center c7Charge.center)
        c7Ring1.center, "regular", "TYR", 20, "A", false⟩ :
      PicationRecord).charge ∈ ([] : List PiCharge) ++ [c7Charge] :=
  pication_tertamine_break_scope specConfig [c7Ring1] [] [c7Charge2] c7Charge false
    c7Ring1 ⟨rfl, rfl⟩ c7_inRange1 _
    (by simp only [List.nil_append]; rw [c7_pication_witness_eval]; exact List.mem_singleton.mpr rfl) rfl

/-! ## C9: water bridges share one water oxygen and obey the omega window -/

/-- C9: every water-bridge record combines an acceptor-water half-bridge and a
donor-water half-bridge referencing the identical water oxygen (in one of the
two direction conventions), never two half-bridges with different water
oxygens, and its stored bridge angle at the water lies strictly inside
`(WATER_BRIDGE_OMEGA_MIN, WATER_BRIDGE_OMEGA_MAX)`. -/
theorem water_bridges_same_oxygen (cfg : Config) (bs_hba lig_hba : List HbAcceptor)
    (bs_hbd lig_hbd : List HbDonor) (water : List WaterFeat) :
    ∀ rec ∈ water_bridges cfg bs_hba lig_hba bs_hbd lig_hbd water,
      (cfg.WATER_BRIDGE_OMEGA_MIN < rec.w_angle ∧
       rec.w_angle < cfg.WATER_BRIDGE_OMEGA_MAX) ∧
      ((∃ lp ∈ acceptorWaterPairs cfg lig_hba water,
        ∃ pp ∈ donorWaterPairs cfg bs_hbd water,
          lp.2.1.oxy = pp.2.1.oxy ∧ rec.water = lp.2.1.oxy) ∨
       (∃ pp ∈ acceptorWaterPairs cfg bs_hba water,
        ∃ lp ∈ donorWaterPairs cfg lig_hbd water,
          pp.2.1.oxy = lp.2.1.oxy ∧ rec.water = pp.2.1.oxy)) := by
  intro rec h
  simp only [water_bridges, List.mem_append] at h
  rcases h with h | h
  · simp only [List.mem_flatMap, List.mem_filterMap] at h
    obtain ⟨lp, hlp, pp, hpp, hb⟩ := h
    split at hb
    · split at hb
      · cases hb
        refine ⟨by assumption, Or.inl ⟨lp, hlp, pp, hpp, by assumption, rfl⟩⟩
      · exact absurd hb (by simp)
    · exact absurd hb (by simp)
  · simp only [List.mem_flatMap, List.mem_filterMap] at h
    obtain ⟨pp, hpp, lp, hlp, hb⟩ := h
    split at hb
    · split at hb
      · cases hb
        refine ⟨by assumption, Or.inr ⟨pp, hpp, lp, hlp, by assumption, rfl⟩⟩
      · exact absurd hb (by simp)
    · exact absurd hb (by simp)

/-- Witness fixture: one water oxygen at the origin. -/
def c9Water : WaterFeat := ⟨⟨30, ⟨0, 0, 0⟩, "O3", "HOH", 99, "W"⟩, 30⟩

/-- Witness fixture: a ligand acceptor 3 Angstroms from the water. -/
def c9Acc : HbAcceptor := ⟨⟨31, ⟨3, 0, 0⟩, "O2", "UNL", 1, "Z"⟩, 31⟩

/-- Witness fixture: a protein donor whose hydrogen points at the water. -/
def c9Don : HbDonor := ⟨⟨32, ⟨0, 3, 0⟩, "N3", "LYS", 12, "A"⟩,
  ⟨33, ⟨0, 1, 0⟩, "H", "LYS", 12, "A"⟩, 32⟩

theorem c9_d_angle :
    vecangle (vector c9Don.h.coords c9Don.d.coords)
      (vector c9Don.h.coords c9Water.oxy.coords) = 180 := by
  show vecangle (vector ⟨0, 1, 0⟩ ⟨0, 3, 0⟩) (vector ⟨0, 1, 0⟩ ⟨0, 0, 0⟩) = 180
  have hne : (⟨0 - 0, 3 - 1, 0 - 0⟩ : Vec3) ≠ ⟨0 - 0, 0 - 1, 0 - 0⟩ := by
    apply Vec3.mk_ne
    intro h
    norm_num at h
  show vecangle ⟨0 - 0, 3 - 1, 0 - 0⟩ ⟨0 - 0, 0 - 1, 0 - 0⟩ = 180
  rw [vecangle_eval _ _ hne]
  have hd : dot3 ⟨0 - 0, 3 - 1, 0 - 0⟩ ⟨0 - 0, 0 - 1, 0 - 0⟩ = -2 := by
    norm_num [dot3]
  have hn1 : norm3 ⟨0 - 0, 3 - 1, 0 - 0⟩ = 2 := by
    have : dot3 (⟨0 - 0, 3 - 1, 0 - 0⟩ : Vec3) ⟨0 - 0, 3 - 1, 0 - 0⟩ = 4 := by
      norm_num [dot3]
    rw [norm3, this, sqrt_four]
  have hn2 : norm3 ⟨0 - 0, 0 - 1, 0 - 0⟩ = 1 := by
    have : dot3 (⟨0 - 0, 0 - 1, 0 - 0⟩ : Vec3) ⟨0 - 0, 0 - 1, 0 - 0⟩ = 1 := by
      norm_num [dot3]
    rw [norm3, this, Real.sqrt_one]
  rw [hd, hn1, hn2, show (-2 : ℝ) / (2 * 1) = -1 by norm_num, arccos_neg_one_deg]

theorem c9_w_angle : waterAngle c9Acc c9Water c9Don = 90 := by
  rw [waterAngle]
  show vecangle (vector ⟨3, 0, 0⟩ ⟨0, 0, 0⟩) (vector ⟨0, 0, 0⟩ ⟨0, 1, 0⟩) = 90
  have hne : (⟨0 - 3, 0 - 0, 0 - 0⟩ : Vec3) ≠ ⟨0 - 0, 1 - 0, 0 - 0⟩ := by
    apply Vec3.mk_ne
    intro h
    norm_num at h
  show vecangle ⟨0 - 3, 0 - 0, 0 - 0⟩ ⟨0 - 0, 1 - 0, 0 - 0⟩ = 90
  rw [vecangle_eval _ _ hne]
  have hd : dot3 ⟨0 - 3, 0 - 0, 0 - 0⟩ ⟨0 - 0, 1 - 0, 0 - 0⟩ = 0 := by
    norm_num [dot3]
  have hn1 : norm3 ⟨0 - 3, 0 - 0, 0 - 0⟩ = 3 := by
    have : dot3 (⟨0 - 3, 0 - 0, 0 - 0⟩ : Vec3) ⟨0 - 3, 0 - 0, 0 - 0⟩ = 9 := by
      norm_num [dot3]
    rw [norm3, this, sqrt_nine]
  have hn2 : norm3 ⟨0 - 0, 1 - 0, 0 - 0⟩ = 1 := by
    have : dot3 (⟨0 - 0, 1 - 0, 0 - 0⟩ : Vec3) ⟨0 - 0, 1 - 0, 0 - 0⟩ = 1 := by
      norm_num [dot3]
    rw [norm3, this, Real.sqrt_one]
  rw [hd, hn1, hn2, show (0 : ℝ) / (3 * 1) = 0 by norm_num, arccos_zero_deg]

theorem c9_acc_dist : euclidean3d c9Acc.a.coords c9Water.oxy.coords = 3 := by
  show euclidean3d ⟨3, 0, 0⟩ ⟨0, 0, 0⟩ = 3
  rw [euclidean3d_eval]
  norm_num [sqrt_nine]

theorem c9_don_dist : euclidean3d c9Don.d.coords c9Water.oxy.coords = 3 := by
  show euclidean3d ⟨0, 3, 0⟩ ⟨0, 0, 0⟩ = 3
  rw [euclidean3d_eval]
  norm_num [sqrt_nine]

theorem c9_lig_aw_eval :
    acceptorWaterPairs specConfig [c9Acc] [c9Water] = [(c9Acc, c9Water, 3)] := by
  simp only [acceptorWaterPairs, List.flatMap_cons, List.flatMap_nil,
    List.filterMap_cons, List.filterMap_nil, c9_acc_dist]
  norm_num [specConfig]

theorem c9_prot_hw_eval :
    donorWaterPairs specConfig [c9Don] [c9Water] = [(c9Don, c9Water, 3, 180)] := by
  simp only [donorWaterPairs, List.flatMap_cons, List.flatMap_nil,
    List.filterMap_cons, List.filterMap_nil, c9_don_dist, c9_d_angle]
  norm_num [specConfig]

theorem c9_bridge_eval :
    water_bridges specConfig [] [c9Acc] [c9Don] [] [c9Water] =
      [⟨c9Acc.a, 31, "O2", c9Don.d, 32, "N3", c9Don.h, c9Water.oxy, 30, 3, 3, 180,
        90, "first_deg", 12, "LYS", "A", true⟩] := by
  simp only [water_bridges, c9_lig_aw_eval, c9_prot_hw_eval]
  simp only [acceptorWaterPairs, donorWaterPairs, List.flatMap_nil,
    List.flatMap_cons, List.filterMap_nil, List.filterMap_cons, List.append_nil]
  rw [c9_w_angle]
  norm_num [specConfig, c9Acc, c9Don, c9Water]

/-- C9 witness: the invariant applied to the concrete record produced by one
acceptor-water-donor bridge. -/
theorem water_bridges_same_oxygen_witness :
    (specConfig.WATER_BRIDGE_OMEGA_MIN < (90 : ℝ) ∧
     (90 : ℝ) < specConfig.WATER_BRIDGE_OMEGA_MAX) ∧
    ((∃ lp ∈ acceptorWaterPairs specConfig [c9Acc] [c9Water],
      ∃ pp ∈ donorWaterPairs specConfig [c9Don] [c9Water],
        lp.2.1.oxy = pp.2.1.oxy ∧ c9Water.oxy = lp.2.1.oxy) ∨
     (∃ pp ∈ acceptorWaterPairs specConfig [] [c9Water],
      ∃ lp ∈ donorWaterPairs specConfig [] [c9Water],
        pp.2.1.oxy = lp.2.1.oxy ∧ c9Water.oxy = pp.2.1.oxy)) :=
  water_bridges_same_oxygen specConfig [] [c9Acc] [c9Don] [] [c9Water] _
    (by rw [c9_bridge_eval]; exact List.mem_singleton.mpr rfl)

/-! ## C1: the decision walk at the end of the ranked list -/

/-- "The walk reaches the end of the list without accepting any candidate":
at every adjacent position neither the accept branch (`diff_to_next > 0.5`)
nor the prefer-next branch (`next_rms < 3.5`) fires. -/
def walkPassesAll (l : List Gdata) : Prop :=
  ∀ p ∈ l.zip l.tail, ¬ (p.2.rms - p.1.rms > 0.5) ∧ ¬ (p.2.rms < 3.5)

/-- C1 (code bug): when the decision walk reaches the end of the ranked
candidate list without accepting any candidate, the classifier does not reach
the explicit unclassified `("NA", "NA", 0.0, [])` fallback: the subscript
`all_total[i + 1]` at the final position raises `IndexError` first, so
`metal_complexation` aborts.  The dead `elif i == len(all_total) - 1` branch in
the source shows the fallback was the intended behavior. -/
theorem metal_walk_end_raises :
    ∀ l : List Gdata, l ≠ [] → walkPassesAll l →
      decideGeometry l = Except.error () := by
  intro l
  induction l with
  | nil => intro h; exact absurd rfl h
  | cons a tail ih =>
    intro _ hno
    cases tail with
    | nil => rfl
    | cons b rest =>
      have h0 := hno (a, b) (by
        rw [List.tail_cons, List.zip_cons_cons]
        exact List.mem_cons_self ..)
      dsimp only at h0
      show decideGeometry (a :: b :: rest) = Except.error ()
      simp only [decideGeometry, if_neg h0.1, if_neg h0.2]
      exact ih (by simp) (fun p hp => hno p (by
        rw [List.tail_cons, List.zip_cons_cons]
        exact List.mem_cons_of_mem _ (by simpa using hp)))

/-- A concrete ranked candidate list (the shape `all_total` always has: eight
geometries) on which every walk step declines both branches: all RMS values
equal 4.0. -/
def c1Walk : List Gdata :=
  [⟨"octahedral", 4, 6, [], 0⟩,
   ⟨"trigonal.bipyramidal", 4, 5, [], 1⟩,
   ⟨"square.pyramidal", 4, 5, [], 1⟩,
   ⟨"tetrahedral", 4, 4, [], 2⟩,
   ⟨"square.planar", 4, 4, [], 2⟩,
   ⟨"trigonal.planar", 4, 3, [], 3⟩,
   ⟨"trigonal.pyramidal", 4, 3, [], 3⟩,
   ⟨"linear", 4, 2, [], 4⟩]

/-- C1 witness: on the concrete all-RMS-4.0 candidate list the walk declines
every branch and the classifier raises instead of returning the unclassified
state. -/
theorem metal_walk_end_raises_witness :
    walkPassesAll c1Walk ∧ c1Walk ≠ [] ∧
      decideGeometry c1Walk = Except.error () := by
  have hpass : walkPassesAll c1Walk := by
    intro p hp
    simp only [c1Walk, List.zip_cons_cons, List.tail_cons, List.zip_nil_right,
      List.mem_cons, List.not_mem_nil, or_false] at hp
    rcases hp with h | h | h | h | h | h | h <;> rw [h] <;> norm_num
  exact ⟨hpass, by simp [c1Walk], metal_walk_end_raises c1Walk (by simp [c1Walk]) hpass⟩

/-! ## C2: the decision walk's ordering and tie-break rules -/

/-- The decision walk as the claim words it (for comparison with the source):
accept the current candidate exactly when the current candidate's RMS exceeds
the next candidate's RMS by more than 0.5; otherwise, when the next candidate's
RMS is below 3.5, select the next candidate and stop; at the end of the list,
the unclassified state (spec section 4.3). -/
noncomputable def decideGeometryClaim : List Gdata → Except Unit MetalDecision
  | [] => Except.ok ⟨"NA", CooVal.na, 0.0, []⟩
  | [_] => Except.ok ⟨"NA", CooVal.na, 0.0, []⟩
  | this :: next :: rest =>
    if this.rms - next.rms > 0.5 then
      Except.ok ⟨this.geometry, CooVal.num this.coordination, this.rms, this.excluded⟩
    else if next.rms < 3.5 then
      Except.ok ⟨next.geometry, CooVal.num next.coordination, next.rms, next.excluded⟩
    else decideGeometryClaim (next :: rest)

/-- Counterexample fixture: a current candidate with RMS 10. -/
def c2A : Gdata := ⟨"octahedral", 10, 6, [], 0⟩

/-- Counterexample fixture: a next candidate with RMS 3. -/
def c2B : Gdata := ⟨"trigonal.bipyramidal", 3, 5, [7], 1⟩

/-- C2 counterexample: with current RMS 10 and next RMS 3 the claim's rule
("accept the current candidate when its RMS exceeds the next candidate's RMS
by more than 0.5") accepts the current candidate, but the source computes
`diff_to_next = next_rms - this_rms`, declines, and selects the next candidate
instead: the comparison in the claim is reversed. -/
theorem metal_walk_accept_sign_cex :
    decideGeometry [c2A, c2B] =
      Except.ok ⟨"trigonal.bipyramidal", CooVal.num 5, 3, [7]⟩ ∧
    decideGeometryClaim [c2A, c2B] =
      Except.ok ⟨"octahedral", CooVal.num 6, 10, []⟩ ∧
    decideGeometry [c2A, c2B] ≠ decideGeometryClaim [c2A, c2B] := by
  have h1 : decideGeometry [c2A, c2B] =
      Except.ok ⟨"trigonal.bipyramidal", CooVal.num 5, 3, [7]⟩ := by
    simp only [decideGeometry, c2A, c2B]
    norm_num
  have h2 : decideGeometryClaim [c2A, c2B] =
      Except.ok ⟨"octahedral", CooVal.num 6, 10, []⟩ := by
    simp only [decideGeometryClaim, c2A, c2B]
    norm_num
  refine ⟨h1, h2, ?_⟩
  rw [h1, h2]
  intro h
  have := congrArg (fun r => match r with
    | Except.ok d => d.geometry
    | Except.error _ => "") h
  simp at this

/-- The decision walk with the comparison direction the source actually uses
(the amended claim): accept the current candidate exactly when the next
candidate's RMS exceeds the current candidate's RMS by more than 0.5;
otherwise select the next candidate when its RMS is below 3.5; otherwise move
on (unclassified at the end). -/
noncomputable def decideGeometryAmendedSpec : List Gdata → Except Unit MetalDecision
  | [] => Except.ok ⟨"NA", CooVal.na, 0.0, []⟩
  | [_] => Except.ok ⟨"NA", CooVal.na, 0.0, []⟩
  | this :: next :: rest =>
    if next.rms - this.rms > 0.5 then
      Except.ok ⟨this.geometry, CooVal.num this.coordination, this.rms, this.excluded⟩
    else if next.rms < 3.5 then
      Except.ok ⟨next.geometry, CooVal.num next.coordination, next.rms, next.excluded⟩
    else decideGeometryAmendedSpec (next :: rest)

/-- C2 (corrected): the candidate list is walked in ascending order of
`abs(diff_targets)` (absolute difference between observed target count and
ideal coordination number), and whenever the walk decides (does not run off
the end) it implements exactly the amended rules: accept the current candidate
when the NEXT candidate's RMS exceeds the CURRENT candidate's RMS by more than
0.5, otherwise select the next candidate when its RMS is below the absolute
cutoff 3.5. -/
theorem metal_walk_rules :
    (∀ (numTargets : ℕ) (ad : List (ℕ × List ℝ)),
      List.Sorted (fun g1 g2 : Gdata => |g1.diff_targets| ≤ |g2.diff_targets|)
        (sortedAllTotal numTargets ad)) ∧
    (∀ l : List Gdata, decideGeometry l ≠ Except.error () →
      decideGeometry l = decideGeometryAmendedSpec l) := by
  constructor
  · intro numTargets ad
    have h := @List.sorted_mergeSort Gdata
      (fun g1 g2 : Gdata => decide (|g1.diff_targets| ≤ |g2.diff_targets|))
      (fun a b c hab hbc => by
        simp only [decide_eq_true_eq] at hab hbc ⊢
        exact le_trans hab hbc)
      (fun a b => by
        simp only [Bool.or_eq_true, decide_eq_true_eq]
        exact le_total _ _)
      (allTotal numTargets ad)
    exact h.imp (fun hab => by simpa using hab)
  · intro l
    induction l with
    | nil => intro h; exact absurd rfl h
    | cons a tail ih =>
      cases tail with
      | nil => intro h; exact absurd rfl h
      | cons b rest =>
        intro h
        by_cases hc1 : b.rms - a.rms > 0.5
        · simp only [decideGeometry, decideGeometryAmendedSpec, if_pos hc1]
        · by_cases hc2 : b.rms < 3.5
          · simp only [decideGeometry, decideGeometryAmendedSpec, if_neg hc1, if_pos hc2]
          · have hstep : decideGeometry (a :: b :: rest) = decideGeometry (b :: rest) := by
              simp only [decideGeometry, if_neg hc1, if_neg hc2]
            rw [hstep] at h ⊢
            simp only [decideGeometryAmendedSpec, if_neg hc1, if_neg hc2]
            exact ih h

/-- C2 witness: the corrected walk rules applied at the concrete two-candidate
list with RMS 10 then 3 (the source and the amended description agree there
and select the next candidate). -/
theorem metal_walk_rules_witness :
    decideGeometry [c2A, c2B] = decideGeometryAmendedSpec [c2A, c2B] :=
  metal_walk_rules.2 [c2A, c2B] (by
    have h : decideGeometry [c2A, c2B] =
        Except.ok ⟨"trigonal.bipyramidal", CooVal.num 5, 3, [7]⟩ := by
      simp only [decideGeometry, c2A, c2B]
      norm_num
    rw [h]
    simp)

/-! ## C3: metals with exactly one qualifying target -/

theorem forall2_get {α β : Type} {R : α → β → Prop} {l1 : List α} {l2 : List β}
    (h : List.Forall₂ R l1 l2) (i : ℕ) (h1 : i < l1.length) :
    ∃ h2 : i < l2.length, R (l1.get ⟨i, h1⟩) (l2.get ⟨i, h2⟩) := by
  induction h generalizing i with
  | nil => cases h1
  | cons hR hrest ih =>
    cases i with
    | zero => exact ⟨by simp, hR⟩
    | succ j =>
      obtain ⟨h2, hr⟩ := ih j (Nat.lt_of_succ_lt_succ h1)
      exact ⟨Nat.succ_lt_succ h2, hr⟩

/-- The metal keys produced by `insertPairing`: unchanged when the metal is
already present, extended by the new key otherwise. -/
theorem insertPairing_keys (m : MetalFeat) (pr : MetalTarget × ℝ) :
    ∀ d : List MCEntry,
      (insertPairing d m pr).map MCEntry.metal =
        if m.m ∈ d.map MCEntry.metal then d.map MCEntry.metal
        else d.map MCEntry.metal ++ [m.m] := by
  intro d
  induction d with
  | nil => simp [insertPairing]
  | cons e rest ih =>
    simp only [insertPairing]
    by_cases he : e.metal = m.m
    · rw [if_pos he]
      simp [he]
    · rw [if_neg he]
      simp only [List.map_cons, ih, List.mem_cons]
      by_cases hm : m.m ∈ rest.map MCEntry.metal
      · rw [if_pos hm, if_pos (Or.inr hm)]
      · rw [if_neg hm, if_neg (by
          intro hc
          rcases hc with hc | hc
          · exact he hc.symm
          · exact hm hc)]
        simp

/-- The metal keys of `buildPairings` are pairwise distinct. -/
theorem buildPairings_keys_nodup (cfg : Config) (metals : List MetalFeat)
    (targets : List MetalTarget) :
    ((buildPairings cfg metals targets).map MCEntry.metal).Nodup := by
  rw [buildPairings]
  generalize metals.flatMap (fun m => targets.map fun t => (m, t)) = prod
  have main : ∀ (l : List (MetalFeat × MetalTarget)) (d : List MCEntry),
      (d.map MCEntry.metal).Nodup →
      ((l.foldl (fun d p =>
        let dist := euclidean3d p.1.m.coords p.2.atom.coords
        if dist < cfg.METAL_DIST_MAX then insertPairing d p.1 (p.2, dist) else d) d).map
          MCEntry.metal).Nodup := by
    intro l
    induction l with
    | nil => intro d hd; exact hd
    | cons p rest ih =>
      intro d hd
      simp only [List.foldl_cons]
      apply ih
      split
      · rw [insertPairing_keys]
        split
        · exact hd
        · simp only [List.nodup_append, List.nodup_singleton]
          refine ⟨hd, trivial, ?_⟩
          intro x hx
          simp only [List.mem_singleton]
          intro hc
          rw [hc] at hx
          exact (by assumption : ¬ _ ∈ _) hx
      · exact hd
  exact main prod [] (by simp)

/-- A metal with exactly one contact pair is classified by the explicit
single-target branch: coordination 1, geometry `"NA"`, RMS 0, no exclusions;
one record is emitted unless the lone target is water. -/
theorem metalRecords_single (cnum : ℕ) (e : MCEntry) (p : MetalTarget × ℝ)
    (hp : e.pairs = [p]) :
    metalRecords cnum e = Except.ok (
      if p.1.location = "water" then []
      else [⟨e.metal, e.morig, e.metal.type, p.1, p.1.atom_orig_idx, p.1.type,
             CooVal.num 1, p.2, p.1.resnr, p.1.restype, p.1.reschain, p.1.location,
             0.0, "NA", 1, cnum + 1⟩]) := by
  rw [metalRecords, metalDecisionOf, hp]
  simp only [List.length_singleton, ite_true, eq_self_iff_true]
  rw [show (Except.ok (⟨"NA", CooVal.num 1, 0.0, []⟩ : MetalDecision)).map
    (emitRecords cnum e) = Except.ok (emitRecords cnum e ⟨"NA", CooVal.num 1, 0.0, []⟩)
    from rfl]
  rw [emitRecords, hp]
  by_cases hw : p.1.location = "water"
  · rw [if_pos (by simp [onlyWater, hw]), if_pos hw]
  · rw [if_neg (by simp [onlyWater, hw]), if_neg hw]
    simp [hp]

/-- Every record emitted for one metal entry references that entry's metal
atom. -/
theorem metalRecords_metal_eq (cnum : ℕ) (e : MCEntry)
    (sub : List MetalComplexRecord) (h : metalRecords cnum e = Except.ok sub) :
    ∀ r ∈ sub, r.metal = e.metal := by
  intro r hr
  rw [metalRecords] at h
  cases hd : metalDecisionOf e with
  | error u =>
    rw [hd] at h
    cases h
  | ok dec =>
    rw [hd] at h
    rw [show (Except.ok dec).map (emitRecords cnum e) =
      Except.ok (emitRecords cnum e dec) from rfl] at h
    cases h
    rw [emitRecords] at hr
    split at hr
    · cases hr
    · rcases List.mem_filterMap.mp hr with ⟨q, _, hq⟩
      split at hq
      · cases hq
      · cases hq
        rfl

/-- C3: for every metal center with exactly one qualifying target, every
emitted record for that metal carries coordination number 1, geometry `"NA"`,
RMS 0.0 and partner count 1, and (unless the lone target is water, in which
case the complex is not reportable) the record for that target is emitted,
i.e. the target is not excluded. -/
theorem metal_single_target_records (cfg : Config) (metals : List MetalFeat)
    (lig bs : List MetalTarget) (e : MCEntry) (p : MetalTarget × ℝ)
    (he : e ∈ buildPairings cfg metals (lig ++ bs)) (hp : e.pairs = [p])
    (out : List MetalComplexRecord)
    (hout : metal_complexation cfg metals lig bs = Except.ok out) :
    (∀ r ∈ out, r.metal = e.metal →
      r.coordination_num = CooVal.num 1 ∧ r.geometry = "NA" ∧ r.rms = 0 ∧
      r.num_partners = 1) ∧
    (¬ p.1.location = "water" →
      ∃ r ∈ out, r.metal = e.metal ∧ r.target = p.1 ∧ r.distance = p.2 ∧
        r.coordination_num = CooVal.num 1 ∧ r.geometry = "NA" ∧ r.rms = 0) := by
  rw [metal_complexation] at hout
  cases hm : (List.mapM (fun q => metalRecords q.1 q.2)
      ((buildPairings cfg metals (lig ++ bs)).enum)) with
  | error u =>
    rw [hm] at hout
    cases hout
  | ok outs =>
    rw [hm] at hout
    rw [show (Except.ok outs).map List.flatten = Except.ok outs.flatten from rfl] at hout
    cases hout
    have F2 := mapM_ok_forall2 _ _ _ hm
    constructor
    · intro r hr hmetal
      rcases List.mem_flatten.mp hr with ⟨sub, hsub, hrsub⟩
      rcases forall2_mem_right F2 sub hsub with ⟨q, hq, hQ⟩
      have hq2 : q.2 ∈ buildPairings cfg metals (lig ++ bs) := by
        have := List.mem_map_of_mem Prod.snd hq
        rwa [List.enum_map_snd] at this
      have hrm : r.metal = q.2.metal := metalRecords_metal_eq q.1 q.2 sub hQ r hrsub
      have hsame : q.2 = e := by
        apply List.inj_on_of_nodup_map (buildPairings_keys_nodup cfg metals (lig ++ bs))
          hq2 he
        rw [← hrm, hmetal]
      rw [hsame] at hQ
      rw [metalRecords_single q.1 e p hp] at hQ
      have hsub2 : sub = (if p.1.location = "water" then []
        else [⟨e.metal, e.morig, e.metal.type, p.1, p.1.atom_orig_idx, p.1.type,
             CooVal.num 1, p.2, p.1.resnr, p.1.restype, p.1.reschain, p.1.location,
             0.0, "NA", 1, q.1 + 1⟩]) := by
        cases hQ
        rfl
      rw [hsub2] at hrsub
      split at hrsub
      · cases hrsub
      · rcases List.mem_singleton.mp hrsub with rfl
        exact ⟨rfl, rfl, by norm_num, rfl⟩
    · intro hw
      rcases List.mem_iff_get.mp he with ⟨⟨i, hi⟩, hget⟩
      have hienum : i < (buildPairings cfg metals (lig ++ bs)).enum.length := by
        rw [List.enum_length]
        exact hi
      rcases forall2_get F2 i hienum with ⟨h2, hR⟩
      have henum : (buildPairings cfg metals (lig ++ bs)).enum.get ⟨i, hienum⟩ =
          (i, e) := by
        rw [List.get_eq_getElem, List.getElem_enum]
        rw [← hget]
        rfl
      rw [henum] at hR
      rw [metalRecords_single i e p hp, if_neg hw] at hR
      refine ⟨⟨e.metal, e.morig, e.metal.type, p.1, p.1.atom_orig_idx, p.1.type,
        CooVal.num 1, p.2, p.1.resnr, p.1.restype, p.1.reschain, p.1.location,
        0.0, "NA", 1, i + 1⟩, List.mem_flatten.mpr ⟨_, List.get_mem outs _ h2, ?_⟩,
        rfl, rfl, rfl, rfl, rfl, by norm_num⟩
      have : outs.get ⟨i, h2⟩ =
          [⟨e.metal, e.morig, e.metal.type, p.1, p.1.atom_orig_idx, p.1.type,
            CooVal.num 1, p.2, p.1.resnr, p.1.restype, p.1.reschain, p.1.location,
            0.0, "NA", 1, i + 1⟩] := (Except.ok.inj hR).symm
      rw [this]
      exact List.mem_singleton.mpr rfl

/-- Witness fixture: a zinc ion at the origin. -/
def c3Metal : MetalFeat := ⟨⟨40, ⟨0, 0, 0⟩, "Zn", "ZN", 50, "A"⟩, 40⟩

/-- Witness fixture: a single ligand oxygen target at distance 1. -/
def c3Target : MetalTarget :=
  ⟨⟨41, ⟨1, 0, 0⟩, "O2", "UNL", 1, "Z"⟩, 41, "O2", 1, "UNL", "Z", "ligand"⟩

/-- Witness fixture: the single pairing entry built for the zinc ion. -/
def c3Entry : MCEntry := ⟨c3Metal.m, 40, [(c3Target, 1)]⟩

theorem c3_dist : euclidean3d c3Metal.m.coords c3Target.atom.coords = 1 := by
  show euclidean3d ⟨0, 0, 0⟩ ⟨1, 0, 0⟩ = 1
  rw [euclidean3d_eval]
  norm_num [Real.sqrt_one]

theorem c3_pairings_eval :
    buildPairings specConfig [c3Metal] ([c3Target] ++ []) = [c3Entry] := by
  simp only [buildPairings, List.append_nil, List.flatMap_cons, List.flatMap_nil,
    List.map_cons, List.map_nil, List.append_nil, List.foldl_cons, List.foldl_nil,
    c3_dist]
  rw [if_pos (by norm_num [specConfig])]
  simp [insertPairing, c3Entry, c3Metal]

theorem c3_complexation_eval :
    metal_complexation specConfig [c3Metal] [c3Target] [] =
      Except.ok [⟨c3Metal.m, 40, "Zn", c3Target, 41, "O2", CooVal.num 1, 1, 1,
        "UNL", "Z", "ligand", 0.0, "NA", 1, 1⟩] := by
  rw [metal_complexation]
  simp only [c3_pairings_eval]
  rw [show (List.enum [c3Entry]) = [(0, c3Entry)] from rfl]
  rw [← List.mapM'_eq_mapM]
  simp only [List.mapM']
  rw [metalRecords_single 0 c3Entry (c3Target, 1) rfl]
  rw [if_neg (by simp [c3Target])]
  rfl

/-- C3 witness: the single-target statement applied to a concrete zinc ion
with one ligand target at distance 1. -/
theorem metal_single_target_records_witness :
    (∀ r ∈ [(⟨c3Metal.m, 40, "Zn", c3Target, 41, "O2", CooVal.num 1, 1, 1,
        "UNL", "Z", "ligand", 0.0, "NA", 1, 1⟩ : MetalComplexRecord)],
      r.metal = c3Entry.metal →
      r.coordination_num = CooVal.num 1 ∧ r.geometry = "NA" ∧ r.rms = 0 ∧
      r.num_partners = 1) ∧
    (¬ (c3Target, (1 : ℝ)).1.location = "water" →
      ∃ r ∈ [(⟨c3Metal.m, 40, "Zn", c3Target, 41, "O2", CooVal.num 1, 1, 1,
        "UNL", "Z", "ligand", 0.0, "NA", 1, 1⟩ : MetalComplexRecord)],
        r.metal = c3Entry.metal ∧ r.target = (c3Target, (1 : ℝ)).1 ∧
        r.distance = (c3Target, (1 : ℝ)).2 ∧
        r.coordination_num = CooVal.num 1 ∧ r.geometry = "NA" ∧ r.rms = 0) :=
  metal_single_target_records specConfig [c3Metal] [c3Target] [] c3Entry
    (c3Target, 1)
    (by rw [c3_pairings_eval]; exact List.mem_singleton.mpr rfl) rfl _
    c3_complexation_eval

/-- Witness fixture: a hydrogen-bond acceptor oxygen at distance 3 from the
donor nitrogen. -/
def c8HbAcc : HbAcceptor := ⟨⟨60, ⟨3, 0, 0⟩, "O2", "SER", 7, "A"⟩, 60⟩

/-- Witness fixture: a donor nitrogen at the origin with its hydrogen on the
axis towards the acceptor (donor angle 180). -/
def c8HbDon : HbDonor :=
  ⟨⟨61, ⟨0, 0, 0⟩, "N3", "UNL", 1, "Z"⟩, ⟨62, ⟨1, 0, 0⟩, "H", "UNL", 1, "Z"⟩, 61⟩

theorem c8_hb_angle :
    vecangle (vector c8HbDon.h.coords c8HbDon.d.coords)
      (vector c8HbDon.h.coords c8HbAcc.a.coords) = 180 := by
  have hne : (⟨0 - 1, 0 - 0, 0 - 0⟩ : Vec3) ≠ ⟨3 - 1, 0 - 0, 0 - 0⟩ := by
    apply Vec3.mk_ne
    intro h
    norm_num at h
  show vecangle ⟨0 - 1, 0 - 0, 0 - 0⟩ ⟨3 - 1, 0 - 0, 0 - 0⟩ = 180
  rw [vecangle_eval _ _ hne]
  have hd : dot3 ⟨0 - 1, 0 - 0, 0 - 0⟩ ⟨3 - 1, 0 - 0, 0 - 0⟩ = -2 := by
    norm_num [dot3]
  have hn1 : norm3 ⟨0 - 1, 0 - 0, 0 - 0⟩ = 1 := by
    have h1 : dot3 (⟨0 - 1, 0 - 0, 0 - 0⟩ : Vec3) ⟨0 - 1, 0 - 0, 0 - 0⟩ = 1 := by
      norm_num [dot3]
    rw [norm3, h1, Real.sqrt_one]
  have hn2 : norm3 ⟨3 - 1, 0 - 0, 0 - 0⟩ = 2 := by
    have h2 : dot3 (⟨3 - 1, 0 - 0, 0 - 0⟩ : Vec3) ⟨3 - 1, 0 - 0, 0 - 0⟩ = 4 := by
      norm_num [dot3]
    rw [norm3, h2, sqrt_four]
  rw [hd, hn1, hn2, show (-2 : ℝ) / (1 * 2) = -1 by norm_num, arccos_neg_one_deg]

theorem c8_hb_mem :
    (⟨c8HbAcc.a, 60, c8HbDon.d, 61, c8HbDon.h, 2, 3, 180, "strong", true, 1,
        "UNL", "Z", false, "O2", "N3"⟩ : HbondRecord) ∈
      hbonds specConfig [c8HbAcc] [c8HbDon] true "strong" (fun _ => false) := by
  have had : euclidean3d c8HbAcc.a.coords c8HbDon.d.coords = 3 := by
    show euclidean3d ⟨3, 0, 0⟩ ⟨0, 0, 0⟩ = 3
    rw [euclidean3d_eval]
    norm_num [sqrt_nine]
  have hah : euclidean3d c8HbAcc.a.coords c8HbDon.h.coords = 2 := by
    show euclidean3d ⟨3, 0, 0⟩ ⟨1, 0, 0⟩ = 2
    rw [euclidean3d_eval]
    norm_num [sqrt_four]
  simp only [hbonds, List.flatMap_cons, List.flatMap_nil, List.filterMap_cons,
    List.filterMap_nil, had, hah, c8_hb_angle]
  norm_num [specConfig, c8HbAcc, c8HbDon]

theorem c8_pistack_dist : euclidean3d c6RingR.center c6TiltedRing.center = 0 := by
  show euclidean3d ⟨0, 0, 0⟩ ⟨0, 0, 0⟩ = 0
  rw [euclidean3d_eval]
  norm_num

theorem c8_pistack_mem :
    (⟨c6RingR, c6TiltedRing, 0, 15, 0, "P", "TYR", 20, "A"⟩ : PistackRecord) ∈
      pistacking specConfig [c6RingR] [c6TiltedRing] := by
  simp only [pistacking, List.flatMap_cons, List.flatMap_nil, List.append_nil,
    pistackPair, c8_pistack_dist, c6_tilt_angle, c6_tilt_offset]
  norm_num [specConfig, c6RingR]

/-- C8 witness: the invariant applied to one concrete record of each of the
eight detectors. -/
theorem records_satisfy_own_thresholds_witness :
    ((⟨c8HydroA.atom, 1, c8HydroB.atom, 2, 3, "ALA", 10, "A"⟩ :
        HydrophRecord).distance < specConfig.HYDROPH_DIST_MAX) ∧
    ((⟨c8Pos, c8Neg, 3, true, 5, "LYS", "A"⟩ :
        SaltbridgeRecord).distance < specConfig.SALTBRIDGE_DIST_MAX) ∧
    ((⟨c8HalAcc, 3, c8HalDon, 5, 3, 180, 120, "SER", 7, "A", "Cl", "O3", false⟩ :
        HalogenRecord).distance < specConfig.HALOGEN_DIST_MAX) ∧
    ((⟨c8HbAcc.a, 60, c8HbDon.d, 61, c8HbDon.h, 2, 3, 180, "strong", true, 1,
        "UNL", "Z", false, "O2", "N3"⟩ : HbondRecord).distance_ad <
      specConfig.HBOND_DIST_MAX) ∧
    ((⟨c6RingR, c6TiltedRing, 0, 15, 0, "P", "TYR", 20, "A"⟩ :
        PistackRecord).distance < specConfig.PISTACK_DIST_MAX) ∧
    ((⟨c7Ring1, c7Charge, euclidean3d c7Ring1.center c7Charge.center,
        euclidean3d (projection c7Ring1.normal c7Ring1.center c7Charge.center)
          c7Ring1.center, "regular", "TYR", 20, "A", false⟩ :
        PicationRecord).distance < specConfig.PICATION_DIST_MAX) ∧
    ((⟨c9Acc.a, 31, "O2", c9Don.d, 32, "N3", c9Don.h, c9Water.oxy, 30, 3, 3, 180,
        90, "first_deg", 12, "LYS", "A", true⟩ : WaterBridgeRecord).d_angle >
      specConfig.WATER_BRIDGE_THETA_MIN) ∧
    ((⟨c3Metal.m, 40, "Zn", c3Target, 41, "O2", CooVal.num 1, 1, 1, "UNL", "Z",
        "ligand", 0.0, "NA", 1, 1⟩ : MetalComplexRecord).distance <
      specConfig.METAL_DIST_MAX) :=
  ⟨records_satisfy_own_thresholds.1 specConfig [c8HydroA] [c8HydroB] _ c8_hydro_mem,
   records_satisfy_own_thresholds.2.1 specConfig [c8Pos] [c8Neg] true _ c8_salt_mem,
   (records_satisfy_own_thresholds.2.2.1 specConfig [c8HalAcc] [c8HalDon] _
     c8_hal_mem).1,
   (records_satisfy_own_thresholds.2.2.2.1 specConfig [c8HbAcc] [c8HbDon] true
     "strong" (fun _ => false) _ c8_hb_mem).1,
   (records_satisfy_own_thresholds.2.2.2.2.1 specConfig [c6RingR] [c6TiltedRing] _
     c8_pistack_mem).1,
   (records_satisfy_own_thresholds.2.2.2.2.2.1 specConfig [c7Ring1, c7Ring2]
     [c7Charge] false _ (by rw [c7_pication_eval]; exact List.mem_cons_self ..)).1,
   (records_satisfy_own_thresholds.2.2.2.2.2.2.1 specConfig [] [c9Acc] [c9Don] []
     [c9Water] _ (by rw [c9_bridge_eval]; exact List.mem_singleton.mpr rfl)).2.2.1,
   records_satisfy_own_thresholds.2.2.2.2.2.2.2 specConfig [c3Metal] [c3Target] []
     _ c3_complexation_eval _ (List.mem_singleton.mpr rfl)⟩

/-! ## C4: permutation invariance of the metal-complex record set

The decision stages (`vectors_dict`, `angles_dict`, the scoring and the walk)
depend only on the key-sorted angle dictionary, which is itself invariant under
reordering of a metal's contact pairs; the per-metal record lists are then
permutations of each other, so the emitted record set is unchanged. -/

theorem insort_nil (k : ℕ) (v : Vec3) : insortAppend [] k v = [(k, [v])] := rfl

theorem insort_eq_key (k : ℕ) (vs : List Vec3) (rest : List (ℕ × List Vec3)) (v : Vec3) :
    insortAppend ((k, vs) :: rest) k v = (k, vs ++ [v]) :: rest := by
  simp [insortAppend]

theorem insort_lt_key {k k2 : ℕ} (h : k < k2) (vs : List Vec3)
    (rest : List (ℕ × List Vec3)) (v : Vec3) :
    insortAppend ((k2, vs) :: rest) k v = (k, [v]) :: (k2, vs) :: rest := by
  simp only [insortAppend, if_neg (by omega : ¬ k = k2), if_pos h]

theorem insort_gt_key {k k2 : ℕ} (h : k2 < k) (vs : List Vec3)
    (rest : List (ℕ × List Vec3)) (v : Vec3) :
    insortAppend ((k2, vs) :: rest) k v = (k2, vs) :: insortAppend rest k v := by
  simp only [insortAppend, if_neg (by omega : ¬ k = k2), if_neg (by omega : ¬ k < k2)]

theorem insortAppend_comm (k1 k2 : ℕ) (v1 v2 : Vec3) (h : ¬ k1 = k2) :
    ∀ d, insortAppend (insortAppend d k1 v1) k2 v2 =
         insortAppend (insortAppend d k2 v2) k1 v1 := by
  intro d
  induction d with
  | nil =>
    rcases Nat.lt_trichotomy k1 k2 with hlt | heq | hgt
    · rw [insort_nil, insort_nil, insort_gt_key hlt, insort_nil, insort_lt_key hlt]
    · exact absurd heq h
    · rw [insort_nil, insort_nil, insort_lt_key hgt, insort_gt_key hgt, insort_nil]
  | cons e rest ih =>
    obtain ⟨k, vs⟩ := e
    rcases Nat.lt_trichotomy k1 k with h1 | h1 | h1 <;>
      rcases Nat.lt_trichotomy k2 k with h2 | h2 | h2
    · -- k1 < k, k2 < k
      rcases Nat.lt_trichotomy k1 k2 with h3 | h3 | h3
      · rw [insort_lt_key h1, insort_gt_key h3, insort_lt_key h2, insort_lt_key h3]
      · exact absurd h3 h
      · rw [insort_lt_key h1, insort_lt_key h3, insort_lt_key h2,
          insort_gt_key h3, insort_lt_key h1]
    · -- k1 < k, k2 = k
      subst h2
      rw [insort_lt_key h1, insort_gt_key h1, insort_eq_key, insort_lt_key h1]
    · -- k1 < k, k2 > k
      rw [insort_lt_key h1, insort_gt_key (Nat.lt_trans h1 h2), insort_gt_key h2,
        insort_lt_key h1]
    · -- k1 = k, k2 < k
      subst h1
      rw [insort_eq_key, insort_lt_key h2, insort_lt_key h2, insort_gt_key h2,
        insort_eq_key]
    · -- k1 = k = k2: impossible
      subst h1
      exact absurd h2.symm h
    · -- k1 = k, k2 > k
      subst h1
      rw [insort_eq_key, insort_gt_key h2, insort_gt_key h2, insort_eq_key]
    · -- k1 > k, k2 < k
      rw [insort_gt_key h1, insort_lt_key h2, insort_lt_key h2,
        insort_gt_key (Nat.lt_trans h2 h1), insort_gt_key h1]
    · -- k1 > k, k2 = k
      subst h2
      rw [insort_gt_key h1, insort_eq_key, insort_eq_key, insort_gt_key h1]
    · -- k1 > k, k2 > k
      rw [insort_gt_key h1, insort_gt_key h2, insort_gt_key h2, insort_gt_key h1, ih]

/-- `vectors_dict` is invariant under reordering of the contact pairs, as long
as equal target atom indices only arise from equal contact pairs. -/
theorem buildVectorsDict_perm (metalAtom : Atom)
    (pairs1 pairs2 : List (MetalTarget × ℝ)) (hperm : pairs1.Perm pairs2)
    (hinj : ∀ x ∈ pairs1, ∀ y ∈ pairs1, x.1.atom.idx = y.1.atom.idx → x = y) :
    buildVectorsDict metalAtom pairs1 = buildVectorsDict metalAtom pairs2 := by
  unfold buildVectorsDict
  refine List.Perm.foldl_eq' hperm ?_ []
  intro x hx y hy z
  by_cases hk : x.1.atom.idx = y.1.atom.idx
  · rw [hinj x hx y hy hk]
  · exact insortAppend_comm _ _ _ _ hk z

theorem foldl_flatMap {α β γ : Type} (f : β → α → β) (g : γ → List α) :
    ∀ (l : List γ) (init : β),
      (l.flatMap g).foldl f init = l.foldl (fun acc c => (g c).foldl f acc) init := by
  intro l
  induction l with
  | nil => intro init; rfl
  | cons c rest ih =>
    intro init
    simp only [List.flatMap_cons, List.foldl_append, List.foldl_cons]
    exact ih _

/-- The qualifying `(target, distance)` list of one metal feature, in target
order. -/
noncomputable def qualList (cfg : Config) (m : MetalFeat)
    (ts : List MetalTarget) : List (MetalTarget × ℝ) :=
  ts.filterMap fun t =>
    if euclidean3d m.m.coords t.atom.coords < cfg.METAL_DIST_MAX then
      some (t, euclidean3d m.m.coords t.atom.coords)
    else none

/-- Appending a whole qualifying list to the metal's entry at once. -/
noncomputable def extendEntry : List MCEntry → MetalFeat →
    List (MetalTarget × ℝ) → List MCEntry
  | [], m, q => [⟨m.m, m.m_orig_idx, q⟩]
  | e :: rest, m, q =>
    if e.metal = m.m then ⟨e.metal, e.morig, e.pairs ++ q⟩ :: rest
    else e :: extendEntry rest m q

/-- `extendEntry` guarded against the empty qualifying list (in which case the
grouping loop never touches the dictionary for this metal). -/
noncomputable def optExtend (d : List MCEntry) (m : MetalFeat)
    (q : List (MetalTarget × ℝ)) : List MCEntry :=
  if q.isEmpty then d else extendEntry d m q

/-- One metal feature's slice of the grouping loop. -/
noncomputable def processTargets (cfg : Config) (m : MetalFeat)
    (d : List MCEntry) (ts : List MetalTarget) : List MCEntry :=
  ts.foldl (fun d t =>
    if euclidean3d m.m.coords t.atom.coords < cfg.METAL_DIST_MAX then
      insertPairing d m (t, euclidean3d m.m.coords t.atom.coords)
    else d) d

/-- The metal-major product fold of `buildPairings`, metal by metal. -/
theorem buildPairings_eq_fold (cfg : Config) (metals : List MetalFeat)
    (ts : List MetalTarget) :
    buildPairings cfg metals ts =
      metals.foldl (fun d m => processTargets cfg m d ts) [] := by
  rw [buildPairings, foldl_flatMap]
  congr 1
  funext d m
  rw [List.foldl_map]
  rfl

theorem insertPairing_eq_extend (m : MetalFeat) (pr : MetalTarget × ℝ) :
    ∀ d, insertPairing d m pr = extendEntry d m [pr] := by
  intro d
  induction d with
  | nil => rfl
  | cons e rest ih =>
    simp only [insertPairing, extendEntry]
    split
    · rfl
    · rw [ih]

theorem extendEntry_extendEntry (m : MetalFeat) (q1 q2 : List (MetalTarget × ℝ)) :
    ∀ d, extendEntry (extendEntry d m q1) m q2 = extendEntry d m (q1 ++ q2) := by
  intro d
  induction d with
  | nil =>
    simp [extendEntry]
  | cons e rest ih =>
    simp only [extendEntry]
    by_cases he : e.metal = m.m
    · rw [if_pos he]
      simp only [extendEntry, if_pos he, List.append_assoc]
    · rw [if_neg he]
      simp only [extendEntry, if_neg he, ih]

theorem qualList_cons_pos (cfg : Config) (m : MetalFeat) (t : MetalTarget)
    (rest : List MetalTarget)
    (hq : euclidean3d m.m.coords t.atom.coords < cfg.METAL_DIST_MAX) :
    qualList cfg m (t :: rest) =
      (t, euclidean3d m.m.coords t.atom.coords) :: qualList cfg m rest := by
  simp only [qualList, List.filterMap_cons, if_pos hq]

theorem qualList_cons_neg (cfg : Config) (m : MetalFeat) (t : MetalTarget)
    (rest : List MetalTarget)
    (hq : ¬ euclidean3d m.m.coords t.atom.coords < cfg.METAL_DIST_MAX) :
    qualList cfg m (t :: rest) = qualList cfg m rest := by
  simp only [qualList, List.filterMap_cons, if_neg hq]

/-- Processing all targets for one metal feature from an arbitrary dictionary
equals appending that metal's whole qualifying list at once. -/
theorem processTargets_eq_optExtend (cfg : Config) (m : MetalFeat) :
    ∀ (ts : List MetalTarget) (d : List MCEntry),
      processTargets cfg m d ts = optExtend d m (qualList cfg m ts) := by
  intro ts
  induction ts with
  | nil =>
    intro d
    simp [processTargets, optExtend, qualList]
  | cons t rest ih =>
    intro d
    by_cases hq : euclidean3d m.m.coords t.atom.coords < cfg.METAL_DIST_MAX
    · rw [processTargets, List.foldl_cons, if_pos hq]
      rw [show List.foldl _ (insertPairing d m (t, euclidean3d m.m.coords t.atom.coords))
        rest = processTargets cfg m
          (insertPairing d m (t, euclidean3d m.m.coords t.atom.coords)) rest from rfl]
      rw [ih, qualList_cons_pos cfg m t rest hq, insertPairing_eq_extend]
      by_cases hrest : (qualList cfg m rest).isEmpty
      · rw [optExtend, if_pos hrest, optExtend, if_neg (by simp)]
        rw [List.isEmpty_iff.mp hrest]
      · rw [optExtend, if_neg hrest, optExtend, if_neg (by simp),
          extendEntry_extendEntry]
        rfl
    · rw [processTargets, List.foldl_cons, if_neg hq]
      rw [show List.foldl _ d rest = processTargets cfg m d rest from rfl]
      rw [ih, qualList_cons_neg cfg m t rest hq]

/-- Correspondence between the pairing dictionaries of two runs: same metals
in the same order, same original indices, contact-pair lists permuted. -/
def entryRel (e1 e2 : MCEntry) : Prop :=
  e1.metal = e2.metal ∧ e1.morig = e2.morig ∧ e1.pairs.Perm e2.pairs

theorem extendEntry_rel (m : MetalFeat) (q1 q2 : List (MetalTarget × ℝ))
    (hq : q1.Perm q2) :
    ∀ {d1 d2 : List MCEntry}, List.Forall₂ entryRel d1 d2 →
      List.Forall₂ entryRel (extendEntry d1 m q1) (extendEntry d2 m q2) := by
  intro d1 d2 h
  induction h with
  | nil => exact List.Forall₂.cons ⟨rfl, rfl, hq⟩ List.Forall₂.nil
  | @cons a1 a2 t1 t2 hR hrest ih =>
    simp only [extendEntry]
    by_cases hm : a1.metal = m.m
    · rw [if_pos hm, if_pos (hR.1.symm.trans hm)]
      exact List.Forall₂.cons ⟨hR.1, hR.2.1, hR.2.2.append hq⟩ hrest
    · rw [if_neg hm, if_neg (fun hc => hm (hR.1.trans hc))]
      exact List.Forall₂.cons hR ih

theorem optExtend_rel (m : MetalFeat) (q1 q2 : List (MetalTarget × ℝ))
    (hq : q1.Perm q2) {d1 d2 : List MCEntry}
    (h : List.Forall₂ entryRel d1 d2) :
    List.Forall₂ entryRel (optExtend d1 m q1) (optExtend d2 m q2) := by
  have hlen := hq.length_eq
  rw [optExtend, optExtend]
  cases q1 with
  | nil =>
    have : q2 = [] := List.length_eq_zero.mp (by rw [← hlen]; rfl)
    rw [this]
    exact h
  | cons x xs =>
    cases q2 with
    | nil => cases hlen
    | cons y ys =>
      simp only [List.isEmpty_cons, Bool.false_eq_true, if_false]
      exact extendEntry_rel m _ _ hq h

/-- The pairing dictionaries of two runs on permuted target collections
correspond entrywise. -/
theorem buildPairings_rel (cfg : Config) (metals : List MetalFeat)
    (ts1 ts2 : List MetalTarget) (hperm : ts1.Perm ts2) :
    List.Forall₂ entryRel (buildPairings cfg metals ts1)
      (buildPairings cfg metals ts2) := by
  rw [buildPairings_eq_fold, buildPairings_eq_fold]
  have main : ∀ (ms : List MetalFeat) (d1 d2 : List MCEntry),
      List.Forall₂ entryRel d1 d2 →
      List.Forall₂ entryRel (ms.foldl (fun d m => processTargets cfg m d ts1) d1)
        (ms.foldl (fun d m => processTargets cfg m d ts2) d2) := by
    intro ms
    induction ms with
    | nil => intro d1 d2 h; exact h
    | cons m rest ih =>
      intro d1 d2 h
      rw [List.foldl_cons, List.foldl_cons]
      apply ih
      rw [processTargets_eq_optExtend, processTargets_eq_optExtend]
      exact optExtend_rel m _ _
        (show (qualList cfg m ts1).Perm (qualList cfg m ts2) from hperm.filterMap _) h
  exact main metals [] [] List.Forall₂.nil

/-- Every contact pair stored in a pairing entry is a target of the input
together with its distance to that entry's metal. -/
theorem buildPairings_pairs_spec (cfg : Config) (metals : List MetalFeat)
    (ts : List MetalTarget) :
    ∀ e ∈ buildPairings cfg metals ts, ∀ x ∈ e.pairs,
      x.1 ∈ ts ∧ x.2 = euclidean3d e.metal.coords x.1.atom.coords := by
  rw [buildPairings_eq_fold]
  have hqual : ∀ (m : MetalFeat), ∀ x ∈ qualList cfg m ts,
      x.1 ∈ ts ∧ x.2 = euclidean3d m.m.coords x.1.atom.coords := by
    intro m x hx
    rcases List.mem_filterMap.mp hx with ⟨t, ht, hsome⟩
    split at hsome
    · cases hsome
      exact ⟨ht, rfl⟩
    · cases hsome
  have hext : ∀ (m : MetalFeat) (q : List (MetalTarget × ℝ)),
      (∀ x ∈ q, x.1 ∈ ts ∧ x.2 = euclidean3d m.m.coords x.1.atom.coords) →
      ∀ (d : List MCEntry),
      (∀ e ∈ d, ∀ x ∈ e.pairs, x.1 ∈ ts ∧
        x.2 = euclidean3d e.metal.coords x.1.atom.coords) →
      ∀ e ∈ extendEntry d m q, ∀ x ∈ e.pairs,
        x.1 ∈ ts ∧ x.2 = euclidean3d e.metal.coords x.1.atom.coords := by
    intro m q hq d
    induction d with
    | nil =>
      intro _ e he x hx
      rcases List.mem_singleton.mp he with rfl
      exact hq x hx
    | cons a rest ih =>
      intro hd e he x hx
      simp only [extendEntry] at he
      by_cases hm : a.metal = m.m
      · rw [if_pos hm] at he
        rcases List.mem_cons.mp he with rfl | htail
        · rcases List.mem_append.mp hx with hxa | hxq
          · exact hd a (List.mem_cons_self ..) x hxa
          · have := hq x hxq
            rw [← hm] at this
            exact this
        · exact hd _ (List.mem_cons_of_mem _ htail) x hx
      · rw [if_neg hm] at he
        rcases List.mem_cons.mp he with rfl | htail
        · exact hd _ (List.mem_cons_self ..) x hx
        · exact ih (fun e2 he2 => hd e2 (List.mem_cons_of_mem _ he2)) e htail x hx
  have main : ∀ (ms : List MetalFeat) (d : List MCEntry),
      (∀ e ∈ d, ∀ x ∈ e.pairs, x.1 ∈ ts ∧
        x.2 = euclidean3d e.metal.coords x.1.atom.coords) →
      ∀ e ∈ ms.foldl (fun d m => processTargets cfg m d ts) d, ∀ x ∈ e.pairs,
        x.1 ∈ ts ∧ x.2 = euclidean3d e.metal.coords x.1.atom.coords := by
    intro ms
    induction ms with
    | nil => intro d hd; exact hd
    | cons m rest ih =>
      intro d hd
      rw [List.foldl_cons]
      apply ih
      rw [processTargets_eq_optExtend, optExtend]
      split
      · exact hd
      · exact hext m _ (hqual m) d hd
  exact main metals [] (by intro e he; cases he)

/-- With globally distinct target atom indices, equal indices inside one
entry's contact-pair list force equal contact pairs. -/
theorem buildPairings_pairs_inj (cfg : Config) (metals : List MetalFeat)
    (ts : List MetalTarget) (hnd : (ts.map fun t => t.atom.idx).Nodup) :
    ∀ e ∈ buildPairings cfg metals ts, ∀ x ∈ e.pairs, ∀ y ∈ e.pairs,
      x.1.atom.idx = y.1.atom.idx → x = y := by
  intro e he x hx y hy hxy
  obtain ⟨hx1, hx2⟩ := buildPairings_pairs_spec cfg metals ts e he x hx
  obtain ⟨hy1, hy2⟩ := buildPairings_pairs_spec cfg metals ts e he y hy
  have h1 : x.1 = y.1 := List.inj_on_of_nodup_map hnd hx1 hy1 hxy
  have h2 : x.2 = y.2 := by rw [hx2, hy2, h1]
  exact Prod.ext h1 h2

/-- Corresponding entries receive identical classification decisions. -/
theorem metalDecisionOf_congr (e1 e2 : MCEntry) (hrel : entryRel e1 e2)
    (hinj : ∀ x ∈ e1.pairs, ∀ y ∈ e1.pairs, x.1.atom.idx = y.1.atom.idx → x = y) :
    metalDecisionOf e1 = metalDecisionOf e2 := by
  obtain ⟨hm, _, hp⟩ := hrel
  rw [metalDecisionOf, metalDecisionOf, hp.length_eq, hm,
    buildVectorsDict_perm e2.metal e1.pairs e2.pairs hp hinj]

theorem bool_eq_of_iff {a b : Bool} (h : a = true ↔ b = true) : a = b := by
  cases a <;> cases b <;> simp_all

theorem onlyWater_perm (p1 p2 : List (MetalTarget × ℝ)) (h : p1.Perm p2) :
    onlyWater p1 = onlyWater p2 := by
  rw [onlyWater, onlyWater]
  have h1 : p1.isEmpty = p2.isEmpty := by
    apply bool_eq_of_iff
    rw [List.isEmpty_iff, List.isEmpty_iff]
    constructor
    · intro hx; rw [hx] at h; exact h.symm.eq_nil
    · intro hx; rw [hx] at h; exact h.eq_nil
  have h2 : (p1.all fun p => p.1.location == "water") =
      (p2.all fun p => p.1.location == "water") := by
    apply bool_eq_of_iff
    rw [List.all_eq_true, List.all_eq_true]
    constructor
    · intro ha x hx; exact ha x (h.mem_iff.mpr hx)
    · intro ha x hx; exact ha x (h.mem_iff.mp hx)
  rw [h1, h2]

theorem emitRecords_perm (cnum : ℕ) (e1 e2 : MCEntry) (hrel : entryRel e1 e2)
    (dec : MetalDecision) :
    (emitRecords cnum e1 dec).Perm (emitRecords cnum e2 dec) := by
  obtain ⟨hm, ho, hp⟩ := hrel
  rw [emitRecords, emitRecords, onlyWater_perm _ _ hp]
  split
  · exact List.Perm.refl []
  · have hfun : (fun p : MetalTarget × ℝ =>
        if p.1.atom.idx ∈ dec.excluded then none
        else some (⟨e1.metal, e1.morig, e1.metal.type, p.1, p.1.atom_orig_idx,
          p.1.type, dec.coo, p.2, p.1.resnr, p.1.restype, p.1.reschain,
          p.1.location, dec.rms, dec.geometry, e1.pairs.length, cnum + 1⟩ :
          MetalComplexRecord)) =
        (fun p : MetalTarget × ℝ =>
        if p.1.atom.idx ∈ dec.excluded then none
        else some ⟨e2.metal, e2.morig, e2.metal.type, p.1, p.1.atom_orig_idx,
          p.1.type, dec.coo, p.2, p.1.resnr, p.1.restype, p.1.reschain,
          p.1.location, dec.rms, dec.geometry, e2.pairs.length, cnum + 1⟩) := by
      funext p
      rw [hm, ho, hp.length_eq]
    rw [hfun]
    exact hp.filterMap _

/-- Two per-metal results are related: both raise, or both return record lists
that are permutations of each other. -/
def exceptRecPerm (r1 r2 : Except Unit (List MetalComplexRecord)) : Prop :=
  (r1 = Except.error () ∧ r2 = Except.error ()) ∨
  ∃ l1 l2, r1 = Except.ok l1 ∧ r2 = Except.ok l2 ∧ l1.Perm l2

theorem metalRecords_rel (cnum : ℕ) (e1 e2 : MCEntry) (hrel : entryRel e1 e2)
    (hinj : ∀ x ∈ e1.pairs, ∀ y ∈ e1.pairs, x.1.atom.idx = y.1.atom.idx → x = y) :
    exceptRecPerm (metalRecords cnum e1) (metalRecords cnum e2) := by
  rw [metalRecords, metalRecords, ← metalDecisionOf_congr e1 e2 hrel hinj]
  cases hd : metalDecisionOf e1 with
  | error u =>
    left
    cases u
    exact ⟨rfl, rfl⟩
  | ok dec =>
    right
    exact ⟨_, _, rfl, rfl, emitRecords_perm cnum e1 e2 hrel dec⟩

theorem forall2_enumFrom {α β : Type} {S : α → β → Prop}
    {T : ℕ × α → ℕ × β → Prop}
    (hT : ∀ n a b, S a b → T (n, a) (n, b)) :
    ∀ (n : ℕ) {l1 : List α} {l2 : List β}, List.Forall₂ S l1 l2 →
      List.Forall₂ T (l1.enumFrom n) (l2.enumFrom n) := by
  intro n l1 l2 h
  induction h generalizing n with
  | nil => exact List.Forall₂.nil
  | cons hR _ ih => exact List.Forall₂.cons (hT n _ _ hR) (ih _)

theorem forall2_flatten_perm {α : Type} :
    ∀ {o1 o2 : List (List α)}, List.Forall₂ (fun a b : List α => a.Perm b) o1 o2 →
      o1.flatten.Perm o2.flatten := by
  intro o1 o2 h
  induction h with
  | nil => exact List.Perm.refl []
  | cons hR _ ih =>
    simp only [List.flatten_cons]
    exact hR.append ih

/-- Lifting the per-metal relation through the `mapM` over the enumerated
dictionary. -/
theorem mapM_records_rel :
    ∀ {l1 l2 : List (ℕ × MCEntry)},
      List.Forall₂ (fun q1 q2 =>
        exceptRecPerm (metalRecords q1.1 q1.2) (metalRecords q2.1 q2.2)) l1 l2 →
      (l1.mapM (fun q => metalRecords q.1 q.2) = Except.error () ∧
       l2.mapM (fun q => metalRecords q.1 q.2) = Except.error ()) ∨
      (∃ o1 o2, l1.mapM (fun q => metalRecords q.1 q.2) = Except.ok o1 ∧
        l2.mapM (fun q => metalRecords q.1 q.2) = Except.ok o2 ∧
        List.Forall₂ (fun a b : List MetalComplexRecord => a.Perm b) o1 o2) := by
  intro l1 l2 h
  induction h with
  | nil =>
    right
    exact ⟨[], [], rfl, rfl, List.Forall₂.nil⟩
  | @cons a1 a2 t1 t2 hR hrest ih =>
    rw [← List.mapM'_eq_mapM, ← List.mapM'_eq_mapM, List.mapM', List.mapM']
    rw [← List.mapM'_eq_mapM, ← List.mapM'_eq_mapM] at ih
    rcases hR with ⟨h1, h2⟩ | ⟨r1, r2, h1, h2, hperm⟩
    · left
      rw [h1, h2, except_error_bind, except_error_bind]
      exact ⟨rfl, rfl⟩
    · rw [h1, h2, except_ok_bind, except_ok_bind]
      rcases ih with ⟨h3, h4⟩ | ⟨o1, o2, h3, h4, hf⟩
      · left
        rw [h3, h4, except_error_bind, except_error_bind]
        exact ⟨rfl, rfl⟩
      · right
        rw [h3, h4, except_ok_bind, except_ok_bind]
        exact ⟨r1 :: o1, r2 :: o2, rfl, rfl, List.Forall₂.cons hperm hf⟩

/-- Equality of the emitted record sets (or a shared abort) of two
`metal_complexation` runs. -/
def sameRecordSets (r1 r2 : Except Unit (List MetalComplexRecord)) : Prop :=
  (r1 = Except.error () ∧ r2 = Except.error ()) ∨
  ∃ l1 l2, r1 = Except.ok l1 ∧ r2 = Except.ok l2 ∧ ∀ rec, rec ∈ l1 ↔ rec ∈ l2

/-- C4: for a fixed metal collection, the set of metal-complex records
produced by `metal_complexation` (compared as a set, not as an emission order)
is invariant under every permutation of the combined target collection,
provided the targets carry pairwise distinct atom indices (distinct atoms);
when one run aborts in the decision walk, so does the other. -/
theorem metal_complexation_perm_invariant (cfg : Config) (metals : List MetalFeat)
    (lig bs lig2 bs2 : List MetalTarget)
    (hperm : (lig ++ bs).Perm (lig2 ++ bs2))
    (hnd : ((lig ++ bs).map fun t => t.atom.idx).Nodup) :
    sameRecordSets (metal_complexation cfg metals lig bs)
      (metal_complexation cfg metals lig2 bs2) := by
  have hrel := buildPairings_rel cfg metals _ _ hperm
  have hinj := buildPairings_pairs_inj cfg metals _ hnd
  have henum : List.Forall₂ (fun q1 q2 =>
      exceptRecPerm (metalRecords q1.1 q1.2) (metalRecords q2.1 q2.2))
      ((buildPairings cfg metals (lig ++ bs)).enum)
      ((buildPairings cfg metals (lig2 ++ bs2)).enum) := by
    have main : ∀ (n : ℕ) (d1 d2 : List MCEntry), List.Forall₂ entryRel d1 d2 →
        (∀ e ∈ d1, ∀ x ∈ e.pairs, ∀ y ∈ e.pairs,
          x.1.atom.idx = y.1.atom.idx → x = y) →
        List.Forall₂ (fun q1 q2 =>
          exceptRecPerm (metalRecords q1.1 q1.2) (metalRecords q2.1 q2.2))
          (d1.enumFrom n) (d2.enumFrom n) := by
      intro n d1 d2 h
      induction h generalizing n with
      | nil => intro _; exact List.Forall₂.nil
      | @cons a1 a2 t1 t2 hR hrest ih =>
        intro hI
        refine List.Forall₂.cons ?_ (ih _ (fun e he => hI e (List.mem_cons_of_mem _ he)))
        exact metalRecords_rel n a1 a2 hR (hI a1 (List.mem_cons_self ..))
    exact main 0 _ _ hrel hinj
  rw [metal_complexation, metal_complexation]
  rcases mapM_records_rel henum with ⟨h1, h2⟩ | ⟨o1, o2, h1, h2, hf⟩
  · left
    rw [h1, h2]
    exact ⟨rfl, rfl⟩
  · right
    rw [h1, h2]
    refine ⟨o1.flatten, o2.flatten, rfl, rfl, ?_⟩
    intro rec
    exact (forall2_flatten_perm hf).mem_iff

/-- Witness fixture: a first target of the permutation-invariance witness. -/
def c4T1 : MetalTarget :=
  ⟨⟨41, ⟨1, 0, 0⟩, "O2", "UNL", 1, "Z"⟩, 41, "O2", 1, "UNL", "Z", "ligand"⟩

/-- Witness fixture: a second target with a distinct atom index. -/
def c4T2 : MetalTarget :=
  ⟨⟨42, ⟨0, 1, 0⟩, "N3", "HIS", 31, "A"⟩, 42, "N3", 31, "HIS", "A", "protein"⟩

/-- C4 witness: the permutation-invariance statement applied to a concrete
metal with two targets listed in either order. -/
theorem metal_complexation_perm_invariant_witness :
    sameRecordSets (metal_complexation specConfig [c3Metal] [c4T1, c4T2] [])
      (metal_complexation specConfig [c3Metal] [c4T2, c4T1] []) :=
  metal_complexation_perm_invariant specConfig [c3Metal] [c4T1, c4T2] []
    [c4T2, c4T1] []
    (by rw [List.append_nil, List.append_nil]; exact List.Perm.swap _ _ _)
    (by simp [c4T1, c4T2])

/-! ## C10: `cluster_doubles` computes connected components -/

theorem pairAdj_symm (l : List (ℕ × ℕ)) : Symmetric (pairAdj l) := by
  intro x y h
  rcases h with h | h
  · exact Or.inr h
  · exact Or.inl h

theorem pairConn_symm (l : List (ℕ × ℕ)) {x y : ℕ} (h : pairConn l x y) :
    pairConn l y x :=
  Relation.ReflTransGen.symmetric (pairAdj_symm l) h

theorem pairConn_mono (l l2 : List (ℕ × ℕ)) {x y : ℕ} (h : pairConn l x y) :
    pairConn (l ++ l2) x y := by
  refine Relation.ReflTransGen.mono ?_ h
  intro u v huv
  rcases huv with h1 | h1
  · exact Or.inl (List.mem_append_left _ h1)
  · exact Or.inr (List.mem_append_left _ h1)

theorem pairAdj_new (l : List (ℕ × ℕ)) (a b : ℕ) :
    pairAdj (l ++ [(a, b)]) a b :=
  Or.inl (List.mem_append_right _ (List.mem_singleton.mpr rfl))

theorem inPairs_append (l : List (ℕ × ℕ)) (a b x : ℕ) :
    inPairs (l ++ [(a, b)]) x ↔ inPairs l x ∨ x = a ∨ x = b := by
  simp only [inPairs, List.mem_append, List.mem_singleton]
  constructor
  · rintro ⟨p, hp | hp, hx⟩
    · exact Or.inl ⟨p, hp, hx⟩
    · rw [hp] at hx
      exact Or.inr hx
  · rintro (⟨p, hp, hx⟩ | hx)
    · exact ⟨p, Or.inl hp, hx⟩
    · exact ⟨(a, b), Or.inr rfl, hx⟩

theorem inPairs_mono (l l2 : List (ℕ × ℕ)) {x : ℕ} (h : inPairs l x) :
    inPairs (l ++ l2) x := by
  obtain ⟨p, hp, hx⟩ := h
  exact ⟨p, List.mem_append_left _ hp, hx⟩

/-- Pairwise disjointness of the cluster list, position by position. -/
def PDisj (cs : List (Finset ℕ)) : Prop :=
  ∀ i j (hi : i < cs.length) (hj : j < cs.length), ¬ i = j →
    ∀ x, x ∈ cs[i] → x ∈ cs[j] → False

theorem rebuild_fold_none (y : ℕ) :
    ∀ (pairs : List (ℕ × Finset ℕ)) (loc0 : ℕ → Option ℕ),
      (∀ p ∈ pairs, ¬ y ∈ p.2) →
      (pairs.foldl (fun loc p => fun z => if z ∈ p.2 then some p.1 else loc z) loc0) y =
        loc0 y := by
  intro pairs
  induction pairs with
  | nil => intro loc0 _; rfl
  | cons q rest ih =>
    intro loc0 hq
    rw [List.foldl_cons, ih _ (fun p hp => hq p (List.mem_cons_of_mem _ hp))]
    rw [if_neg (hq q (List.mem_cons_self ..))]

theorem rebuild_fold_some (y : ℕ) :
    ∀ (pairs : List (ℕ × Finset ℕ)) (loc0 : ℕ → Option ℕ) (p0 : ℕ × Finset ℕ),
      p0 ∈ pairs → y ∈ p0.2 → (∀ p ∈ pairs, y ∈ p.2 → p.1 = p0.1) →
      (pairs.foldl (fun loc p => fun z => if z ∈ p.2 then some p.1 else loc z) loc0) y =
        some p0.1 := by
  intro pairs
  induction pairs with
  | nil => intro _ _ h; cases h
  | cons q rest ih =>
    intro loc0 p0 hp0 hy huniq
    rw [List.foldl_cons]
    by_cases hrest : ∃ p ∈ rest, y ∈ p.2
    · obtain ⟨p1, hp1, hy1⟩ := hrest
      rw [ih _ p1 hp1 hy1
        (fun p hp hyp => (huniq p (List.mem_cons_of_mem _ hp) hyp).trans
          (huniq p1 (List.mem_cons_of_mem _ hp1) hy1).symm)]
      rw [huniq p1 (List.mem_cons_of_mem _ hp1) hy1]
    · rw [rebuild_fold_none y rest _ (fun p hp => fun hyp => hrest ⟨p, hp, hyp⟩)]
      rcases List.mem_cons.mp hp0 with rfl | htail
      · rw [if_pos hy]
      · exact absurd ⟨p0, htail, hy⟩ hrest

/-- `rebuildLoc` is the canonical location table of a pairwise-disjoint
cluster list. -/
theorem rebuildLoc_spec (cs : List (Finset ℕ)) (hdisj : PDisj cs) (x : ℕ) (i : ℕ) :
    rebuildLoc cs x = some i ↔ ∃ h : i < cs.length, x ∈ cs[i] := by
  constructor
  · intro h
    by_cases hmem : ∃ p ∈ cs.enum, x ∈ p.2
    · obtain ⟨p0, hp0, hx0⟩ := hmem
      have hp0get : cs[p0.1]? = some p0.2 := List.mem_enum_iff_getElem?.mp hp0
      have hlt : p0.1 < cs.length := by
        by_contra hge
        rw [List.getElem?_eq_none (Nat.le_of_not_lt hge)] at hp0get
        cases hp0get
      have hval : cs[p0.1] = p0.2 := by
        have := List.getElem?_eq_getElem hlt
        rw [this] at hp0get
        exact Option.some.inj hp0get
      have huniq : ∀ p ∈ cs.enum, x ∈ p.2 → p.1 = p0.1 := by
        intro p hp hxp
        have hpget : cs[p.1]? = some p.2 := List.mem_enum_iff_getElem?.mp hp
        have hplt : p.1 < cs.length := by
          by_contra hge
          rw [List.getElem?_eq_none (Nat.le_of_not_lt hge)] at hpget
          cases hpget
        have hpval : cs[p.1] = p.2 := by
          have := List.getElem?_eq_getElem hplt
          rw [this] at hpget
          exact Option.some.inj hpget
        by_contra hne
        exact hdisj p.1 p0.1 hplt hlt hne x (by rw [hpval]; exact hxp)
          (by rw [hval]; exact hx0)
      have := rebuild_fold_some x cs.enum (fun _ => none) p0 hp0 hx0 huniq
      rw [rebuildLoc] at h
      rw [this] at h
      rcases Option.some.inj h with rfl
      exact ⟨hlt, by rw [hval]; exact hx0⟩
    · exfalso
      rw [rebuildLoc, rebuild_fold_none x cs.enum _
        (fun p hp => fun hxp => hmem ⟨p, hp, hxp⟩)] at h
      cases h
  · rintro ⟨hlt, hx⟩
    have hp0 : ((i, cs[i]) : ℕ × Finset ℕ) ∈ cs.enum :=
      List.mem_enum_iff_getElem?.mpr (List.getElem?_eq_getElem hlt)
    have huniq : ∀ p ∈ cs.enum, x ∈ p.2 → p.1 = i := by
      intro p hp hxp
      have hpget : cs[p.1]? = some p.2 := List.mem_enum_iff_getElem?.mp hp
      have hplt : p.1 < cs.length := by
        by_contra hge
        rw [List.getElem?_eq_none (Nat.le_of_not_lt hge)] at hpget
        cases hpget
      have hpval : cs[p.1] = p.2 := by
        have := List.getElem?_eq_getElem hplt
        rw [this] at hpget
        exact Option.some.inj hpget
      by_contra hne
      exact hdisj p.1 i hplt hlt hne x (by rw [hpval]; exact hxp) hx
    rw [rebuildLoc]
    exact rebuild_fold_some x cs.enum (fun _ => none) (i, cs[i]) hp0 hx huniq

theorem countP_eq_one_of_unique {α : Type} (p : α → Bool) :
    ∀ (l : List α) (i : ℕ) (h : i < l.length), p l[i] = true →
      (∀ j (hj : j < l.length), p l[j] = true → j = i) → l.countP p = 1 := by
  intro l
  induction l with
  | nil => intro i h; cases h
  | cons a t ih =>
    intro i h hp huniq
    cases i with
    | zero =>
      simp only [List.getElem_cons_zero] at hp
      rw [List.countP_cons_of_pos p t hp]
      have : t.countP p = 0 := by
        rw [List.countP_eq_zero]
        intro x hx hpx
        rcases List.mem_iff_get.mp hx with ⟨⟨j, hj⟩, hget⟩
        have hpj : p t[j] = true := by
          show p (t.get ⟨j, hj⟩) = true
          rw [hget]
          exact hpx
        have : j + 1 = 0 := by
          refine huniq (j + 1) (by simpa using Nat.succ_lt_succ hj) ?_
          simpa [List.getElem_cons_succ] using hpj
        cases this
      rw [this]
    | succ k =>
      simp only [List.getElem_cons_succ] at hp
      have hp0 : ¬ p a = true := by
        intro hpa
        have : 0 = k + 1 := huniq 0 (Nat.succ_pos _)
          (by simpa [List.getElem_cons_zero] using hpa)
        cases this
      rw [List.countP_cons_of_neg p t hp0]
      exact ih k (Nat.lt_of_succ_lt_succ h) hp
        (fun j hj hpj => by
          have := huniq (j + 1) (Nat.succ_lt_succ hj)
            (by simpa [List.getElem_cons_succ] using hpj)
          omega)

/-- The loop invariant of `cluster_doubles` over the processed prefix `l`:
the location table indexes the clusters, the clusters cover exactly the
elements seen so far, every cluster is connected, and every processed edge
lies inside one cluster. -/
structure CDInv (l : List (ℕ × ℕ)) (s : CDState) : Prop where
  loc_iff : ∀ x i, s.location x = some i ↔
    ∃ h : i < s.clusters.length, x ∈ s.clusters[i]
  cover : ∀ x, (∃ c ∈ s.clusters, x ∈ c) ↔ inPairs l x
  conn_of : ∀ c ∈ s.clusters, ∀ x ∈ c, ∀ y ∈ c, pairConn l x y
  edge_in : ∀ a b, (a, b) ∈ l → ∃ c ∈ s.clusters, a ∈ c ∧ b ∈ c

theorem CDInv.pdisj {l : List (ℕ × ℕ)} {s : CDState} (inv : CDInv l s) :
    PDisj s.clusters := by
  intro i j hi hj hne x hxi hxj
  have h1 := (inv.loc_iff x i).mpr ⟨hi, hxi⟩
  have h2 := (inv.loc_iff x j).mpr ⟨hj, hxj⟩
  rw [h1] at h2
  exact hne (Option.some.inj h2)

/-- Core of the merge branch: replacing position `i` by the union with
position `j` and deleting position `j` keeps disjointness, coverage,
connectivity of each cluster and the edges-inside property, provided the two
merged clusters are mutually connected. -/
theorem merge_core (l2 : List (ℕ × ℕ)) (cs : List (Finset ℕ)) (i j : ℕ)
    (hij : i < j) (hjlen : j < cs.length)
    (hdisj : PDisj cs)
    (hconn : ∀ c ∈ cs, ∀ x ∈ c, ∀ y ∈ c, pairConn l2 x y)
    (hcross : ∀ x ∈ cs[i], ∀ y ∈ cs[j], pairConn l2 x y) :
    PDisj ((cs.set i (cs[i] ∪ cs[j])).eraseIdx j) ∧
    (∀ x, (∃ c ∈ (cs.set i (cs[i] ∪ cs[j])).eraseIdx j, x ∈ c) ↔ ∃ c ∈ cs, x ∈ c) ∧
    (∀ c ∈ (cs.set i (cs[i] ∪ cs[j])).eraseIdx j, ∀ x ∈ c, ∀ y ∈ c, pairConn l2 x y) ∧
    (∀ m (hm : m < cs.length), ∃ c ∈ (cs.set i (cs[i] ∪ cs[j])).eraseIdx j,
      cs[m] ⊆ c) := by
  have hilen : i < cs.length := Nat.lt_trans hij hjlen
  have hlen : ((cs.set i (cs[i] ∪ cs[j])).eraseIdx j).length = cs.length - 1 := by
    rw [List.length_eraseIdx]
    simp [List.length_set, hjlen]
  have hget : ∀ k (hk : k < ((cs.set i (cs[i] ∪ cs[j])).eraseIdx j).length),
      ((cs.set i (cs[i] ∪ cs[j])).eraseIdx j)[k] =
        if k < j then (if i = k then cs[i] ∪ cs[j] else cs[k]) else cs[k + 1] := by
    intro k hk
    have hk2 : k < cs.length - 1 := by rw [← hlen]; exact hk
    rw [List.getElem_eraseIdx]
    by_cases hkj : k < j
    · rw [dif_pos hkj, List.getElem_set, if_pos hkj]
    · rw [dif_neg hkj, List.getElem_set, if_neg (by omega), if_neg hkj]
  refine ⟨?_, ?_, ?_, ?_⟩
  · -- disjointness
    intro k k2 hk hk2 hne x hx1 hx2
    rw [hget k hk] at hx1
    rw [hget k2 hk2] at hx2
    have hkL : k < cs.length - 1 := by rw [← hlen]; exact hk
    have hk2L : k2 < cs.length - 1 := by rw [← hlen]; exact hk2
    by_cases hkj : k < j <;> by_cases hk2j : k2 < j
    · rw [if_pos hkj] at hx1
      rw [if_pos hk2j] at hx2
      by_cases hik : i = k <;> by_cases hik2 : i = k2
      · exact hne (hik ▸ hik2)
      · rw [if_pos hik] at hx1
        rw [if_neg hik2] at hx2
        rcases Finset.mem_union.mp hx1 with hx1 | hx1
        · exact hdisj i k2 hilen (by omega) hik2 x hx1 hx2
        · exact hdisj j k2 hjlen (by omega) (by omega) x hx1 hx2
      · rw [if_neg hik] at hx1
        rw [if_pos hik2] at hx2
        rcases Finset.mem_union.mp hx2 with hx2 | hx2
        · exact hdisj k i (by omega) hilen (by omega) x hx1 hx2
        · exact hdisj k j (by omega) hjlen (by omega) x hx1 hx2
      · rw [if_neg hik] at hx1
        rw [if_neg hik2] at hx2
        exact hdisj k k2 (by omega) (by omega) hne x hx1 hx2
    · rw [if_pos hkj] at hx1
      rw [if_neg hk2j] at hx2
      by_cases hik : i = k
      · rw [if_pos hik] at hx1
        rcases Finset.mem_union.mp hx1 with hx1 | hx1
        · exact hdisj i (k2 + 1) hilen (by omega) (by omega) x hx1 hx2
        · exact hdisj j (k2 + 1) hjlen (by omega) (by omega) x hx1 hx2
      · rw [if_neg hik] at hx1
        exact hdisj k (k2 + 1) (by omega) (by omega) (by omega) x hx1 hx2
    · rw [if_neg hkj] at hx1
      rw [if_pos hk2j] at hx2
      by_cases hik2 : i = k2
      · rw [if_pos hik2] at hx2
        rcases Finset.mem_union.mp hx2 with hx2 | hx2
        · exact hdisj (k + 1) i (by omega) hilen (by omega) x hx1 hx2
        · exact hdisj (k + 1) j (by omega) hjlen (by omega) x hx1 hx2
      · rw [if_neg hik2] at hx2
        exact hdisj (k + 1) k2 (by omega) (by omega) (by omega) x hx1 hx2
    · rw [if_neg hkj] at hx1
      rw [if_neg hk2j] at hx2
      exact hdisj (k + 1) (k2 + 1) (by omega) (by omega) (by omega) x hx1 hx2
  · -- coverage is unchanged
    intro x
    constructor
    · rintro ⟨c, hc, hxc⟩
      rcases List.mem_iff_get.mp hc with ⟨⟨k, hk⟩, hgetc⟩
      rw [List.get_eq_getElem, hget k hk] at hgetc
      rw [← hgetc] at hxc
      by_cases hkj : k < j
      · rw [if_pos hkj] at hxc
        by_cases hik : i = k
        · rw [if_pos hik] at hxc
          rcases Finset.mem_union.mp hxc with hxc | hxc
          · exact ⟨cs[i], List.getElem_mem hilen, hxc⟩
          · exact ⟨cs[j], List.getElem_mem hjlen, hxc⟩
        · rw [if_neg hik] at hxc
          have hkL : k < cs.length := by omega
          exact ⟨cs[k], List.getElem_mem hkL, hxc⟩
      · rw [if_neg hkj] at hxc
        have : k + 1 < cs.length := by
          have : k < cs.length - 1 := by rw [← hlen]; exact hk
          omega
        exact ⟨cs[k + 1], List.getElem_mem this, hxc⟩
    · rintro ⟨c, hc, hxc⟩
      rcases List.mem_iff_get.mp hc with ⟨⟨m, hm⟩, hgetc⟩
      rw [List.get_eq_getElem] at hgetc
      rw [← hgetc] at hxc
      by_cases hmi : m = i
      · have hi2 : i < ((cs.set i (cs[i] ∪ cs[j])).eraseIdx j).length := by omega
        refine ⟨_, List.getElem_mem hi2, ?_⟩
        rw [hget i hi2, if_pos hij, if_pos rfl]
        exact Finset.mem_union_left _ (hmi ▸ hxc)
      · by_cases hmj : m = j
        · have hi2 : i < ((cs.set i (cs[i] ∪ cs[j])).eraseIdx j).length := by omega
          refine ⟨_, List.getElem_mem hi2, ?_⟩
          rw [hget i hi2, if_pos hij, if_pos rfl]
          exact Finset.mem_union_right _ (hmj ▸ hxc)
        · by_cases hmjlt : m < j
          · have hm2 : m < ((cs.set i (cs[i] ∪ cs[j])).eraseIdx j).length := by omega
            refine ⟨_, List.getElem_mem hm2, ?_⟩
            rw [hget m hm2, if_pos hmjlt, if_neg (fun hc2 => hmi hc2.symm)]
            exact hxc
          · have hm2 : m - 1 < ((cs.set i (cs[i] ∪ cs[j])).eraseIdx j).length := by
              omega
            refine ⟨_, List.getElem_mem hm2, ?_⟩
            rw [hget (m - 1) hm2, if_neg (by omega)]
            simp only [show m - 1 + 1 = m from by omega]
            exact hxc
  · -- each cluster is connected
    intro c hc x hx y hy
    rcases List.mem_iff_get.mp hc with ⟨⟨k, hk⟩, hgetc⟩
    rw [List.get_eq_getElem, hget k hk] at hgetc
    rw [← hgetc] at hx hy
    by_cases hkj : k < j
    · rw [if_pos hkj] at hx hy
      by_cases hik : i = k
      · rw [if_pos hik] at hx hy
        rcases Finset.mem_union.mp hx with hx | hx <;>
          rcases Finset.mem_union.mp hy with hy | hy
        · exact hconn cs[i] (List.getElem_mem hilen) x hx y hy
        · exact hcross x hx y hy
        · exact pairConn_symm l2 (hcross y hy x hx)
        · exact hconn cs[j] (List.getElem_mem hjlen) x hx y hy
      · rw [if_neg hik] at hx hy
        exact hconn cs[k] (List.getElem_mem (by omega)) x hx y hy
    · rw [if_neg hkj] at hx hy
      have hkL : k + 1 < cs.length := by
        have : k < cs.length - 1 := by rw [← hlen]; exact hk
        omega
      exact hconn cs[k + 1] (List.getElem_mem hkL) x hx y hy
  · -- every original cluster is inside some new cluster
    intro m hm
    by_cases hmi : m = i
    · subst hmi
      have hi2 : m < ((cs.set m (cs[m] ∪ cs[j])).eraseIdx j).length := by omega
      refine ⟨_, List.getElem_mem hi2, ?_⟩
      rw [hget m hi2, if_pos hij, if_pos rfl]
      exact Finset.subset_union_left
    · by_cases hmj : m = j
      · subst hmj
        have hi2 : i < ((cs.set i (cs[i] ∪ cs[m])).eraseIdx m).length := by omega
        refine ⟨_, List.getElem_mem hi2, ?_⟩
        rw [hget i hi2, if_pos hij, if_pos rfl]
        exact Finset.subset_union_right
      · by_cases hmjlt : m < j
        · have hm2 : m < ((cs.set i (cs[i] ∪ cs[j])).eraseIdx j).length := by omega
          refine ⟨_, List.getElem_mem hm2, ?_⟩
          rw [hget m hm2, if_pos hmjlt, if_neg (fun hc2 => hmi hc2.symm)]
        · have hm2 : m - 1 < ((cs.set i (cs[i] ∪ cs[j])).eraseIdx j).length := by
            omega
          refine ⟨_, List.getElem_mem hm2, ?_⟩
          rw [hget (m - 1) hm2, if_neg (by omega)]
          simp only [show m - 1 + 1 = m from by omega]
          exact Finset.Subset.refl _

theorem exists_mem_iff_pos (cs : List (Finset ℕ)) (x : ℕ) :
    (∃ c ∈ cs, x ∈ c) ↔ ∃ m, ∃ hm : m < cs.length, x ∈ cs[m] := by
  constructor
  · rintro ⟨c, hc, hx⟩
    rcases List.mem_iff_get.mp hc with ⟨⟨m, hm⟩, rfl⟩
    exact ⟨m, hm, by simpa using hx⟩
  · rintro ⟨m, hm, hx⟩
    exact ⟨cs[m], List.getElem_mem hm, hx⟩

theorem forall_mem_iff_pos (cs : List (Finset ℕ)) (P : Finset ℕ → Prop) :
    (∀ c ∈ cs, P c) ↔ ∀ m (hm : m < cs.length), P cs[m] := by
  constructor
  · intro h m hm
    exact h cs[m] (List.getElem_mem hm)
  · intro h c hc
    rcases List.mem_iff_get.mp hc with ⟨⟨m, hm⟩, rfl⟩
    simpa using h m hm

theorem cdStep_eq_merge (s : CDState) (a b la lb : ℕ)
    (ha : s.location a = some la) (hb : s.location b = some lb) (hne : la ≠ lb) :
    cdStep s (a, b) =
      ⟨mergeClusters s.clusters la lb, rebuildLoc (mergeClusters s.clusters la lb)⟩ := by
  unfold cdStep
  dsimp only
  rw [ha, hb]
  dsimp only
  rw [if_pos hne]

theorem cdStep_eq_same (s : CDState) (a b la : ℕ)
    (ha : s.location a = some la) (hb : s.location b = some la) :
    cdStep s (a, b) = s := by
  unfold cdStep
  dsimp only
  rw [ha, hb]
  dsimp only
  rw [if_neg (by simp)]

theorem cdStep_eq_aloc (s : CDState) (a b la : ℕ)
    (ha : s.location a = some la) (hb : s.location b = none) :
    cdStep s (a, b) =
      ⟨(s.clusters.set la (s.clusters.getD la ∅ ∪ {b})).set la
          ((s.clusters.set la (s.clusters.getD la ∅ ∪ {b})).getD la ∅ ∪ {a}),
        fun y => if y = a then some la else
          if y = b then some la else s.location y⟩ := by
  have hba : ¬ b = a := by
    rintro rfl
    rw [ha] at hb
    cases hb
  unfold cdStep
  dsimp only
  rw [ha, hb]
  dsimp only
  rw [if_pos rfl]
  dsimp only
  rw [if_neg hba, if_pos rfl, if_pos rfl]
  simp only [Option.isSome_some, and_self, if_true]

theorem cdStep_eq_bloc (s : CDState) (a b lb : ℕ)
    (ha : s.location a = none) (hb : s.location b = some lb) :
    cdStep s (a, b) =
      ⟨s.clusters.set lb (s.clusters.getD lb ∅ ∪ {a}),
        fun y => if y = a then some lb else s.location y⟩ := by
  have hba : ¬ b = a := by
    rintro rfl
    rw [ha] at hb
    cases hb
  unfold cdStep
  simp only [ha, hb, hba, eq_self_iff_true, if_true, if_false,
    Option.isSome_some, and_self]

theorem cdStep_eq_none (s : CDState) (a b : ℕ)
    (ha : s.location a = none) (hb : s.location b = none) :
    cdStep s (a, b) =
      ⟨s.clusters ++ [{a, b}],
        fun y => if y = a ∨ y = b then some s.clusters.length else s.location y⟩ := by
  unfold cdStep
  simp only [ha, hb, Option.isSome_none, Bool.false_eq_true, false_and, if_false]

theorem merge_union_mem (cs : List (Finset ℕ)) (i j : ℕ) (hij : i < j)
    (hjlen : j < cs.length) :
    (cs[i] ∪ cs[j]) ∈ (cs.set i (cs[i] ∪ cs[j])).eraseIdx j := by
  have hilen : i < cs.length := Nat.lt_trans hij hjlen
  have hlen : ((cs.set i (cs[i] ∪ cs[j])).eraseIdx j).length = cs.length - 1 := by
    rw [List.length_eraseIdx]
    simp [List.length_set, hjlen]
  have hi2 : i < ((cs.set i (cs[i] ∪ cs[j])).eraseIdx j).length := by omega
  have hval : ((cs.set i (cs[i] ∪ cs[j])).eraseIdx j)[i] = cs[i] ∪ cs[j] := by
    rw [List.getElem_eraseIdx, dif_pos hij, List.getElem_set, if_pos rfl]
  have hmem := List.getElem_mem hi2
  rw [hval] at hmem
  exact hmem

theorem cdInv_step_merge {l : List (ℕ × ℕ)} {s : CDState} (inv : CDInv l s)
    (a b la lb : ℕ) (ha : s.location a = some la) (hb : s.location b = some lb)
    (hne : la ≠ lb) :
    CDInv (l ++ [(a, b)])
      ⟨mergeClusters s.clusters la lb, rebuildLoc (mergeClusters s.clusters la lb)⟩ := by
  obtain ⟨hla, hmema⟩ := (inv.loc_iff a la).mp ha
  obtain ⟨hlb, hmemb⟩ := (inv.loc_iff b lb).mp hb
  have hconn2 : ∀ c ∈ s.clusters, ∀ x ∈ c, ∀ y ∈ c, pairConn (l ++ [(a, b)]) x y :=
    fun c hc x hx y hy => pairConn_mono l [(a, b)] (inv.conn_of c hc x hx y hy)
  have hab2 : pairConn (l ++ [(a, b)]) a b :=
    Relation.ReflTransGen.single (pairAdj_new l a b)
  rcases Nat.lt_or_ge la lb with hlt | hge
  · have hmc : mergeClusters s.clusters la lb
        = (s.clusters.set la (s.clusters[la] ∪ s.clusters[lb])).eraseIdx lb := by
      unfold mergeClusters
      rw [if_pos hlt, List.getD_eq_getElem _ _ hla, List.getD_eq_getElem _ _ hlb]
    have hcross : ∀ x ∈ s.clusters[la], ∀ y ∈ s.clusters[lb],
        pairConn (l ++ [(a, b)]) x y := by
      intro x hx y hy
      exact ((hconn2 _ (List.getElem_mem hla) x hx a hmema).trans hab2).trans
        (hconn2 _ (List.getElem_mem hlb) b hmemb y hy)
    obtain ⟨hd, hcov, hcn, hsub⟩ :=
      merge_core (l ++ [(a, b)]) s.clusters la lb hlt hlb inv.pdisj hconn2 hcross
    have humem := merge_union_mem s.clusters la lb hlt hlb
    rw [hmc]
    refine ⟨fun x i => rebuildLoc_spec _ hd x i, ?_, hcn, ?_⟩
    · intro x
      rw [hcov x, inPairs_append]
      constructor
      · intro h
        exact Or.inl ((inv.cover x).mp h)
      · rintro (h | rfl | rfl)
        · exact (inv.cover x).mpr h
        · exact ⟨_, List.getElem_mem hla, hmema⟩
        · exact ⟨_, List.getElem_mem hlb, hmemb⟩
    · intro u v huv
      rcases List.mem_append.mp huv with h | h
      · obtain ⟨c, hc, hu, hv⟩ := inv.edge_in u v h
        rcases List.mem_iff_get.mp hc with ⟨⟨m, hm⟩, hgc⟩
        rw [List.get_eq_getElem] at hgc
        obtain ⟨c2, hc2, hsubm⟩ := hsub m hm
        have hu2 : u ∈ s.clusters[m] := by rw [hgc]; exact hu
        have hv2 : v ∈ s.clusters[m] := by rw [hgc]; exact hv
        exact ⟨c2, hc2, hsubm hu2, hsubm hv2⟩
      · have hp : (u, v) = (a, b) := List.mem_singleton.mp h
        have hu : u = a := congrArg Prod.fst hp
        have hv : v = b := congrArg Prod.snd hp
        subst hu
        subst hv
        exact ⟨_, humem, Finset.mem_union_left _ hmema, Finset.mem_union_right _ hmemb⟩
  · have hlt : lb < la := Nat.lt_of_le_of_ne hge (fun h => hne h.symm)
    have hmc : mergeClusters s.clusters la lb
        = (s.clusters.set lb (s.clusters[lb] ∪ s.clusters[la])).eraseIdx la := by
      unfold mergeClusters
      rw [if_neg (by omega), List.getD_eq_getElem _ _ hla, List.getD_eq_getElem _ _ hlb]
    have hcross : ∀ x ∈ s.clusters[lb], ∀ y ∈ s.clusters[la],
        pairConn (l ++ [(a, b)]) x y := by
      intro x hx y hy
      exact ((hconn2 _ (List.getElem_mem hlb) x hx b hmemb).trans
        (pairConn_symm _ hab2)).trans
        (hconn2 _ (List.getElem_mem hla) a hmema y hy)
    obtain ⟨hd, hcov, hcn, hsub⟩ :=
      merge_core (l ++ [(a, b)]) s.clusters lb la hlt hla inv.pdisj hconn2 hcross
    have humem := merge_union_mem s.clusters lb la hlt hla
    rw [hmc]
    refine ⟨fun x i => rebuildLoc_spec _ hd x i, ?_, hcn, ?_⟩
    · intro x
      rw [hcov x, inPairs_append]
      constructor
      · intro h
        exact Or.inl ((inv.cover x).mp h)
      · rintro (h | rfl | rfl)
        · exact (inv.cover x).mpr h
        · exact ⟨_, List.getElem_mem hla, hmema⟩
        · exact ⟨_, List.getElem_mem hlb, hmemb⟩
    · intro u v huv
      rcases List.mem_append.mp huv with h | h
      · obtain ⟨c, hc, hu, hv⟩ := inv.edge_in u v h
        rcases List.mem_iff_get.mp hc with ⟨⟨m, hm⟩, hgc⟩
        rw [List.get_eq_getElem] at hgc
        obtain ⟨c2, hc2, hsubm⟩ := hsub m hm
        have hu2 : u ∈ s.clusters[m] := by rw [hgc]; exact hu
        have hv2 : v ∈ s.clusters[m] := by rw [hgc]; exact hv
        exact ⟨c2, hc2, hsubm hu2, hsubm hv2⟩
      · have hp : (u, v) = (a, b) := List.mem_singleton.mp h
        have hu : u = a := congrArg Prod.fst hp
        have hv : v = b := congrArg Prod.snd hp
        subst hu
        subst hv
        exact ⟨_, humem, Finset.mem_union_right _ hmema, Finset.mem_union_left _ hmemb⟩

theorem cdInv_step_same {l : List (ℕ × ℕ)} {s : CDState} (inv : CDInv l s)
    (a b la : ℕ) (ha : s.location a = some la) (hb : s.location b = some la) :
    CDInv (l ++ [(a, b)]) s := by
  obtain ⟨hla, hmema⟩ := (inv.loc_iff a la).mp ha
  obtain ⟨_, hmemb⟩ := (inv.loc_iff b la).mp hb
  refine ⟨inv.loc_iff, ?_,
    fun c hc x hx y hy => pairConn_mono l [(a, b)] (inv.conn_of c hc x hx y hy), ?_⟩
  · intro x
    rw [inPairs_append]
    constructor
    · intro h
      exact Or.inl ((inv.cover x).mp h)
    · rintro (h | rfl | rfl)
      · exact (inv.cover x).mpr h
      · exact ⟨_, List.getElem_mem hla, hmema⟩
      · exact ⟨_, List.getElem_mem hla, hmemb⟩
  · intro u v huv
    rcases List.mem_append.mp huv with h | h
    · exact inv.edge_in u v h
    · have hp : (u, v) = (a, b) := List.mem_singleton.mp h
      have hu : u = a := congrArg Prod.fst hp
      have hv : v = b := congrArg Prod.snd hp
      subst hu
      subst hv
      exact ⟨_, List.getElem_mem hla, hmema, hmemb⟩

theorem cdInv_step_aloc {l : List (ℕ × ℕ)} {s : CDState} (inv : CDInv l s)
    (a b la : ℕ) (ha : s.location a = some la) (hb : s.location b = none) :
    CDInv (l ++ [(a, b)])
      ⟨s.clusters.set la (s.clusters.getD la ∅ ∪ {b} ∪ {a}),
        fun y => if y = a then some la else
          if y = b then some la else s.location y⟩ := by
  obtain ⟨hla, hmema⟩ := (inv.loc_iff a la).mp ha
  have hgd : s.clusters.getD la ∅ = s.clusters[la] := List.getD_eq_getElem _ _ hla
  rw [hgd]
  have hba : ¬ b = a := by
    rintro rfl
    rw [ha] at hb
    cases hb
  have hfreshb : ∀ m (hm : m < s.clusters.length), b ∉ s.clusters[m] := by
    intro m hm hx
    have hsm := (inv.loc_iff b m).mpr ⟨hm, hx⟩
    rw [hb] at hsm
    cases hsm
  have hconn2 : ∀ c ∈ s.clusters, ∀ x ∈ c, ∀ y ∈ c, pairConn (l ++ [(a, b)]) x y :=
    fun c hc x hx y hy => pairConn_mono l [(a, b)] (inv.conn_of c hc x hx y hy)
  have hab2 : pairConn (l ++ [(a, b)]) a b :=
    Relation.ReflTransGen.single (pairAdj_new l a b)
  have hmemE : ∀ x, x ∈ s.clusters[la] ∪ {b} ∪ {a} ↔ x ∈ s.clusters[la] ∨ x = b := by
    intro x
    simp only [Finset.mem_union, Finset.mem_singleton]
    constructor
    · rintro ((h | h) | rfl)
      · exact Or.inl h
      · exact Or.inr h
      · exact Or.inl hmema
    · rintro (h | h)
      · exact Or.inl (Or.inl h)
      · exact Or.inl (Or.inr h)
  have hE_a : a ∈ s.clusters[la] ∪ {b} ∪ {a} := (hmemE a).mpr (Or.inl hmema)
  have hE_b : b ∈ s.clusters[la] ∪ {b} ∪ {a} := (hmemE b).mpr (Or.inr rfl)
  have hEconn : ∀ x ∈ s.clusters[la] ∪ {b} ∪ {a}, ∀ y ∈ s.clusters[la] ∪ {b} ∪ {a},
      pairConn (l ++ [(a, b)]) x y := by
    intro x hx y hy
    rcases (hmemE x).mp hx with hx2 | rfl <;> rcases (hmemE y).mp hy with hy2 | h2
    · exact hconn2 _ (List.getElem_mem hla) x hx2 y hy2
    · rw [h2]
      exact (hconn2 _ (List.getElem_mem hla) x hx2 a hmema).trans hab2
    · exact (pairConn_symm _ hab2).trans (hconn2 _ (List.getElem_mem hla) a hmema y hy2)
    · rw [h2]
      exact Relation.ReflTransGen.refl
  have hlen : (s.clusters.set la (s.clusters[la] ∪ {b} ∪ {a})).length
      = s.clusters.length := List.length_set _ _ _
  refine ⟨?_, ?_, ?_, ?_⟩
  · intro x i
    by_cases hxa : x = a
    · have hmemx : x ∈ s.clusters[la] := by rw [hxa]; exact hmema
      have hEx : x ∈ s.clusters[la] ∪ {b} ∪ {a} := (hmemE x).mpr (Or.inl hmemx)
      show (if x = a then some la else if x = b then some la else s.location x)
          = some i ↔ _
      rw [if_pos hxa]
      constructor
      · intro h
        have hi : la = i := Option.some.inj h
        subst hi
        refine ⟨by rw [hlen]; exact hla, ?_⟩
        rw [List.getElem_set, if_pos rfl]
        exact hEx
      · rintro ⟨h, hmem⟩
        have h2 : i < s.clusters.length := by rw [hlen] at h; exact h
        rw [List.getElem_set] at hmem
        by_cases hli : la = i
        · exact congrArg some hli
        · rw [if_neg hli] at hmem
          exact (inv.pdisj la i hla h2 hli x hmemx hmem).elim
    · by_cases hxb : x = b
      · have hfreshx : ∀ m (hm : m < s.clusters.length), x ∉ s.clusters[m] := by
          intro m hm hx
          exact hfreshb m hm (by rw [← hxb]; exact hx)
        have hEx : x ∈ s.clusters[la] ∪ {b} ∪ {a} := by rw [hxb]; exact hE_b
        show (if x = a then some la else if x = b then some la else s.location x)
            = some i ↔ _
        rw [if_neg hxa, if_pos hxb]
        constructor
        · intro h
          have hi : la = i := Option.some.inj h
          subst hi
          refine ⟨by rw [hlen]; exact hla, ?_⟩
          rw [List.getElem_set, if_pos rfl]
          exact hEx
        · rintro ⟨h, hmem⟩
          have h2 : i < s.clusters.length := by rw [hlen] at h; exact h
          rw [List.getElem_set] at hmem
          by_cases hli : la = i
          · exact congrArg some hli
          · rw [if_neg hli] at hmem
            exact (hfreshx i h2 hmem).elim
      · show (if x = a then some la else if x = b then some la else s.location x)
            = some i ↔ _
        rw [if_neg hxa, if_neg hxb, inv.loc_iff x i]
        constructor
        · rintro ⟨h, hmem⟩
          refine ⟨by rw [hlen]; exact h, ?_⟩
          rw [List.getElem_set]
          by_cases hli : la = i
          · subst hli
            rw [if_pos rfl]
            exact (hmemE x).mpr (Or.inl hmem)
          · rw [if_neg hli]
            exact hmem
        · rintro ⟨h, hmem⟩
          have h2 : i < s.clusters.length := by rw [hlen] at h; exact h
          rw [List.getElem_set] at hmem
          refine ⟨h2, ?_⟩
          by_cases hli : la = i
          · subst hli
            rw [if_pos rfl] at hmem
            rcases (hmemE x).mp hmem with h3 | h3
            · exact h3
            · exact absurd h3 hxb
          · rw [if_neg hli] at hmem
            exact hmem
  · intro x
    rw [inPairs_append, exists_mem_iff_pos]
    constructor
    · rintro ⟨m, hm, hmem⟩
      have h2 : m < s.clusters.length := by rw [hlen] at hm; exact hm
      rw [List.getElem_set] at hmem
      by_cases hlm : la = m
      · rw [if_pos hlm] at hmem
        rcases (hmemE x).mp hmem with h3 | h3
        · exact Or.inl ((inv.cover x).mp ⟨_, List.getElem_mem hla, h3⟩)
        · exact Or.inr (Or.inr h3)
      · rw [if_neg hlm] at hmem
        exact Or.inl ((inv.cover x).mp ⟨_, List.getElem_mem h2, hmem⟩)
    · rintro (h | rfl | rfl)
      · obtain ⟨c, hc, hx⟩ := (inv.cover x).mpr h
        rcases List.mem_iff_get.mp hc with ⟨⟨m, hm⟩, hgc⟩
        rw [List.get_eq_getElem] at hgc
        have hx2 : x ∈ s.clusters[m] := by rw [hgc]; exact hx
        refine ⟨m, by rw [hlen]; exact hm, ?_⟩
        rw [List.getElem_set]
        by_cases hlm : la = m
        · subst hlm
          rw [if_pos rfl]
          exact (hmemE x).mpr (Or.inl hx2)
        · rw [if_neg hlm]
          exact hx2
      · exact ⟨la, by rw [hlen]; exact hla,
          by rw [List.getElem_set, if_pos rfl]; exact hE_a⟩
      · exact ⟨la, by rw [hlen]; exact hla,
          by rw [List.getElem_set, if_pos rfl]; exact hE_b⟩
  · intro c hc x hx y hy
    rcases List.mem_iff_get.mp hc with ⟨⟨m, hm⟩, hgc⟩
    rw [List.get_eq_getElem, List.getElem_set] at hgc
    by_cases hlm : la = m
    · rw [if_pos hlm] at hgc
      rw [← hgc] at hx hy
      exact hEconn x hx y hy
    · rw [if_neg hlm] at hgc
      have h2 : m < s.clusters.length := by rw [hlen] at hm; exact hm
      rw [← hgc] at hx hy
      exact hconn2 _ (List.getElem_mem h2) x hx y hy
  · intro u v huv
    have hEmem : (s.clusters[la] ∪ {b} ∪ {a})
        ∈ s.clusters.set la (s.clusters[la] ∪ {b} ∪ {a}) := by
      have hla2 : la < (s.clusters.set la (s.clusters[la] ∪ {b} ∪ {a})).length := by
        rw [hlen]
        exact hla
      have hmm := List.getElem_mem hla2
      rw [List.getElem_set, if_pos rfl] at hmm
      exact hmm
    rcases List.mem_append.mp huv with h | h
    · obtain ⟨c, hc, hu, hv⟩ := inv.edge_in u v h
      rcases List.mem_iff_get.mp hc with ⟨⟨m, hm⟩, hgc⟩
      rw [List.get_eq_getElem] at hgc
      have hu2 : u ∈ s.clusters[m] := by rw [hgc]; exact hu
      have hv2 : v ∈ s.clusters[m] := by rw [hgc]; exact hv
      by_cases hlm : la = m
      · subst hlm
        exact ⟨_, hEmem, (hmemE u).mpr (Or.inl hu2), (hmemE v).mpr (Or.inl hv2)⟩
      · refine ⟨s.clusters[m], ?_, hu2, hv2⟩
        have hm2 : m < (s.clusters.set la (s.clusters[la] ∪ {b} ∪ {a})).length := by
          rw [hlen]
          exact hm
        have hmm := List.getElem_mem hm2
        rw [List.getElem_set, if_neg hlm] at hmm
        exact hmm
    · have hp : (u, v) = (a, b) := List.mem_singleton.mp h
      have hu : u = a := congrArg Prod.fst hp
      have hv : v = b := congrArg Prod.snd hp
      subst hu
      subst hv
      exact ⟨_, hEmem, hE_a, hE_b⟩

theorem cdInv_step_bloc {l : List (ℕ × ℕ)} {s : CDState} (inv : CDInv l s)
    (a b lb : ℕ) (ha : s.location a = none) (hb : s.location b = some lb) :
    CDInv (l ++ [(a, b)])
      ⟨s.clusters.set lb (s.clusters.getD lb ∅ ∪ {a}),
        fun y => if y = a then some lb else s.location y⟩ := by
  obtain ⟨hlb, hmemb⟩ := (inv.loc_iff b lb).mp hb
  have hgd : s.clusters.getD lb ∅ = s.clusters[lb] := List.getD_eq_getElem _ _ hlb
  rw [hgd]
  have hfresha : ∀ m (hm : m < s.clusters.length), a ∉ s.clusters[m] := by
    intro m hm hx
    have hsm := (inv.loc_iff a m).mpr ⟨hm, hx⟩
    rw [ha] at hsm
    cases hsm
  have hconn2 : ∀ c ∈ s.clusters, ∀ x ∈ c, ∀ y ∈ c, pairConn (l ++ [(a, b)]) x y :=
    fun c hc x hx y hy => pairConn_mono l [(a, b)] (inv.conn_of c hc x hx y hy)
  have hab2 : pairConn (l ++ [(a, b)]) a b :=
    Relation.ReflTransGen.single (pairAdj_new l a b)
  have hmemE : ∀ x, x ∈ s.clusters[lb] ∪ {a} ↔ x ∈ s.clusters[lb] ∨ x = a := by
    intro x
    simp only [Finset.mem_union, Finset.mem_singleton]
  have hE_a : a ∈ s.clusters[lb] ∪ {a} := (hmemE a).mpr (Or.inr rfl)
  have hE_b : b ∈ s.clusters[lb] ∪ {a} := (hmemE b).mpr (Or.inl hmemb)
  have hEconn : ∀ x ∈ s.clusters[lb] ∪ {a}, ∀ y ∈ s.clusters[lb] ∪ {a},
      pairConn (l ++ [(a, b)]) x y := by
    intro x hx y hy
    rcases (hmemE x).mp hx with hx2 | h1 <;> rcases (hmemE y).mp hy with hy2 | h2
    · exact hconn2 _ (List.getElem_mem hlb) x hx2 y hy2
    · rw [h2]
      exact (hconn2 _ (List.getElem_mem hlb) x hx2 b hmemb).trans (pairConn_symm _ hab2)
    · rw [h1]
      exact hab2.trans (hconn2 _ (List.getElem_mem hlb) b hmemb y hy2)
    · rw [h1, h2]
      exact Relation.ReflTransGen.refl
  have hlen : (s.clusters.set lb (s.clusters[lb] ∪ {a})).length
      = s.clusters.length := List.length_set _ _ _
  refine ⟨?_, ?_, ?_, ?_⟩
  · intro x i
    by_cases hxa : x = a
    · have hfreshx : ∀ m (hm : m < s.clusters.length), x ∉ s.clusters[m] := by
        intro m hm hx
        exact hfresha m hm (by rw [← hxa]; exact hx)
      have hEx : x ∈ s.clusters[lb] ∪ {a} := (hmemE x).mpr (Or.inr hxa)
      show (if x = a then some lb else s.location x) = some i ↔ _
      rw [if_pos hxa]
      constructor
      · intro h
        have hi : lb = i := Option.some.inj h
        subst hi
        refine ⟨by rw [hlen]; exact hlb, ?_⟩
        rw [List.getElem_set, if_pos rfl]
        exact hEx
      · rintro ⟨h, hmem⟩
        have h2 : i < s.clusters.length := by rw [hlen] at h; exact h
        rw [List.getElem_set] at hmem
        by_cases hli : lb = i
        · exact congrArg some hli
        · rw [if_neg hli] at hmem
          exact (hfreshx i h2 hmem).elim
    · show (if x = a then some lb else s.location x) = some i ↔ _
      rw [if_neg hxa, inv.loc_iff x i]
      constructor
      · rintro ⟨h, hmem⟩
        refine ⟨by rw [hlen]; exact h, ?_⟩
        rw [List.getElem_set]
        by_cases hli : lb = i
        · subst hli
          rw [if_pos rfl]
          exact (hmemE x).mpr (Or.inl hmem)
        · rw [if_neg hli]
          exact hmem
      · rintro ⟨h, hmem⟩
        have h2 : i < s.clusters.length := by rw [hlen] at h; exact h
        rw [List.getElem_set] at hmem
        refine ⟨h2, ?_⟩
        by_cases hli : lb = i
        · subst hli
          rw [if_pos rfl] at hmem
          rcases (hmemE x).mp hmem with h3 | h3
          · exact h3
          · exact absurd h3 hxa
        · rw [if_neg hli] at hmem
          exact hmem
  · intro x
    rw [inPairs_append, exists_mem_iff_pos]
    constructor
    · rintro ⟨m, hm, hmem⟩
      have h2 : m < s.clusters.length := by rw [hlen] at hm; exact hm
      rw [List.getElem_set] at hmem
      by_cases hlm : lb = m
      · rw [if_pos hlm] at hmem
        rcases (hmemE x).mp hmem with h3 | h3
        · exact Or.inl ((inv.cover x).mp ⟨_, List.getElem_mem hlb, h3⟩)
        · exact Or.inr (Or.inl h3)
      · rw [if_neg hlm] at hmem
        exact Or.inl ((inv.cover x).mp ⟨_, List.getElem_mem h2, hmem⟩)
    · rintro (h | rfl | rfl)
      · obtain ⟨c, hc, hx⟩ := (inv.cover x).mpr h
        rcases List.mem_iff_get.mp hc with ⟨⟨m, hm⟩, hgc⟩
        rw [List.get_eq_getElem] at hgc
        have hx2 : x ∈ s.clusters[m] := by rw [hgc]; exact hx
        refine ⟨m, by rw [hlen]; exact hm, ?_⟩
        rw [List.getElem_set]
        by_cases hlm : lb = m
        · subst hlm
          rw [if_pos rfl]
          exact (hmemE x).mpr (Or.inl hx2)
        · rw [if_neg hlm]
          exact hx2
      · exact ⟨lb, by rw [hlen]; exact hlb,
          by rw [List.getElem_set, if_pos rfl]; exact hE_a⟩
      · exact ⟨lb, by rw [hlen]; exact hlb,
          by rw [List.getElem_set, if_pos rfl]; exact hE_b⟩
  · intro c hc x hx y hy
    rcases List.mem_iff_get.mp hc with ⟨⟨m, hm⟩, hgc⟩
    rw [List.get_eq_getElem, List.getElem_set] at hgc
    by_cases hlm : lb = m
    · rw [if_pos hlm] at hgc
      rw [← hgc] at hx hy
      exact hEconn x hx y hy
    · rw [if_neg hlm] at hgc
      have h2 : m < s.clusters.length := by rw [hlen] at hm; exact hm
      rw [← hgc] at hx hy
      exact hconn2 _ (List.getElem_mem h2) x hx y hy
  · intro u v huv
    have hEmem : (s.clusters[lb] ∪ {a})
        ∈ s.clusters.set lb (s.clusters[lb] ∪ {a}) := by
      have hlb2 : lb < (s.clusters.set lb (s.clusters[lb] ∪ {a})).length := by
        rw [hlen]
        exact hlb
      have hmm := List.getElem_mem hlb2
      rw [List.getElem_set, if_pos rfl] at hmm
      exact hmm
    rcases List.mem_append.mp huv with h | h
    · obtain ⟨c, hc, hu, hv⟩ := inv.edge_in u v h
      rcases List.mem_iff_get.mp hc with ⟨⟨m, hm⟩, hgc⟩
      rw [List.get_eq_getElem] at hgc
      have hu2 : u ∈ s.clusters[m] := by rw [hgc]; exact hu
      have hv2 : v ∈ s.clusters[m] := by rw [hgc]; exact hv
      by_cases hlm : lb = m
      · subst hlm
        exact ⟨_, hEmem, (hmemE u).mpr (Or.inl hu2), (hmemE v).mpr (Or.inl hv2)⟩
      · refine ⟨s.clusters[m], ?_, hu2, hv2⟩
        have hm2 : m < (s.clusters.set lb (s.clusters[lb] ∪ {a})).length := by
          rw [hlen]
          exact hm
        have hmm := List.getElem_mem hm2
        rw [List.getElem_set, if_neg hlm] at hmm
        exact hmm
    · have hp : (u, v) = (a, b) := List.mem_singleton.mp h
      have hu : u = a := congrArg Prod.fst hp
      have hv : v = b := congrArg Prod.snd hp
      subst hu
      subst hv
      exact ⟨_, hEmem, hE_a, hE_b⟩

theorem cdInv_step_none {l : List (ℕ × ℕ)} {s : CDState} (inv : CDInv l s)
    (a b : ℕ) (ha : s.location a = none) (hb : s.location b = none) :
    CDInv (l ++ [(a, b)])
      ⟨s.clusters ++ [{a, b}],
        fun y => if y = a ∨ y = b then some s.clusters.length
          else s.location y⟩ := by
  have hfresha : ∀ m (hm : m < s.clusters.length), a ∉ s.clusters[m] := by
    intro m hm hx
    have hsm := (inv.loc_iff a m).mpr ⟨hm, hx⟩
    rw [ha] at hsm
    cases hsm
  have hfreshb : ∀ m (hm : m < s.clusters.length), b ∉ s.clusters[m] := by
    intro m hm hx
    have hsm := (inv.loc_iff b m).mpr ⟨hm, hx⟩
    rw [hb] at hsm
    cases hsm
  have hconn2 : ∀ c ∈ s.clusters, ∀ x ∈ c, ∀ y ∈ c, pairConn (l ++ [(a, b)]) x y :=
    fun c hc x hx y hy => pairConn_mono l [(a, b)] (inv.conn_of c hc x hx y hy)
  have hab2 : pairConn (l ++ [(a, b)]) a b :=
    Relation.ReflTransGen.single (pairAdj_new l a b)
  have hmemE : ∀ x, x ∈ ({a, b} : Finset ℕ) ↔ x = a ∨ x = b := by
    intro x
    simp [Finset.mem_insert, Finset.mem_singleton]
  have hlen : (s.clusters ++ [({a, b} : Finset ℕ)]).length
      = s.clusters.length + 1 := by simp
  refine ⟨?_, ?_, ?_, ?_⟩
  · intro x i
    by_cases hx : x = a ∨ x = b
    · have hEx : x ∈ ({a, b} : Finset ℕ) := (hmemE x).mpr hx
      have hfreshx : ∀ m (hm : m < s.clusters.length), x ∉ s.clusters[m] := by
        intro m hm hmm
        rcases hx with h | h
        · exact hfresha m hm (by rw [← h]; exact hmm)
        · exact hfreshb m hm (by rw [← h]; exact hmm)
      show (if x = a ∨ x = b then some s.clusters.length else s.location x)
          = some i ↔ _
      rw [if_pos hx]
      constructor
      · intro h
        have hi : s.clusters.length = i := Option.some.inj h
        subst hi
        refine ⟨by rw [hlen]; omega, ?_⟩
        rw [List.getElem_concat_length _ _ _ rfl]
        exact hEx
      · rintro ⟨h, hmem⟩
        by_cases hi : i < s.clusters.length
        · rw [List.getElem_append_left hi] at hmem
          exact (hfreshx i hi hmem).elim
        · have hi2 : i = s.clusters.length := by rw [hlen] at h; omega
          exact congrArg some hi2.symm
    · show (if x = a ∨ x = b then some s.clusters.length else s.location x)
          = some i ↔ _
      rw [if_neg hx, inv.loc_iff x i]
      constructor
      · rintro ⟨h, hmem⟩
        refine ⟨by rw [hlen]; omega, ?_⟩
        rw [List.getElem_append_left h]
        exact hmem
      · rintro ⟨h, hmem⟩
        by_cases hi : i < s.clusters.length
        · rw [List.getElem_append_left hi] at hmem
          exact ⟨hi, hmem⟩
        · have hi2 : i = s.clusters.length := by rw [hlen] at h; omega
          subst hi2
          rw [List.getElem_concat_length _ _ _ rfl] at hmem
          exact absurd ((hmemE x).mp hmem) hx
  · intro x
    rw [inPairs_append, exists_mem_iff_pos]
    constructor
    · rintro ⟨m, hm, hmem⟩
      by_cases hmlt : m < s.clusters.length
      · rw [List.getElem_append_left hmlt] at hmem
        exact Or.inl ((inv.cover x).mp ⟨_, List.getElem_mem hmlt, hmem⟩)
      · have hm2 : m = s.clusters.length := by rw [hlen] at hm; omega
        subst hm2
        rw [List.getElem_concat_length _ _ _ rfl] at hmem
        exact Or.inr ((hmemE x).mp hmem)
    · rintro (h | rfl | rfl)
      · obtain ⟨c, hc, hx⟩ := (inv.cover x).mpr h
        rcases List.mem_iff_get.mp hc with ⟨⟨m, hm⟩, hgc⟩
        rw [List.get_eq_getElem] at hgc
        have hx2 : x ∈ s.clusters[m] := by rw [hgc]; exact hx
        refine ⟨m, by rw [hlen]; omega, ?_⟩
        rw [List.getElem_append_left hm]
        exact hx2
      · refine ⟨s.clusters.length, by rw [hlen]; omega, ?_⟩
        rw [List.getElem_concat_length _ _ _ rfl]
        exact (hmemE _).mpr (Or.inl rfl)
      · refine ⟨s.clusters.length, by rw [hlen]; omega, ?_⟩
        rw [List.getElem_concat_length _ _ _ rfl]
        exact (hmemE _).mpr (Or.inr rfl)
  · intro c hc x hx y hy
    rcases List.mem_iff_get.mp hc with ⟨⟨m, hm⟩, hgc⟩
    rw [List.get_eq_getElem] at hgc
    by_cases hmlt : m < s.clusters.length
    · rw [List.getElem_append_left hmlt] at hgc
      rw [← hgc] at hx hy
      exact hconn2 _ (List.getElem_mem hmlt) x hx y hy
    · have hm2 : m = s.clusters.length := by rw [hlen] at hm; omega
      subst hm2
      rw [List.getElem_concat_length _ _ _ rfl] at hgc
      rw [← hgc] at hx hy
      rcases (hmemE x).mp hx with h1 | h1 <;> rcases (hmemE y).mp hy with h2 | h2
      · rw [h1, h2]
        exact Relation.ReflTransGen.refl
      · rw [h1, h2]
        exact hab2
      · rw [h1, h2]
        exact pairConn_symm _ hab2
      · rw [h1, h2]
        exact Relation.ReflTransGen.refl
  · intro u v huv
    have hlast : ({a, b} : Finset ℕ) ∈ s.clusters ++ [{a, b}] :=
      List.mem_append_right _ (List.mem_singleton.mpr rfl)
    rcases List.mem_append.mp huv with h | h
    · obtain ⟨c, hc, hu, hv⟩ := inv.edge_in u v h
      exact ⟨c, List.mem_append_left _ hc, hu, hv⟩
    · have hp : (u, v) = (a, b) := List.mem_singleton.mp h
      have hu : u = a := congrArg Prod.fst hp
      have hv : v = b := congrArg Prod.snd hp
      subst hu
      subst hv
      exact ⟨_, hlast, (hmemE _).mpr (Or.inl rfl), (hmemE _).mpr (Or.inr rfl)⟩

theorem cdStep_inv {l : List (ℕ × ℕ)} {s : CDState} (inv : CDInv l s) (a b : ℕ) :
    CDInv (l ++ [(a, b)]) (cdStep s (a, b)) := by
  rcases ha : s.location a with _ | la
  · rcases hb : s.location b with _ | lb
    · rw [cdStep_eq_none s a b ha hb]
      exact cdInv_step_none inv a b ha hb
    · rw [cdStep_eq_bloc s a b lb ha hb]
      exact cdInv_step_bloc inv a b lb ha hb
  · rcases hb : s.location b with _ | lb
    · rw [cdStep_eq_aloc s a b la ha hb]
      obtain ⟨hla, _⟩ := (inv.loc_iff a la).mp ha
      have hsimp : (s.clusters.set la (s.clusters.getD la ∅ ∪ {b})).getD la ∅
          = s.clusters.getD la ∅ ∪ {b} := by
        rw [List.getD_eq_getElem _ _ (by rw [List.length_set]; exact hla),
          List.getElem_set, if_pos rfl]
      rw [hsimp, List.set_set]
      exact cdInv_step_aloc inv a b la ha hb
    · by_cases hne : la = lb
      · subst hne
        rw [cdStep_eq_same s a b la ha hb]
        exact cdInv_step_same inv a b la ha hb
      · rw [cdStep_eq_merge s a b la lb ha hb hne]
        exact cdInv_step_merge inv a b la lb ha hb hne

theorem cdInv_init : CDInv [] ⟨[], fun _ => none⟩ := by
  refine ⟨?_, ?_, ?_, ?_⟩
  · intro x i
    constructor
    · intro h
      cases h
    · rintro ⟨h, _⟩
      simp at h
  · intro x
    constructor
    · rintro ⟨c, hc, _⟩
      cases hc
    · rintro ⟨p, hp, _⟩
      cases hp
  · intro c hc
    cases hc
  · intro a b h
    cases h

theorem cdInv_foldl (l : List (ℕ × ℕ)) :
    CDInv l (l.foldl cdStep ⟨[], fun _ => none⟩) := by
  suffices h : ∀ (l2 : List (ℕ × ℕ)) (pre : List (ℕ × ℕ)) (s : CDState),
      CDInv pre s → CDInv (pre ++ l2) (l2.foldl cdStep s) by
    have h2 := h l [] _ cdInv_init
    simpa using h2
  intro l2
  induction l2 with
  | nil =>
    intro pre s hs
    simpa using hs
  | cons p t ih =>
    intro pre s hs
    rw [List.foldl_cons]
    have h1 : CDInv (pre ++ [p]) (cdStep s p) := by
      obtain ⟨a, b⟩ := p
      exact cdStep_inv hs a b
    have h2 := ih (pre ++ [p]) (cdStep s p) h1
    rw [List.append_assoc] at h2
    exact h2

/-- C10: `cluster_doubles` returns exactly the connected components of the
undirected graph whose edges are the input pairs: two elements appear in a
common returned cluster if and only if the first occurs in some input pair and
the two are joined by a path of input pairs, and every element occurring in
some input pair appears in exactly one returned cluster. -/
theorem cluster_doubles_connected_components (l : List (ℕ × ℕ)) :
    (∀ x y, (∃ c ∈ cluster_doubles l, x ∈ c ∧ y ∈ c) ↔
      inPairs l x ∧ pairConn l x y) ∧
    (∀ x, inPairs l x →
      (cluster_doubles l).countP (fun c => decide (x ∈ c)) = 1) := by
  have inv : CDInv l (l.foldl cdStep ⟨[], fun _ => none⟩) := cdInv_foldl l
  have hdisj := inv.pdisj
  have hstep : ∀ x y, pairConn l x y →
      ∀ i (hi : i < (l.foldl cdStep ⟨[], fun _ => none⟩).clusters.length),
        x ∈ (l.foldl cdStep ⟨[], fun _ => none⟩).clusters[i] →
        y ∈ (l.foldl cdStep ⟨[], fun _ => none⟩).clusters[i] := by
    intro x y hconn
    induction hconn with
    | refl =>
      intro i hi hx
      exact hx
    | @tail u v hr hadj ih =>
      intro i hi hx
      have hmid := ih i hi hx
      rcases hadj with h | h
      · obtain ⟨c2, hc2, h1, h2⟩ := inv.edge_in _ _ h
        rcases List.mem_iff_get.mp hc2 with ⟨⟨m, hm⟩, hgc⟩
        rw [List.get_eq_getElem] at hgc
        have h1m : u ∈ (l.foldl cdStep ⟨[], fun _ => none⟩).clusters[m] := by
          rw [hgc]
          exact h1
        have h2m : v ∈ (l.foldl cdStep ⟨[], fun _ => none⟩).clusters[m] := by
          rw [hgc]
          exact h2
        by_cases him : i = m
        · subst him
          exact h2m
        · exact (hdisj i m hi hm him _ hmid h1m).elim
      · obtain ⟨c2, hc2, h1, h2⟩ := inv.edge_in _ _ h
        rcases List.mem_iff_get.mp hc2 with ⟨⟨m, hm⟩, hgc⟩
        rw [List.get_eq_getElem] at hgc
        have h1m : v ∈ (l.foldl cdStep ⟨[], fun _ => none⟩).clusters[m] := by
          rw [hgc]
          exact h1
        have h2m : u ∈ (l.foldl cdStep ⟨[], fun _ => none⟩).clusters[m] := by
          rw [hgc]
          exact h2
        by_cases him : i = m
        · subst him
          exact h1m
        · exact (hdisj i m hi hm him _ hmid h2m).elim
  refine ⟨?_, ?_⟩
  · intro x y
    constructor
    · rintro ⟨c, hc, hx, hy⟩
      exact ⟨(inv.cover x).mp ⟨c, hc, hx⟩, inv.conn_of c hc x hx y hy⟩
    · rintro ⟨hin, hconn⟩
      obtain ⟨c, hc, hx⟩ := (inv.cover x).mpr hin
      rcases List.mem_iff_get.mp hc with ⟨⟨m, hm⟩, hgc⟩
      rw [List.get_eq_getElem] at hgc
      have hx2 : x ∈ (l.foldl cdStep ⟨[], fun _ => none⟩).clusters[m] := by
        rw [hgc]
        exact hx
      have hy2 := hstep x y hconn m hm hx2
      exact ⟨_, List.getElem_mem hm, hx2, hy2⟩
  · intro x hin
    obtain ⟨c, hc, hx⟩ := (inv.cover x).mpr hin
    rcases List.mem_iff_get.mp hc with ⟨⟨m, hm⟩, hgc⟩
    rw [List.get_eq_getElem] at hgc
    have hx2 : x ∈ (l.foldl cdStep ⟨[], fun _ => none⟩).clusters[m] := by
      rw [hgc]
      exact hx
    refine countP_eq_one_of_unique _ _ m hm (decide_eq_true hx2) ?_
    intro j hj hp
    have hxj : x ∈ (l.foldl cdStep ⟨[], fun _ => none⟩).clusters[j] :=
      of_decide_eq_true hp
    by_cases hjm : j = m
    · exact hjm
    · exact (hdisj j m hj hm hjm x hxj hx2).elim

/-- Witness for C10 on the pair list [(1, 2), (2, 3), (5, 6)]: elements 1 and
3 share a cluster via the path 1-2-3, and element 1 appears in exactly one
cluster. -/
theorem cluster_doubles_connected_components_witness :
    (∃ c ∈ cluster_doubles [(1, 2), (2, 3), (5, 6)], 1 ∈ c ∧ 3 ∈ c) ∧
    (cluster_doubles [(1, 2), (2, 3), (5, 6)]).countP
      (fun c => decide (1 ∈ c)) = 1 := by
  have h := cluster_doubles_connected_components [(1, 2), (2, 3), (5, 6)]
  constructor
  · refine (h.1 1 3).mpr ⟨⟨(1, 2), by decide, Or.inl rfl⟩, ?_⟩
    have s1 : Relation.ReflTransGen (pairAdj [(1, 2), (2, 3), (5, 6)]) 1 2 :=
      Relation.ReflTransGen.single (Or.inl (by decide))
    have s2 : pairAdj [(1, 2), (2, 3), (5, 6)] 2 3 := Or.inl (by decide)
    exact s1.tail s2
  · exact h.2 1 ⟨(1, 2), by decide, Or.inl rfl⟩
